import Mathlib

/-!
# Task optimizer: scoring engine, assignment orchestrator, delivery controller

A shallow embedding of `services/task-optimizer` (Go) and the properties of its
natural-language specification.

Conventions of the embedding

* Go `int` values are Lean `Int`s (no arithmetic of the program can overflow:
  the only integer arithmetic is a match counter bounded by a slice length).
* Go `float64` values are modelled exactly: a finite binary64 number is stored
  as the integer `scaled` with value `scaled * 2^(-1074)`, and every arithmetic
  operation is the exact operation followed by rounding to nearest, ties to
  even, onto the binary64 grid (53 significant bits, gradual underflow).  The
  expression `a*0.4 + b*0.4 + c*0.2` is evaluated operation by operation, each
  one rounded (no fused multiply-add), as the Go compiler does on amd64.
  Infinities, NaN and negative zero are not represented: the program never
  produces them (every division is guarded, all magnitudes are below `2^70`).
* Go strings are Lean `String`s (sequences of Unicode scalar values).
* The collaborators of the orchestrator (`UserRepository`, `EventPublisher`)
  are arbitrary state transformers; the calls made on them are recorded in a
  trace.  Logging is not modelled.
-/

namespace TaskOptimizer

/-! ## IEEE-754 binary64 arithmetic -/

/-- Nearest integer to `num / den`, ties to the even integer. -/
def roundHalfEven (num den : Nat) : Nat :=
  let q := num / den
  let r := num % den
  if 2 * r < den then q
  else if den < 2 * r then q + 1
  else if q % 2 = 0 then q else q + 1

/-- The position of the leading bit of `m`, for `m < 2^(2^e)`: at level `e + 1`
the upper half of the `2^(e+1)` candidate bits is tested and dropped. -/
def leadingBit : Nat → Nat → Nat
  | 0, _ => 0
  | e + 1, m =>
    let s := Nat.shiftLeft 1 e
    if Nat.shiftLeft 1 s ≤ m then s + leadingBit e (Nat.shiftRight m s) else leadingBit e m

/-- The loop of `floorLog2`: drops 4096 bits at a time while `n` has more. -/
def log2Loop : Nat → Nat → Nat → Nat
  | 0, n, acc => acc + leadingBit 12 n
  | fuel + 1, n, acc =>
    if Nat.shiftLeft 1 4096 ≤ n then log2Loop fuel (Nat.shiftRight n 4096) (acc + 4096)
    else acc + leadingBit 12 n

/-- The position of the leading bit of `n` (`⌊log2 n⌋`, and `0` for `n = 0`). -/
def floorLog2 (n : Nat) : Nat := log2Loop n n 0

/-- Nearest binary64 magnitude to `num / den`, both in units of `2^(-1074)`:
below `2^53` units the grid has spacing one unit (subnormals and the first
normal binade), above it the spacing is `2^k` with `k = ⌊log2 (num/den)⌋ - 52`. -/
def roundMagnitude (num den : Nat) : Nat :=
  let k := floorLog2 (num / den) - 52
  Nat.shiftLeft (roundHalfEven num (Nat.shiftLeft den k)) k

/-- The number of units of `2^(-1074)` in `1.0`. -/
def Float64.one_scaled : Nat := Nat.shiftLeft 1 1074

/-- A finite `float64`: the value is `scaled * 2^(-1074)`. -/
structure Float64 where
  scaled : Int
deriving DecidableEq, Repr

namespace Float64

/-- Rounds the exact value `num / den` (in units of `2^(-1074)`) to binary64. -/
def roundUnits (num : Int) (den : Nat) : Float64 :=
  ⟨Int.sign num * (roundMagnitude num.natAbs den : Nat)⟩

/-- The `float64` nearest to the rational `num / den`: a decimal constant of
the source (`0.4` is `ofRatio 4 10`). -/
def ofRatio (num : Int) (den : Nat) : Float64 :=
  roundUnits (num * (one_scaled : Nat)) den

/-- Go conversion `float64(n)` of an `int`. -/
def ofInt (n : Int) : Float64 := ofRatio n 1

/-- Go `x + y` on `float64`. -/
def add (x y : Float64) : Float64 := roundUnits (x.scaled + y.scaled) 1

/-- Go `x - y` on `float64`. -/
def sub (x y : Float64) : Float64 := roundUnits (x.scaled - y.scaled) 1

/-- Go `x * y` on `float64`. -/
def mul (x y : Float64) : Float64 := roundUnits (x.scaled * y.scaled) one_scaled

/-- Go `x / y` on `float64`, for `y ≠ 0`. -/
def div (x y : Float64) : Float64 :=
  roundUnits (Int.sign y.scaled * x.scaled * (one_scaled : Nat)) y.scaled.natAbs

/-- Go `x > y` on `float64`. -/
def gt (x y : Float64) : Bool := decide (y.scaled < x.scaled)

instance : LE Float64 := ⟨fun x y => x.scaled ≤ y.scaled⟩

instance : LT Float64 := ⟨fun x y => x.scaled < y.scaled⟩

instance (x y : Float64) : Decidable (x ≤ y) := Int.decLe x.scaled y.scaled

instance (x y : Float64) : Decidable (x < y) := Int.decLt x.scaled y.scaled

/-- The verb `%.0f` of `fmt.Sprintf`: the value rounded to an integer, ties to
even, in decimal. -/
def format0 (x : Float64) : String :=
  (if x.scaled < 0 then "-" else "") ++ toString (roundHalfEven x.scaled.natAbs one_scaled)

end Float64

/-- The verb `%d` of `fmt.Sprintf` on an `int`. -/
def formatInt (n : Int) : String :=
  if n < 0 then "-" ++ toString n.natAbs else toString n.natAbs

/-! ## `strings.EqualFold` -/

/-- The letter test of `strings.EqualFold` on two ASCII code units: after
ordering them as `sr < tr`, `'A' <= sr && sr <= 'Z' && tr == sr+'a'-'A'`. -/
def asciiFoldMatch (a b : Nat) : Bool :=
  let sr := min a b
  let tr := max a b
  decide (65 ≤ sr) && decide (sr ≤ 90) && decide (tr = sr + 32)

/-- The ASCII loop of `strings.EqualFold`; at the first position where either
string holds a code unit `>= utf8.RuneSelf` the rest of both strings goes to
`hasUnicode`, the table-driven comparison (`unicode.SimpleFold`), which is a
parameter of the model. -/
def equalFoldLoop (hasUnicode : List Char → List Char → Bool) :
    List Char → List Char → Bool
  | [], t => t.isEmpty
  | _ :: _, [] => false
  | sr :: s, tr :: t =>
    if 128 ≤ sr.toNat ∨ 128 ≤ tr.toNat then hasUnicode (sr :: s) (tr :: t)
    else if tr = sr then equalFoldLoop hasUnicode s t
    else if asciiFoldMatch sr.toNat tr.toNat then equalFoldLoop hasUnicode s t
    else false

/-- Go `strings.EqualFold(s, t)`. -/
def EqualFold (hasUnicode : List Char → List Char → Bool) (s t : String) : Bool :=
  equalFoldLoop hasUnicode s.data t.data

/-! ## Domain model (`internal/domain/models.go`) -/

/-- The `Task` struct; `CreatedAt` is a timestamp. -/
structure Task where
  ID : Int
  Title : String
  Description : String
  Priority : Int
  ProjectID : Int
  Skills : List String
  CreatedAt : Int
deriving DecidableEq, Repr

/-- The `User` struct. -/
structure User where
  ID : Int
  Name : String
  Email : String
  Role : String
  Skills : List String
  CurrentLoad : Int
  MaxCapacity : Int
deriving DecidableEq, Repr

/-- The `AssignmentResult` struct. -/
structure AssignmentResult where
  UserID : Int
  UserName : String
  TotalScore : Float64
  SkillScore : Float64
  LoadScore : Float64
  PriorityBonus : Float64
  Reason : String
deriving DecidableEq, Repr

/-! ## Scoring engine (`internal/domain/optimizer.go`) -/

/-- The inner loop of `calculateSkillMatch`: whether some user skill equals
`taskSkill` under `strings.EqualFold` (the loop breaks at the first one). -/
def hasSkill (hasUnicode : List Char → List Char → Bool) (taskSkill : String) :
    List String → Bool
  | [] => false
  | userSkill :: rest =>
    if EqualFold hasUnicode taskSkill userSkill then true
    else hasSkill hasUnicode taskSkill rest

/-- The outer loop of `calculateSkillMatch`: the value of `matches` after the
task skills were visited, starting from `acc`. -/
def countMatches (hasUnicode : List Char → List Char → Bool) (userSkills : List String) :
    List String → Int → Int
  | [], acc => acc
  | taskSkill :: rest, acc =>
    countMatches hasUnicode userSkills rest
      (if hasSkill hasUnicode taskSkill userSkills then acc + 1 else acc)

/-- Go `calculateSkillMatch(userSkills, taskSkills)`. -/
def calculateSkillMatch (hasUnicode : List Char → List Char → Bool)
    (userSkills taskSkills : List String) : Float64 :=
  if taskSkills.length = 0 then Float64.ofRatio 1 1
  else
    Float64.div (Float64.ofInt (countMatches hasUnicode userSkills taskSkills 0))
      (Float64.ofInt taskSkills.length)

/-- Go `calculateLoadScore(currentLoad, maxCapacity)`. -/
def calculateLoadScore (currentLoad maxCapacity : Int) : Float64 :=
  if maxCapacity = 0 then Float64.ofRatio 0 1
  else if currentLoad ≥ maxCapacity then Float64.ofRatio 0 1
  else
    let loadPercentage := Float64.div (Float64.ofInt currentLoad) (Float64.ofInt maxCapacity)
    Float64.sub (Float64.ofRatio 1 1) loadPercentage

/-- Go `calculatePriorityBonus(priority)`. -/
def calculatePriorityBonus (priority : Int) : Float64 :=
  let priority := if priority < 1 then 1 else priority
  let priority := if priority > 5 then 5 else priority
  Float64.div (Float64.ofInt priority) (Float64.ofRatio 5 1)

/-- The `Reason` text built by `fmt.Sprintf` in `calculateScores`. -/
def formatReason (skillScore : Float64) (currentLoad maxCapacity priority : Int) : String :=
  "Skill match: " ++ Float64.format0 (Float64.mul skillScore (Float64.ofRatio 100 1))
    ++ "%, Load: " ++ formatInt currentLoad ++ "/" ++ formatInt maxCapacity
    ++ ", Priority: " ++ formatInt priority

/-- The body of the loop of `calculateScores`: the result built for one user. -/
def scoreUser (hasUnicode : List Char → List Char → Bool) (task : Task) (user : User) :
    AssignmentResult :=
  let skillScore := calculateSkillMatch hasUnicode user.Skills task.Skills
  let loadScore := calculateLoadScore user.CurrentLoad user.MaxCapacity
  let priorityBonus := calculatePriorityBonus task.Priority
  let totalScore :=
    Float64.add
      (Float64.add (Float64.mul skillScore (Float64.ofRatio 4 10))
        (Float64.mul loadScore (Float64.ofRatio 4 10)))
      (Float64.mul priorityBonus (Float64.ofRatio 2 10))
  { UserID := user.ID
    UserName := user.Name
    TotalScore := totalScore
    SkillScore := skillScore
    LoadScore := loadScore
    PriorityBonus := priorityBonus
    Reason := formatReason skillScore user.CurrentLoad user.MaxCapacity task.Priority }

/-- Go `calculateScores(task, users)`: one result is appended per user, in
order. -/
def calculateScores (hasUnicode : List Char → List Char → Bool) (task : Task) :
    List User → List AssignmentResult
  | [] => []
  | user :: rest => scoreUser hasUnicode task user :: calculateScores hasUnicode task rest

/-! ## `sort.Slice` (Go standard library, `sort/zsortfunc.go`, as of Go 1.24)

The pattern-defeating quicksort is the library's sort since Go 1.19; releases
before 1.24 use other shift constants in `xorshift`, which only changes the
positions `breakPatterns_func` swaps.

The slice being sorted is the list of its elements; `data.Less(i, j)` is
`less (read data i) (read data j)` and `data.Swap(i, j)` is `swapAt data i j`.
Loops whose exit depends on the data take a fuel argument and return `none`
when it runs out. -/

section SortSlice

variable {α : Type} [Inhabited α]

/-- The element `data[i]`; `default` stands for an index out of range, which
the sort never reads. -/
def read (data : List α) (i : Nat) : α := data.getD i default

/-- The swap `data.Swap(i, j)`. -/
def swapAt (data : List α) (i j : Nat) : List α :=
  (data.set i (read data j)).set j (read data i)

/-- The inner loop of `insertionSort_func`,
`for j := i; j > a && data.Less(j, j-1); j-- { data.Swap(j, j-1) }`, entered at `j`. -/
def insertionShift (less : α → α → Bool) (a : Nat) : Nat → List α → List α
  | 0, data => data
  | j + 1, data =>
    if a < j + 1 ∧ less (read data (j + 1)) (read data j) = true then
      insertionShift less a j (swapAt data (j + 1) j)
    else data

/-- Go `insertionSort_func(data, a, b)`: `for i := a + 1; i < b; i++` around
the inner loop. -/
def insertionSort_func (less : α → α → Bool) (data : List α) (a b : Nat) : List α :=
  (List.range' (a + 1) (b - (a + 1))).foldl (fun d i => insertionShift less a i d) data

/-- Go `siftDown_func(data, lo, hi, first)`; the loop is entered with
`root = lo`. -/
def siftDown_func (less : α → α → Bool) (hi first : Nat) :
    Nat → Nat → List α → Option (List α)
  | 0, _, _ => none
  | fuel + 1, root, data =>
    let child := 2 * root + 1
    if hi ≤ child then some data
    else
      let child :=
        if child + 1 < hi ∧ less (read data (first + child)) (read data (first + child + 1)) = true
        then child + 1 else child
      if less (read data (first + root)) (read data (first + child)) = false then some data
      else siftDown_func less hi first fuel child (swapAt data (first + root) (first + child))

/-- Go `heapSort_func(data, a, b)`: the heap is built by `siftDown_func` for
`i = (hi-1)/2, ..., 0`, then the largest element is popped to the end for
`i = hi-1, ..., 0`. -/
def heapSort_func (less : α → α → Bool) (data : List α) (a b : Nat) : Option (List α) :=
  let first := a
  let lo := 0
  let hi := b - a
  do
    let data ← (List.range ((hi - 1) / 2 + 1)).reverse.foldlM
      (fun d i => siftDown_func less hi first (hi + 1) i d) data
    (List.range hi).reverse.foldlM
      (fun d i => siftDown_func less i first (hi + 1) lo (swapAt d first (first + i))) data

/-- The loop `for i <= j && data.Less(i, a) { i++ }` of `partition_func`; `n`
counts the positions left (`j + 1 - i`). -/
def scanLess (less : α → α → Bool) (data : List α) (a j : Nat) : Nat → Nat → Nat
  | 0, i => i
  | n + 1, i =>
    if i ≤ j ∧ less (read data i) (read data a) = true then scanLess less data a j n (i + 1) else i

/-- The loop `for i <= j && !data.Less(j, a) { j-- }` of `partition_func`.  The
indices `i` and `j` are stored shifted by one (`i1 = i + 1`, `j1 = j + 1`), so
that `j = i - 1` stays representable when `i = 0`. -/
def scanNotLess (less : α → α → Bool) (data : List α) (a i1 : Nat) : Nat → Nat
  | 0 => 0
  | j + 1 =>
    if i1 ≤ j + 1 ∧ less (read data j) (read data a) = false then scanNotLess less data a i1 j
    else j + 1

/-- The closing loop of `partition_func`,
`for { scan i; scan j; if i > j { break }; data.Swap(i, j); i++; j-- }`; returns
the data and `j + 1`. -/
def partitionLoop (less : α → α → Bool) (a : Nat) :
    Nat → List α → Nat → Nat → Option (List α × Nat)
  | 0, _, _, _ => none
  | fuel + 1, data, i, j1 =>
    let i := scanLess less data a (j1 - 1) (j1 - i) i
    let j1 := scanNotLess less data a (i + 1) j1
    if j1 < i + 1 then some (data, j1)
    else partitionLoop less a fuel (swapAt data i (j1 - 1)) (i + 1) (j1 - 1)

/-- Go `partition_func(data, a, b, pivot)`: the data, `newpivot` and
`alreadyPartitioned`. -/
def partition_func (less : α → α → Bool) (data : List α) (a b pivot : Nat) :
    Option (List α × Nat × Bool) :=
  let data := swapAt data a pivot
  let i := a + 1
  let j1 := b
  let i := scanLess less data a (j1 - 1) (j1 - i) i
  let j1 := scanNotLess less data a (i + 1) j1
  if j1 < i + 1 then some (swapAt data (j1 - 1) a, j1 - 1, true)
  else
    let data := swapAt data i (j1 - 1)
    match partitionLoop less a (b - a) data (i + 1) (j1 - 1) with
    | none => none
    | some (data, j1) => some (swapAt data (j1 - 1) a, j1 - 1, false)

/-- The loop `for i <= j && !data.Less(a, i) { i++ }` of `partitionEqual_func`. -/
def scanNotGreater (less : α → α → Bool) (data : List α) (a j : Nat) : Nat → Nat → Nat
  | 0, i => i
  | n + 1, i =>
    if i ≤ j ∧ less (read data a) (read data i) = false then scanNotGreater less data a j n (i + 1)
    else i

/-- The loop `for i <= j && data.Less(a, j) { j-- }` of `partitionEqual_func`,
on `j + 1`. -/
def scanGreater (less : α → α → Bool) (data : List α) (a i1 : Nat) : Nat → Nat
  | 0 => 0
  | j + 1 =>
    if i1 ≤ j + 1 ∧ less (read data a) (read data j) = true then scanGreater less data a i1 j
    else j + 1

/-- The loop of `partitionEqual_func`; returns the data and `i`. -/
def partitionEqualLoop (less : α → α → Bool) (a : Nat) :
    Nat → List α → Nat → Nat → Option (List α × Nat)
  | 0, _, _, _ => none
  | fuel + 1, data, i, j1 =>
    let i := scanNotGreater less data a (j1 - 1) (j1 - i) i
    let j1 := scanGreater less data a (i + 1) j1
    if j1 < i + 1 then some (data, i)
    else partitionEqualLoop less a fuel (swapAt data i (j1 - 1)) (i + 1) (j1 - 1)

/-- Go `partitionEqual_func(data, a, b, pivot)`: the data and `newpivot`. -/
def partitionEqual_func (less : α → α → Bool) (data : List α) (a b pivot : Nat) :
    Option (List α × Nat) :=
  partitionEqualLoop less a (b - a + 1) (swapAt data a pivot) (a + 1) b

/-- The scan `for i < b && !data.Less(i, i-1) { i++ }` of
`partialInsertionSort_func`; `n` counts the positions left (`b - i`). -/
def scanOrdered (less : α → α → Bool) (data : List α) (b : Nat) : Nat → Nat → Nat
  | 0, i => i
  | n + 1, i =>
    if i < b ∧ less (read data i) (read data (i - 1)) = false then scanOrdered less data b n (i + 1)
    else i

/-- The loop `for j := i - 1; j >= 1; j-- { if !data.Less(j, j-1) { break };
data.Swap(j, j-1) }` of `partialInsertionSort_func`, entered at `j`. -/
def shiftSmaller (less : α → α → Bool) : Nat → List α → List α
  | 0, data => data
  | j + 1, data =>
    if less (read data (j + 1)) (read data j) = false then data
    else shiftSmaller less j (swapAt data (j + 1) j)

/-- The loop `for j := i + 1; j < b; j++ { if !data.Less(j, j-1) { break };
data.Swap(j, j-1) }` of `partialInsertionSort_func`; `n` counts the positions
left (`b - j`). -/
def shiftGreater (less : α → α → Bool) : Nat → Nat → List α → List α
  | 0, _, data => data
  | n + 1, j, data =>
    if less (read data j) (read data (j - 1)) = false then data
    else shiftGreater less n (j + 1) (swapAt data j (j - 1))

/-- The outer loop of `partialInsertionSort_func` (`maxSteps = 5`,
`shortestShifting = 50`); `steps` counts the iterations left. -/
def partialInsertionLoop (less : α → α → Bool) (a b : Nat) :
    Nat → Nat → List α → List α × Bool
  | 0, _, data => (data, false)
  | steps + 1, i, data =>
    let i := scanOrdered less data b (b - i) i
    if i = b then (data, true)
    else if b - a < 50 then (data, false)
    else
      let data := swapAt data i (i - 1)
      let data := if 2 ≤ i - a then shiftSmaller less (i - 1) data else data
      let data := if 2 ≤ b - i then shiftGreater less (b - (i + 1)) (i + 1) data else data
      partialInsertionLoop less a b steps i data

/-- Go `partialInsertionSort_func(data, a, b)`. -/
def partialInsertionSort_func (less : α → α → Bool) (data : List α) (a b : Nat) :
    List α × Bool :=
  partialInsertionLoop less a b 5 (a + 1) data

/-- Go `bits.Len(x)`: the number of bits needed to write `x`. -/
def bitsLen (x : Nat) : Nat := if x = 0 then 0 else floorLog2 x + 1

/-- The method `Next` of `xorshift` (a `uint64`): shifts 13, 7 and 17. -/
def xorshiftNext (r : Nat) : Nat :=
  let r := Nat.xor r (Nat.shiftLeft r 13 % 2 ^ 64)
  let r := Nat.xor r (Nat.shiftRight r 7)
  Nat.xor r (Nat.shiftLeft r 17 % 2 ^ 64)

/-- The loop `for i := 0; i < 3; i++` of `breakPatterns_func`, which swaps the
three positions `idx`, `idx + 1`, `idx + 2` around the middle of the range with
pseudo-random ones; `n` counts the iterations left. -/
def breakPatternsLoop (a length modulus idx : Nat) : Nat → Nat → Nat → List α → List α
  | 0, _, _, data => data
  | n + 1, i, random, data =>
    let random := xorshiftNext random
    let other := Nat.land random (modulus - 1)
    let other := if length ≤ other then other - length else other
    breakPatternsLoop a length modulus idx n (i + 1) random (swapAt data (idx + i) (a + other))

/-- Go `breakPatterns_func(data, a, b)`. -/
def breakPatterns_func (data : List α) (a b : Nat) : List α :=
  let length := b - a
  if 8 ≤ length then
    let random := length
    let modulus := Nat.shiftLeft 1 (bitsLen length)
    let idx := a + (length / 4) * 2 - 1
    breakPatternsLoop a length modulus idx 3 0 random data
  else data

/-- The type `sortedHint`. -/
inductive sortedHint where
  | unknownHint
  | increasingHint
  | decreasingHint
deriving DecidableEq, Repr

/-- Go `order2_func(data, a, b, swaps)`: the two indices and the updated
counter. -/
def order2_func (less : α → α → Bool) (data : List α) (a b swaps : Nat) : Nat × Nat × Nat :=
  if less (read data b) (read data a) = true then (b, a, swaps + 1) else (a, b, swaps)

/-- Go `median_func(data, a, b, c, swaps)`: the index and the updated counter. -/
def median_func (less : α → α → Bool) (data : List α) (a b c swaps : Nat) : Nat × Nat :=
  let r1 := order2_func less data a b swaps
  let r2 := order2_func less data r1.2.1 c r1.2.2
  let r3 := order2_func less data r1.1 r2.1 r2.2.2
  (r3.2.1, r3.2.2)

/-- Go `medianAdjacent_func(data, a, swaps)`. -/
def medianAdjacent_func (less : α → α → Bool) (data : List α) (a swaps : Nat) : Nat × Nat :=
  median_func less data (a - 1) a (a + 1) swaps

/-- Go `choosePivot_func(data, a, b)` (`shortestNinther = 50`,
`maxSwaps = 4 * 3`). -/
def choosePivot_func (less : α → α → Bool) (data : List α) (a b : Nat) : Nat × sortedHint :=
  let l := b - a
  let i := a + l / 4 * 1
  let j := a + l / 4 * 2
  let k := a + l / 4 * 3
  let r :=
    if 8 ≤ l then
      if 50 ≤ l then
        let ri := medianAdjacent_func less data i 0
        let rj := medianAdjacent_func less data j ri.2
        let rk := medianAdjacent_func less data k rj.2
        median_func less data ri.1 rj.1 rk.1 rk.2
      else median_func less data i j k 0
    else (j, 0)
  if r.2 = 0 then (r.1, sortedHint.increasingHint)
  else if r.2 = 12 then (r.1, sortedHint.decreasingHint)
  else (r.1, sortedHint.unknownHint)

/-- The loop of `reverseRange_func`, `for i < j { data.Swap(i, j); i++; j-- }`,
on `i` and `j + 1`. -/
def reverseLoop : Nat → Nat → Nat → List α → List α
  | 0, _, _, data => data
  | n + 1, i, j1, data =>
    if i + 1 < j1 then reverseLoop n (i + 1) (j1 - 1) (swapAt data i (j1 - 1)) else data

/-- Go `reverseRange_func(data, a, b)`. -/
def reverseRange_func (data : List α) (a b : Nat) : List α :=
  reverseLoop (b - a) a b data

/-- Go `pdqsort_func(data, a, b, limit)` (`maxInsertion = 12`).  One unit of
fuel is spent per iteration of the outer loop; the recursive call on the
smaller side starts with `wasBalanced = wasPartitioned = true`, the iteration
that follows it keeps the values just computed. -/
def pdqsort_func (less : α → α → Bool) :
    Nat → List α → Nat → Nat → Nat → Bool → Bool → Option (List α)
  | 0, _, _, _, _, _, _ => none
  | fuel + 1, data, a, b, limit, wasBalanced, wasPartitioned =>
    let length := b - a
    if length ≤ 12 then some (insertionSort_func less data a b)
    else if limit = 0 then heapSort_func less data a b
    else
      let data := if wasBalanced then data else breakPatterns_func data a b
      let limit := if wasBalanced then limit else limit - 1
      let ph := choosePivot_func less data a b
      let reversed := decide (ph.2 = sortedHint.decreasingHint)
      let data := if reversed then reverseRange_func data a b else data
      let pivot := if reversed then (b - 1) - (ph.1 - a) else ph.1
      let hint := if reversed then sortedHint.increasingHint else ph.2
      let tried :=
        if wasBalanced ∧ wasPartitioned ∧ hint = sortedHint.increasingHint then
          partialInsertionSort_func less data a b
        else (data, false)
      if tried.2 then some tried.1
      else
        let data := tried.1
        if 0 < a ∧ less (read data (a - 1)) (read data pivot) = false then
          match partitionEqual_func less data a b pivot with
          | none => none
          | some (data, mid) =>
            pdqsort_func less fuel data mid b limit wasBalanced wasPartitioned
        else
          match partition_func less data a b pivot with
          | none => none
          | some (data, mid, alreadyPartitioned) =>
            let leftLen := mid - a
            let rightLen := b - mid
            let balanceThreshold := length / 8
            if leftLen < rightLen then
              match pdqsort_func less fuel data a mid limit true true with
              | none => none
              | some data =>
                pdqsort_func less fuel data (mid + 1) b limit
                  (decide (balanceThreshold ≤ leftLen)) alreadyPartitioned
            else
              match pdqsort_func less fuel data (mid + 1) b limit true true with
              | none => none
              | some data =>
                pdqsort_func less fuel data a mid limit
                  (decide (balanceThreshold ≤ rightLen)) alreadyPartitioned

/-- Go `sort.Slice(x, less)`, with `less` given on elements:
`limit := bits.Len(uint(length)); pdqsort_func(data, 0, length, limit)`. -/
def sortSlice (less : α → α → Bool) (x : List α) : Option (List α) :=
  pdqsort_func less (x.length + 1) x 0 x.length (bitsLen x.length) true true

end SortSlice

/-! ## Errors, events and collaborators -/

/-- Go `error` values: the sentinel `ErrNoSuitableUsers`, an error that is only
a message (`fmt.Errorf` without `%w`, or whatever a collaborator returns), and
`fmt.Errorf(msg + ": %w", cause)`. -/
inductive Error where
  | ErrNoSuitableUsers
  | message (msg : String)
  | wrapped (msg : String) (cause : Error)
deriving DecidableEq, Repr

/-- Go `errors.Is(err, target)`: `target` is `err` or is in its chain of
wrapped causes. -/
def Error.Is : Error → Error → Bool
  | Error.wrapped msg cause, target =>
    decide (Error.wrapped msg cause = target) || Error.Is cause target
  | err, target => decide (err = target)

/-- The `TaskCreatedEvent` struct. -/
structure TaskCreatedEvent where
  TaskID : Int
  Title : String
  Description : String
  Priority : Int
  ProjectID : Int
  Skills : List String
  CreatedAt : Int
deriving DecidableEq, Repr

/-- The `TaskAssignedEvent` struct. -/
structure TaskAssignedEvent where
  TaskID : Int
  AssigneeID : Int
  Score : Float64
  Reason : String
  AssignedAt : Int
deriving DecidableEq, Repr

/-- Go `TaskCreatedEvent.ToTask`. -/
def TaskCreatedEvent.ToTask (e : TaskCreatedEvent) : Task :=
  { ID := e.TaskID
    Title := e.Title
    Description := e.Description
    Priority := e.Priority
    ProjectID := e.ProjectID
    Skills := e.Skills
    CreatedAt := e.CreatedAt }

/-- A call made on a collaborator: the methods of `UserRepository` and
`EventPublisher` the service uses, and the acknowledgment methods of an
`amqp.Delivery`. -/
inductive Call where
  | GetActiveUsers
  | UpdateUserLoad (userID increment : Int)
  | PublishTaskAssigned (event : TaskAssignedEvent)
  | Ack (multiple : Bool)
  | Nack (multiple requeue : Bool)
deriving DecidableEq, Repr

/-- The collaborators, as transformers of an external state `σ`: what each
call returns and the state it leaves.  `Now` is `time.Now()`. -/
structure Collaborators (σ : Type) where
  GetActiveUsers : σ → Except Error (List User) × σ
  UpdateUserLoad : Int → Int → σ → Option Error × σ
  PublishTaskAssigned : TaskAssignedEvent → σ → Option Error × σ
  Now : σ → Int

/-- The external state together with the calls made so far, oldest first. -/
structure World (σ : Type) where
  state : σ
  calls : List Call

instance : Inhabited AssignmentResult :=
  ⟨⟨0, "", ⟨0⟩, ⟨0⟩, ⟨0⟩, ⟨0⟩, ""⟩⟩

/-- The `less` closure given to `sort.Slice` in `FindBestAssignee`:
`scores[i].TotalScore > scores[j].TotalScore`. -/
def scoreLess (x y : AssignmentResult) : Bool := Float64.gt x.TotalScore y.TotalScore

/-- Go `OptimizerService.FindBestAssignee(ctx, task)`: the returned pair
`(*AssignmentResult, error)` as an `Except`, and the world after the call.
`none` stands for a sort that ran out of fuel. -/
def FindBestAssignee {σ : Type} (hasUnicode : List Char → List Char → Bool)
    (c : Collaborators σ) (task : Task) (w : World σ) :
    Option (Except Error AssignmentResult × World σ) :=
  let r := c.GetActiveUsers w.state
  let w : World σ := ⟨r.2, w.calls ++ [Call.GetActiveUsers]⟩
  match r.1 with
  | Except.error err => some (Except.error (Error.wrapped "failed to get users" err), w)
  | Except.ok users =>
    if users.length = 0 then some (Except.error Error.ErrNoSuitableUsers, w)
    else
      match sortSlice scoreLess (calculateScores hasUnicode task users) with
      | none => none
      | some scores => some (Except.ok (read scores 0), w)

/-- Go `AssignTaskUseCase.Execute(ctx, task)`: the returned `error` (`none` is
`nil`) and the world after the call. -/
def Execute {σ : Type} (hasUnicode : List Char → List Char → Bool)
    (c : Collaborators σ) (task : Task) (w : World σ) : Option (Option Error × World σ) :=
  match FindBestAssignee hasUnicode c task w with
  | none => none
  | some (Except.error err, w) => some (some (Error.wrapped "failed to find assignee" err), w)
  | some (Except.ok result, w) =>
    let u := c.UpdateUserLoad result.UserID 1 w.state
    let w : World σ := ⟨u.2, w.calls ++ [Call.UpdateUserLoad result.UserID 1]⟩
    let event : TaskAssignedEvent :=
      { TaskID := task.ID
        AssigneeID := result.UserID
        Score := result.TotalScore
        Reason := result.Reason
        AssignedAt := c.Now w.state }
    let p := c.PublishTaskAssigned event w.state
    let w : World σ := ⟨p.2, w.calls ++ [Call.PublishTaskAssigned event]⟩
    match p.1 with
    | some err => some (some (Error.wrapped "failed to publish event" err), w)
    | none => some (none, w)

/-! ## Delivery controller (`interfaces/consumer/handler.go`, `messaging/rabbitmq/consumer.go`) -/

/-- Go `TaskEventHandler.validateEvent(event)`; `none` is `nil`. -/
def validateEvent (event : TaskCreatedEvent) : Option Error :=
  if event.TaskID ≤ 0 then
    some (Error.message ("invalid task_id: " ++ formatInt event.TaskID))
  else if event.Title = "" then
    some (Error.message "title cannot be empty")
  else if event.Priority < 1 ∨ event.Priority > 5 then
    some (Error.message
      ("priority must be between 1 and 5, got: " ++ formatInt event.Priority))
  else if event.ProjectID ≤ 0 then
    some (Error.message ("invalid project_id: " ++ formatInt event.ProjectID))
  else none

/-- Go `TaskEventHandler.HandleTaskCreated(ctx, event)`. -/
def HandleTaskCreated {σ : Type} (hasUnicode : List Char → List Char → Bool)
    (c : Collaborators σ) (event : TaskCreatedEvent) (w : World σ) :
    Option (Option Error × World σ) :=
  match validateEvent event with
  | some err => some (some (Error.wrapped "validation failed" err), w)
  | none =>
    match Execute hasUnicode c event.ToTask w with
    | none => none
    | some (some err, w) => some (some err, w)
    | some (none, w) => some (none, w)

/-- The acknowledger of an `amqp.Delivery`, as transformers of the external
state: `Ack(multiple)` and `Nack(multiple, requeue)`. -/
structure Delivery (σ : Type) where
  Ack : Bool → σ → Option Error × σ
  Nack : Bool → Bool → σ → Option Error × σ

/-- Go `Consumer.processMessage(ctx, msg)`.  `unmarshal` is `json.Unmarshal`
into a `TaskCreatedEvent`, `handler` the consumer's `TaskEventHandler`; the
errors `Ack` and `Nack` return are dropped. -/
def processMessage {σ β : Type} (unmarshal : β → Except Error TaskCreatedEvent)
    (handler : TaskCreatedEvent → World σ → Option (Option Error × World σ))
    (msg : Delivery σ) (body : β) (w : World σ) : Option (World σ) :=
  match unmarshal body with
  | Except.error _ =>
    some ⟨(msg.Nack false false w.state).2, w.calls ++ [Call.Nack false false]⟩
  | Except.ok event =>
    match handler event w with
    | none => none
    | some (some _, w) =>
      some ⟨(msg.Nack false true w.state).2, w.calls ++ [Call.Nack false true]⟩
    | some (none, w) => some ⟨(msg.Ack false w.state).2, w.calls ++ [Call.Ack false]⟩

/-! ## Named values and the examples of the specification -/

/-- The value `0.0`. -/
def Float64.zero : Float64 := ⟨0⟩

/-- The value `1.0`: `2^1074` units of `2^(-1074)`. -/
def Float64.one : Float64 := ⟨Float64.one_scaled⟩

/-- The comparison used in examples whose strings are ASCII only: the Unicode
branch of `strings.EqualFold` is never entered on such strings. -/
def noUnicode : List Char → List Char → Bool := fun _ _ => false

/-- The task of the scoring scenario: skills `{php, laravel}`, priority 5. -/
def scenarioTask : Task :=
  { ID := 1, Title := "Complex task", Description := "", Priority := 5, ProjectID := 1,
    Skills := ["php", "laravel"], CreatedAt := 0 }

/-- Candidates A (`{php, laravel, go}`, load 2/10) and B (`{php}`, load 1/10)
of the scoring scenario. -/
def scenarioUsers : List User :=
  [{ ID := 1, Name := "A", Email := "", Role := "User", Skills := ["php", "laravel", "go"],
     CurrentLoad := 2, MaxCapacity := 10 },
   { ID := 2, Name := "B", Email := "", Role := "User", Skills := ["php"],
     CurrentLoad := 1, MaxCapacity := 10 }]

/-! ## Specification predicates for the sort -/

section SortSpec

variable {α : Type} [Inhabited α]

/-- `out` rearranges `data` inside the index range `[a, b)`: same length,
nothing outside the range moved, and the elements in the range are the same
ones (each element of one is an element of the other). -/
structure Rearranged (a b : Nat) (data out : List α) : Prop where
  length_eq : out.length = data.length
  frame : ∀ k, k < a ∨ b ≤ k → read out k = read data k
  origin : ∀ k, a ≤ k → k < b → ∃ k', a ≤ k' ∧ k' < b ∧ read out k = read data k'
  target : ∀ k, a ≤ k → k < b → ∃ k', a ≤ k' ∧ k' < b ∧ read data k = read out k'

/-- The keys of `data` are in non-decreasing order on the index range
`[a, b)`. -/
def SortedRange (key : α → Int) (a b : Nat) (data : List α) : Prop :=
  ∀ i j, a ≤ i → i < j → j < b → key (read data i) ≤ key (read data j)

/-- Every key in the range `[a, b)` is at least the key just before the range:
the invariant `pdqsort_func` keeps when `a > 0`. -/
def BoundedBelow (key : α → Int) (a b : Nat) (data : List α) : Prop :=
  0 < a → ∀ k, a ≤ k → k < b → key (read data (a - 1)) ≤ key (read data k)

/-- The heap of `heapSort_func` on the nodes `lo ≤ parent < child < hi`
(indices relative to `first`): no key is above its parent's. -/
def HeapFrom (key : α → Int) (first lo hi : Nat) (data : List α) : Prop :=
  ∀ c, 1 ≤ c → c < hi → lo ≤ (c - 1) / 2 →
    key (read data (first + c)) ≤ key (read data (first + (c - 1) / 2))

/-- The state of the partition loops: everything in `[a+1, i)` is below the
pivot kept at `a`, everything in `[j1, b)` is not. -/
structure PartitionInv (key : α → Int) (a b : Nat) (data : List α) (i j1 : Nat) : Prop where
  lo : a + 1 ≤ i
  mid : i ≤ j1
  hi : j1 ≤ b
  len : b ≤ data.length
  below : ∀ k, a + 1 ≤ k → k < i → key (read data k) < key (read data a)
  above : ∀ k, j1 ≤ k → k < b → key (read data a) ≤ key (read data k)

/-- The state of the loop of `partitionEqual_func`: nothing in `[a+1, i)` is
above the pivot kept at `a`, everything in `[j1, b)` is. -/
structure PartitionEqualInv (key : α → Int) (a b : Nat) (data : List α) (i j1 : Nat) :
    Prop where
  lo : a + 1 ≤ i
  mid : i ≤ j1
  hi : j1 ≤ b
  len : b ≤ data.length
  notAbove : ∀ k, a + 1 ≤ k → k < i → key (read data k) ≤ key (read data a)
  above : ∀ k, j1 ≤ k → k < b → key (read data a) < key (read data k)

/-- The element `x` is the first element of smallest key among the first `n`
elements of `data`. -/
def FirstMin (key : α → Int) (data : List α) (n : Nat) (x : α) : Prop :=
  ∃ i, i < n ∧ x = read data i ∧ (∀ j, j < n → key (read data i) ≤ key (read data j))
    ∧ (∀ j, j < i → key (read data i) < key (read data j))

end SortSpec

/-- The key by which `FindBestAssignee` sorts: ascending in the key is
descending in the total score. -/
def scoreKey (r : AssignmentResult) : Int := -r.TotalScore.scaled

/-- Collaborators over a state-free world: `GetActiveUsers` returns `users`,
`UpdateUserLoad` returns `update`, `PublishTaskAssigned` returns `publish`, and
the clock reads 0. -/
def fixedCollaborators (users : List User) (update publish : Option Error) :
    Collaborators Unit :=
  { GetActiveUsers := fun s => (Except.ok users, s)
    UpdateUserLoad := fun _ _ s => (update, s)
    PublishTaskAssigned := fun _ s => (publish, s)
    Now := fun _ => 0 }

/-- The world before the first call. -/
def emptyWorld : World Unit := ⟨(), []⟩

/-- An external state that keeps what the collaborators were asked: the users
of the repository, the load updates requested (user, increment) and the events
published, each in the order of the requests. -/
structure Store where
  users : List User
  loadUpdates : List (Int × Int)
  published : List TaskAssignedEvent
deriving DecidableEq, Repr

/-- Collaborators over a `Store`: `GetActiveUsers` returns the stored users,
`UpdateUserLoad` and `PublishTaskAssigned` record their arguments and succeed;
the clock reads 0. -/
def storeCollaborators : Collaborators Store :=
  { GetActiveUsers := fun s => (Except.ok s.users, s)
    UpdateUserLoad := fun userID increment s =>
      (none, { s with loadUpdates := s.loadUpdates ++ [(userID, increment)] })
    PublishTaskAssigned := fun event s =>
      (none, { s with published := s.published ++ [event] })
    Now := fun _ => 0 }

/-- The world of a store holding `users`, before the first call. -/
def storeWorld (users : List User) : World Store := ⟨⟨users, [], []⟩, []⟩

/-- The value of `x` is within `2^(-k)` of the rational `num / den`. -/
def Float64.within (x : Float64) (num den k : Nat) : Prop :=
  (x.scaled * (den : Int) - (num : Int) * (Float64.one_scaled : Nat)).natAbs
      * Nat.shiftLeft 1 k ≤ den * Float64.one_scaled

instance (x : Float64) (num den k : Nat) : Decidable (Float64.within x num den k) := by
  unfold Float64.within
  infer_instance

/-- The task of the test "prefers less loaded user when skills are equal". -/
def loadTask : Task :=
  { ID := 1, Title := "", Description := "", Priority := 3, ProjectID := 0,
    Skills := ["php"], CreatedAt := 0 }

/-- The candidates Busy (load 8/10) and Available (load 1/10) of that test. -/
def loadUsers : List User :=
  [{ ID := 1, Name := "Busy", Email := "", Role := "", Skills := ["php", "laravel"],
     CurrentLoad := 8, MaxCapacity := 10 },
   { ID := 2, Name := "Available", Email := "", Role := "", Skills := ["php", "laravel"],
     CurrentLoad := 1, MaxCapacity := 10 }]

/-- A task without required skills. -/
def plainTask : Task :=
  { ID := 7, Title := "Plain task", Description := "", Priority := 3, ProjectID := 1,
    Skills := [], CreatedAt := 0 }

/-- A candidate without skills, with capacity 10. -/
def plainUser (id load : Int) : User :=
  { ID := id, Name := "", Email := "", Role := "User", Skills := [], CurrentLoad := load,
    MaxCapacity := 10 }

/-- Thirteen candidates, in the order of their IDs 1 to 13: the first has load
5/10, the other twelve have load 0/10 and therefore the same, maximal, total
score. -/
def tiedUsers : List User :=
  [plainUser 1 5, plainUser 2 0, plainUser 3 0, plainUser 4 0, plainUser 5 0, plainUser 6 0,
   plainUser 7 0, plainUser 8 0, plainUser 9 0, plainUser 10 0, plainUser 11 0,
   plainUser 12 0, plainUser 13 0]

/-- The `UserID` of the result of `FindBestAssignee`, when it returns one. -/
def winnerID {σ : Type} (r : Option (Except Error AssignmentResult × World σ)) : Option Int :=
  match r with
  | some (Except.ok best, _) => some best.UserID
  | _ => none

/-- The event `Execute` builds for the winner `result` at clock reading `now`. -/
def assignedEvent (task : Task) (result : AssignmentResult) (now : Int) : TaskAssignedEvent :=
  { TaskID := task.ID
    AssigneeID := result.UserID
    Score := result.TotalScore
    Reason := result.Reason
    AssignedAt := now }

/-- Whether a call is `PublishTaskAssigned`. -/
def Call.isPublish : Call → Bool
  | Call.PublishTaskAssigned _ => true
  | _ => false

/-- The result of `Execute` on the state-free collaborators of the examples:
the returned error and the calls made. -/
def runExecute (users : List User) (update publish : Option Error) (task : Task) :
    Option (Option Error × List Call) :=
  (Execute noUnicode (fixedCollaborators users update publish) task emptyWorld).map
    (fun r => (r.1, r.2.calls))

/-! ## The delivery cycle: predicates and examples -/

/-- The validity condition of the specification: positive task identifier,
non-empty title, priority in `[1, 5]`, positive project identifier. -/
def ValidEvent (event : TaskCreatedEvent) : Prop :=
  event.TaskID > 0 ∧ event.Title ≠ "" ∧ 1 ≤ event.Priority ∧ event.Priority ≤ 5
    ∧ event.ProjectID > 0

instance (event : TaskCreatedEvent) : Decidable (ValidEvent event) := by
  unfold ValidEvent
  infer_instance

/-- Whether a call is an acknowledgment decision, `Ack` or `Nack`. -/
def Call.isDecision : Call → Bool
  | Call.Ack _ => true
  | Call.Nack _ _ => true
  | _ => false

/-- A delivery whose `Ack` and `Nack` succeed. -/
def quietDelivery : Delivery Unit :=
  { Ack := fun _ s => (none, s)
    Nack := fun _ _ s => (none, s) }

/-- Message bodies of the examples: a body that decodes is given by the event
it decodes to, `none` is a body `json.Unmarshal` refuses. -/
def decodeBody : Option TaskCreatedEvent → Except Error TaskCreatedEvent
  | some event => Except.ok event
  | none => Except.error (Error.message "unexpected end of JSON input")

/-- A well-formed notification: task 7, priority 3, project 1, skill `php`. -/
def sampleEvent : TaskCreatedEvent :=
  { TaskID := 7, Title := "Plain task", Description := "", Priority := 3, ProjectID := 1,
    Skills := ["php"], CreatedAt := 0 }

/-- The notification of the specification's example: `task_id = 0`. -/
def malformedEvent : TaskCreatedEvent :=
  { sampleEvent with TaskID := 0 }

/-- Collaborators over a state-free world whose `GetActiveUsers` fails. -/
def failingFetch : Collaborators Unit :=
  { GetActiveUsers := fun s => (Except.error (Error.message "connection refused"), s)
    UpdateUserLoad := fun _ _ s => (none, s)
    PublishTaskAssigned := fun _ s => (none, s)
    Now := fun _ => 0 }

/-- The calls of one delivery cycle on the examples: the handler is
`HandleTaskCreated` over the collaborators `c`. -/
def runDelivery (c : Collaborators Unit) (body : Option TaskCreatedEvent) :
    Option (List Call) :=
  (processMessage decodeBody (HandleTaskCreated noUnicode c) quietDelivery body
    emptyWorld).map (fun w => w.calls)

/-! ## Examples for the priority term -/

/-- A task requiring four skills, at the given priority. -/
def tieTask (priority : Int) : Task :=
  { ID := 1, Title := "Service task", Description := "", Priority := priority, ProjectID := 1,
    Skills := ["go", "php", "sql", "js"], CreatedAt := 0 }

/-- Two candidates whose skill and load parts weigh the same in exact
arithmetic (`0.4 * 1/4 + 0.4 * 6/10 = 0.4 * 3/4 + 0.4 * 1/10 = 0.34`): the
first has one of the four skills and load 4/10, the second three of them and
load 9/10. -/
def tieUsers : List User :=
  [{ ID := 1, Name := "First", Email := "", Role := "User", Skills := ["go"],
     CurrentLoad := 4, MaxCapacity := 10 },
   { ID := 2, Name := "Second", Email := "", Role := "User", Skills := ["go", "php", "sql"],
     CurrentLoad := 9, MaxCapacity := 10 }]

/-! ## The rounding of the `float64` model -/

theorem shiftLeft_one (k : Nat) : Nat.shiftLeft 1 k = 2 ^ k := by
  show 1 <<< k = 2 ^ k
  rw [Nat.one_shiftLeft]

theorem shiftLeft_mul (a k : Nat) : Nat.shiftLeft a k = a * 2 ^ k := by
  show a <<< k = a * 2 ^ k
  rw [Nat.shiftLeft_eq]

theorem shiftRight_div (a k : Nat) : Nat.shiftRight a k = a / 2 ^ k := by
  show a >>> k = a / 2 ^ k
  rw [Nat.shiftRight_eq_div_pow]

/-- On `m < 2^(2^e)`, `leadingBit e m` is the position of the leading bit. -/
theorem leadingBit_spec (e : Nat) : ∀ m, m < 2 ^ (2 ^ e) →
    m < 2 ^ (leadingBit e m + 1) ∧ (1 ≤ m → 2 ^ leadingBit e m ≤ m) := by
  induction e with
  | zero =>
    intro m hm
    simp only [leadingBit]
    constructor
    · simpa using hm
    · intro h; simpa using h
  | succ e ih =>
    intro m hm
    unfold leadingBit
    simp only []
    rw [shiftLeft_one, shiftLeft_one]
    have hpos : 0 < 2 ^ (2 ^ e) := Nat.two_pow_pos _
    by_cases hc : 2 ^ (2 ^ e) ≤ m
    · rw [if_pos hc, shiftRight_div]
      have hlt : m / 2 ^ (2 ^ e) < 2 ^ (2 ^ e) := by
        rw [Nat.div_lt_iff_lt_mul hpos, ← Nat.pow_add]
        have h2 : 2 ^ e + 2 ^ e = 2 ^ (e + 1) := by ring
        rw [h2]
        exact hm
      have h1 : 1 ≤ m / 2 ^ (2 ^ e) := (Nat.one_le_div_iff hpos).mpr hc
      obtain ⟨hu, hl⟩ := ih _ hlt
      constructor
      · have h2 : 2 ^ (2 ^ e + leadingBit e (m / 2 ^ (2 ^ e)) + 1)
            = 2 ^ (leadingBit e (m / 2 ^ (2 ^ e)) + 1) * 2 ^ (2 ^ e) := by ring
        rw [h2, ← Nat.div_lt_iff_lt_mul hpos]
        exact hu
      · intro _
        rw [Nat.pow_add]
        calc 2 ^ (2 ^ e) * 2 ^ leadingBit e (m / 2 ^ (2 ^ e))
            ≤ 2 ^ (2 ^ e) * (m / 2 ^ (2 ^ e)) := Nat.mul_le_mul_left _ (hl h1)
          _ ≤ m := Nat.mul_div_le m _
    · rw [if_neg hc]
      exact ih m (by omega)

/-- The loop of `floorLog2` adds the position of the leading bit of `n` to
`acc`, given fuel for the 4096-bit chunks of `n`. -/
theorem log2Loop_spec : ∀ (fuel n acc : Nat), n < 2 ^ (4096 * (fuel + 1)) →
    ∃ l, log2Loop fuel n acc = acc + l ∧ n < 2 ^ (l + 1) ∧ (1 ≤ n → 2 ^ l ≤ n) := by
  have h12 : (2 : Nat) ^ 12 = 4096 := by norm_num
  generalize (4096 : Nat) = K at h12
  intro fuel
  induction fuel with
  | zero =>
    intro n acc hn
    rw [Nat.zero_add, Nat.mul_one, ← h12] at hn
    exact ⟨leadingBit 12 n, by simp only [log2Loop], leadingBit_spec 12 n hn⟩
  | succ fuel ih =>
    intro n acc hn
    unfold log2Loop
    have hK : (4096 : Nat) = K := by rw [← h12]; norm_num
    rw [hK, shiftLeft_one]
    by_cases hc : 2 ^ K ≤ n
    · rw [if_pos hc, shiftRight_div]
      have hpos : 0 < 2 ^ K := Nat.two_pow_pos _
      have hlt : n / 2 ^ K < 2 ^ (K * (fuel + 1)) := by
        rw [Nat.div_lt_iff_lt_mul hpos, ← Nat.pow_add]
        have h2 : K * (fuel + 1) + K = K * (fuel + 1 + 1) := by ring
        rw [h2]
        exact hn
      have h1 : 1 ≤ n / 2 ^ K := (Nat.one_le_div_iff hpos).mpr hc
      obtain ⟨l, e, hu, hl⟩ := ih (n / 2 ^ K) (acc + K) hlt
      refine ⟨K + l, by rw [e]; ring, ?_, ?_⟩
      · have h2 : 2 ^ (K + l + 1) = 2 ^ (l + 1) * 2 ^ K := by ring
        rw [h2, ← Nat.div_lt_iff_lt_mul hpos]
        exact hu
      · intro _
        rw [Nat.pow_add]
        calc 2 ^ K * 2 ^ l ≤ 2 ^ K * (n / 2 ^ K) := Nat.mul_le_mul_left _ (hl h1)
          _ ≤ n := Nat.mul_div_le n _
    · rw [if_neg hc]
      exact ⟨leadingBit 12 n, rfl, leadingBit_spec 12 n (by rw [h12]; omega)⟩

/-- The function `floorLog2` is the position of the leading bit. -/
theorem floorLog2_spec (n : Nat) :
    n < 2 ^ (floorLog2 n + 1) ∧ (1 ≤ n → 2 ^ floorLog2 n ≤ n) := by
  have hn : n < 2 ^ (4096 * (n + 1)) :=
    calc n < 2 ^ n := Nat.lt_two_pow n
      _ ≤ 2 ^ (4096 * (n + 1)) := Nat.pow_le_pow_right (by norm_num) (by omega)
  obtain ⟨l, e, h⟩ := log2Loop_spec n n 0 hn
  unfold floorLog2
  rw [e, Nat.zero_add]
  exact h

/-- The leading bit of a positive number is one of its bits. -/
theorem two_pow_floorLog2_le (n : Nat) (hn : 1 ≤ n) : 2 ^ floorLog2 n ≤ n :=
  (floorLog2_spec n).2 hn

theorem floorLog2_eq (n k : Nat) (hl : 2 ^ k ≤ n) (hu : n < 2 ^ (k + 1)) :
    floorLog2 n = k := by
  have hn : 1 ≤ n := le_trans (Nat.one_le_two_pow) hl
  obtain ⟨h1, h2⟩ := floorLog2_spec n
  have h3 := h2 hn
  have a : floorLog2 n < k + 1 :=
    (Nat.pow_lt_pow_iff_right (by norm_num : 1 < 2)).mp (lt_of_le_of_lt h3 hu)
  have b : k < floorLog2 n + 1 :=
    (Nat.pow_lt_pow_iff_right (by norm_num : 1 < 2)).mp (lt_of_le_of_lt hl h1)
  omega

theorem floorLog2_mono (m n : Nat) (h : m ≤ n) : floorLog2 m ≤ floorLog2 n := by
  by_cases hm : m = 0
  · have : floorLog2 m = 0 := by rw [hm]; rfl
    omega
  · have h1 := (floorLog2_spec m).2 (by omega)
    have h2 := (floorLog2_spec n).1
    have a : floorLog2 m < floorLog2 n + 1 :=
      (Nat.pow_lt_pow_iff_right (by norm_num : 1 < 2)).mp (by omega)
    omega

/-- The result of `roundHalfEven` is within one half of `num / den`, and is
even whenever `num / den` lies half-way between two integers. -/
theorem roundHalfEven_spec (num den : Nat) (hden : 0 < den) :
    2 * roundHalfEven num den * den ≤ 2 * num + den
      ∧ 2 * num ≤ 2 * roundHalfEven num den * den + den
      ∧ (2 * roundHalfEven num den * den = 2 * num + den → roundHalfEven num den % 2 = 0)
      ∧ (2 * num = 2 * roundHalfEven num den * den + den → roundHalfEven num den % 2 = 0) := by
  have hnum : num = den * (num / den) + num % den := (Nat.div_add_mod num den).symm
  have hr : num % den < den := Nat.mod_lt _ hden
  unfold roundHalfEven
  simp only []
  generalize num / den = q at hnum ⊢
  generalize num % den = r at hnum hr ⊢
  subst hnum
  by_cases h1 : 2 * r < den
  · rw [if_pos h1]
    refine ⟨by nlinarith, by nlinarith, ?_, ?_⟩
    · intro h; exfalso; nlinarith
    · intro h; exfalso; nlinarith
  · rw [if_neg h1]
    by_cases h2 : den < 2 * r
    · rw [if_pos h2]
      refine ⟨by nlinarith, by nlinarith, ?_, ?_⟩
      · intro h; exfalso; nlinarith
      · intro h; exfalso; nlinarith
    · rw [if_neg h2]
      have h3 : den = 2 * r := by omega
      by_cases h4 : q % 2 = 0
      · rw [if_pos h4]
        refine ⟨by nlinarith, by nlinarith, fun _ => h4, fun _ => h4⟩
      · rw [if_neg h4]
        refine ⟨by nlinarith, by nlinarith, fun _ => by omega, fun _ => by omega⟩

/-- Rounding to the nearest integer is monotone in the rational rounded. -/
theorem roundHalfEven_mono (a b c d : Nat) (hb : 0 < b) (hd : 0 < d) (h : a * d ≤ c * b) :
    roundHalfEven a b ≤ roundHalfEven c d := by
  obtain ⟨h1, _, h1t, _⟩ := roundHalfEven_spec a b hb
  obtain ⟨_, h2, _, h2t⟩ := roundHalfEven_spec c d hd
  generalize roundHalfEven a b = R1 at h1 h1t ⊢
  generalize roundHalfEven c d = R2 at h2 h2t ⊢
  by_contra hlt
  have hlt : R2 + 1 ≤ R1 := by omega
  have hbd : 0 < b * d := Nat.mul_pos hb hd
  have e1 : 2 * R1 * (b * d) ≤ 2 * (a * d) + b * d := by
    have := Nat.mul_le_mul_right d h1
    calc 2 * R1 * (b * d) = 2 * R1 * b * d := by ring
      _ ≤ (2 * a + b) * d := this
      _ = 2 * (a * d) + b * d := by ring
  have e2 : 2 * (c * b) ≤ 2 * R2 * (b * d) + b * d := by
    have := Nat.mul_le_mul_right b h2
    calc 2 * (c * b) = 2 * c * b := by ring
      _ ≤ (2 * R2 * d + d) * b := this
      _ = 2 * R2 * (b * d) + b * d := by ring
  have e3 : 2 * R1 * (b * d) ≤ 2 * (R2 + 1) * (b * d) := by
    calc 2 * R1 * (b * d) ≤ 2 * (a * d) + b * d := e1
      _ ≤ 2 * (c * b) + b * d := by omega
      _ ≤ 2 * R2 * (b * d) + b * d + b * d := by omega
      _ = 2 * (R2 + 1) * (b * d) := by ring
  have e4 : 2 * R1 ≤ 2 * (R2 + 1) := Nat.le_of_mul_le_mul_right e3 hbd
  have eR : R1 = R2 + 1 := by omega
  subst eR
  have e5 : 2 * (R2 + 1) * (b * d) = 2 * R2 * (b * d) + b * d + b * d := by ring
  have t1 : 2 * (R2 + 1) * b * d = (2 * a + b) * d := by
    have : 2 * (R2 + 1) * (b * d) = 2 * (a * d) + b * d := by omega
    calc 2 * (R2 + 1) * b * d = 2 * (R2 + 1) * (b * d) := by ring
      _ = 2 * (a * d) + b * d := this
      _ = (2 * a + b) * d := by ring
  have t2 : 2 * c * b = (2 * R2 * d + d) * b := by
    have : 2 * (c * b) = 2 * R2 * (b * d) + b * d := by omega
    calc 2 * c * b = 2 * (c * b) := by ring
      _ = 2 * R2 * (b * d) + b * d := this
      _ = (2 * R2 * d + d) * b := by ring
  have p1 := h1t (Nat.eq_of_mul_eq_mul_right hd t1)
  have p2 := h2t (Nat.eq_of_mul_eq_mul_right hb t2)
  omega

theorem roundHalfEven_ge (num den : Nat) : num / den ≤ roundHalfEven num den := by
  unfold roundHalfEven
  simp only []
  split_ifs <;> omega

theorem roundHalfEven_le (num den : Nat) : roundHalfEven num den ≤ num / den + 1 := by
  unfold roundHalfEven
  simp only []
  split_ifs <;> omega

/-- A multiple of the denominator is rounded to the quotient. -/
theorem roundHalfEven_exact (q den : Nat) (hden : 0 < den) :
    roundHalfEven (q * den) den = q := by
  unfold roundHalfEven
  simp only []
  rw [Nat.mul_mod_left, Nat.mul_div_cancel _ hden, if_pos (by omega)]

/-- Rounding depends on the ratio only. -/
theorem roundHalfEven_scale (num den c : Nat) (hc : 0 < c) :
    roundHalfEven (num * c) (den * c) = roundHalfEven num den := by
  unfold roundHalfEven
  simp only []
  rw [Nat.mul_div_mul_right _ _ hc, Nat.mul_mod_mul_right]
  have e1 : (2 * (num % den * c) < den * c) = (2 * (num % den) < den) := by
    rw [← Nat.mul_assoc]
    exact propext (Nat.mul_lt_mul_right hc)
  have e2 : (den * c < 2 * (num % den * c)) = (den < 2 * (num % den)) := by
    rw [← Nat.mul_assoc]
    exact propext (Nat.mul_lt_mul_right hc)
  simp only [e1, e2]

theorem div_le_div_of_mul_le (a b c d : Nat) (hb : 0 < b) (hd : 0 < d) (h : a * d ≤ c * b) :
    a / b ≤ c / d := by
  rw [Nat.le_div_iff_mul_le hd]
  have h1 : a / b * b ≤ a := Nat.div_mul_le_self a b
  have h2 : a / b * d * b ≤ c * b := by
    calc a / b * d * b = a / b * b * d := by ring
      _ ≤ a * d := Nat.mul_le_mul_right d h1
      _ ≤ c * b := h
  exact Nat.le_of_mul_le_mul_right h2 hb

theorem roundMagnitude_eq (num den : Nat) :
    roundMagnitude num den
      = roundHalfEven num (den * 2 ^ (floorLog2 (num / den) - 52))
          * 2 ^ (floorLog2 (num / den) - 52) := by
  unfold roundMagnitude
  simp only []
  rw [shiftLeft_mul, shiftLeft_mul]

/-- The rounding onto the binary64 grid depends on the ratio only. -/
theorem roundMagnitude_scale (num den c : Nat) (hc : 0 < c) :
    roundMagnitude (num * c) (den * c) = roundMagnitude num den := by
  rw [roundMagnitude_eq, roundMagnitude_eq, Nat.mul_div_mul_right _ _ hc]
  have e : den * c * 2 ^ (floorLog2 (num / den) - 52)
      = den * 2 ^ (floorLog2 (num / den) - 52) * c := by ring
  rw [e, roundHalfEven_scale _ _ _ hc]

/-- A value with at most 53 significant bits is on the binary64 grid: rounding
leaves it unchanged. -/
theorem roundMagnitude_exact (m j den : Nat) (hm : m < 2 ^ 53) (hden : 0 < den) :
    roundMagnitude (m * 2 ^ j * den) den = m * 2 ^ j := by
  rw [roundMagnitude_eq, Nat.mul_div_cancel _ hden]
  have hk : floorLog2 (m * 2 ^ j) - 52 ≤ j := by
    by_cases h0 : m * 2 ^ j = 0
    · rw [h0]
      have : floorLog2 0 = 0 := rfl
      omega
    · have h1 := (floorLog2_spec (m * 2 ^ j)).2 (by omega)
      have h2 : m * 2 ^ j < 2 ^ (53 + j) := by
        rw [Nat.pow_add]
        exact Nat.mul_lt_mul_of_pos_right hm (Nat.two_pow_pos _)
      have h3 : floorLog2 (m * 2 ^ j) < 53 + j :=
        (Nat.pow_lt_pow_iff_right (by norm_num : 1 < 2)).mp (lt_of_le_of_lt h1 h2)
      omega
  generalize floorLog2 (m * 2 ^ j) - 52 = k at hk
  obtain ⟨i, rfl⟩ := Nat.exists_eq_add_of_le hk
  have e : m * 2 ^ (k + i) * den = m * 2 ^ i * (den * 2 ^ k) := by
    rw [Nat.pow_add]; ring
  rw [e, roundHalfEven_exact _ _ (Nat.mul_pos hden (Nat.two_pow_pos _)), Nat.pow_add]
  ring

/-- The rounding onto the binary64 grid is monotone. -/
theorem roundMagnitude_mono (a b c d : Nat) (hb : 0 < b) (hd : 0 < d) (h : a * d ≤ c * b) :
    roundMagnitude a b ≤ roundMagnitude c d := by
  rw [roundMagnitude_eq, roundMagnitude_eq]
  have hq : a / b ≤ c / d := div_le_div_of_mul_le a b c d hb hd h
  have hfl := floorLog2_mono _ _ hq
  have s1 := (floorLog2_spec (a / b)).1
  have s2 := (floorLog2_spec (c / d)).2
  have hz : c / d = 0 → floorLog2 (c / d) = 0 := by
    intro h0
    rw [h0]
    rfl
  generalize floorLog2 (a / b) = f1 at hfl s1 ⊢
  generalize floorLog2 (c / d) = f2 at hfl s2 hz ⊢
  by_cases hk : f1 - 52 = f2 - 52
  · rw [hk]
    apply Nat.mul_le_mul_right
    apply roundHalfEven_mono _ _ _ _ (Nat.mul_pos hb (Nat.two_pow_pos _))
      (Nat.mul_pos hd (Nat.two_pow_pos _))
    calc a * (d * 2 ^ (f2 - 52)) = a * d * 2 ^ (f2 - 52) := by ring
      _ ≤ c * b * 2 ^ (f2 - 52) := Nat.mul_le_mul_right _ h
      _ = c * (b * 2 ^ (f2 - 52)) := by ring
  · obtain ⟨k1, hk1⟩ : ∃ k1, k1 = f1 - 52 := ⟨_, rfl⟩
    obtain ⟨k2, hk2⟩ : ∃ k2, k2 = f2 - 52 := ⟨_, rfl⟩
    rw [← hk1, ← hk2]
    have hlt : k1 < k2 := by omega
    have hf2 : f2 = k2 + 52 := by omega
    -- the upper bound of the smaller value
    have u1 : a / (b * 2 ^ k1) < 2 ^ 53 := by
      rw [← Nat.div_div_eq_div_mul, Nat.div_lt_iff_lt_mul (Nat.two_pow_pos _), ← Nat.pow_add]
      calc a / b < 2 ^ (f1 + 1) := s1
        _ ≤ 2 ^ (53 + k1) := Nat.pow_le_pow_right (by norm_num) (by omega)
    have u2 : roundHalfEven a (b * 2 ^ k1) ≤ 2 ^ 53 := by
      have := roundHalfEven_le a (b * 2 ^ k1)
      omega
    -- the lower bound of the larger value
    have hpos : 1 ≤ c / d := by
      rcases Nat.eq_zero_or_pos (c / d) with h0 | h0
      · have := hz h0
        omega
      · exact h0
    have l1 : 2 ^ 52 ≤ c / (d * 2 ^ k2) := by
      rw [← Nat.div_div_eq_div_mul, Nat.le_div_iff_mul_le (Nat.two_pow_pos _), ← Nat.pow_add]
      have := s2 hpos
      rw [hf2, Nat.add_comm k2 52] at this
      exact this
    have l2 : 2 ^ 52 ≤ roundHalfEven c (d * 2 ^ k2) :=
      le_trans l1 (roundHalfEven_ge _ _)
    calc roundHalfEven a (b * 2 ^ k1) * 2 ^ k1
        ≤ 2 ^ 53 * 2 ^ k1 := Nat.mul_le_mul_right _ u2
      _ = 2 ^ 52 * 2 ^ (k1 + 1) := by rw [Nat.pow_succ]; ring
      _ ≤ 2 ^ 52 * 2 ^ k2 :=
        Nat.mul_le_mul_left _ (Nat.pow_le_pow_right (by norm_num) (by omega))
      _ ≤ roundHalfEven c (d * 2 ^ k2) * 2 ^ k2 := Nat.mul_le_mul_right _ l2

theorem roundMagnitude_zero (den : Nat) : roundMagnitude 0 den = 0 := by
  rw [roundMagnitude_eq, Nat.zero_div]
  have : floorLog2 0 = 0 := rfl
  rw [this]
  simp [roundHalfEven]

theorem shiftLeft_one_pos (k : Nat) : 0 < Nat.shiftLeft 1 k := by
  rw [shiftLeft_one]
  exact Nat.two_pow_pos _

namespace Float64

theorem one_scaled_eq : one_scaled = 2 ^ 1074 := shiftLeft_one 1074

theorem one_scaled_pos : 0 < one_scaled :=
  shiftLeft_one_pos 1074

theorem roundUnits_of_nonneg (num : Int) (den : Nat) (h : 0 ≤ num) :
    (roundUnits num den).scaled = (roundMagnitude num.natAbs den : Nat) := by
  unfold roundUnits
  rcases eq_or_lt_of_le h with h0 | hpos
  · rw [← h0]
    simp [roundMagnitude_zero]
  · rw [Int.sign_eq_one_of_pos hpos, one_mul]

theorem roundUnits_of_neg (num : Int) (den : Nat) (h : num < 0) :
    (roundUnits num den).scaled = -(roundMagnitude num.natAbs den : Nat) := by
  unfold roundUnits
  rw [Int.sign_eq_neg_one_of_neg h]
  simp

/-- The rounding depends on the ratio only. -/
theorem roundUnits_scale (num : Int) (den c : Nat) (hc : 0 < c) :
    roundUnits (num * (c : Int)) (den * c) = roundUnits num den := by
  unfold roundUnits
  have hc' : (0 : Int) < (c : Int) := by exact_mod_cast hc
  have h1 : Int.sign (num * (c : Int)) = Int.sign num := by
    rw [Int.sign_mul, Int.sign_eq_one_of_pos hc', mul_one]
  have h2 : (num * (c : Int)).natAbs = num.natAbs * c := by
    rw [Int.natAbs_mul, Int.natAbs_ofNat]
  rw [h1, h2, roundMagnitude_scale _ _ _ hc]

/-- A value whose magnitude has at most 53 significant bits is a `float64`:
rounding returns it. -/
theorem roundUnits_exact (v : Int) (m j den : Nat) (hv : v.natAbs = m * 2 ^ j)
    (hm : m < 2 ^ 53) (hden : 0 < den) : roundUnits (v * (den : Int)) den = ⟨v⟩ := by
  unfold roundUnits
  have hd' : (0 : Int) < (den : Int) := by exact_mod_cast hden
  have h1 : Int.sign (v * (den : Int)) = Int.sign v := by
    rw [Int.sign_mul, Int.sign_eq_one_of_pos hd', mul_one]
  have h2 : (v * (den : Int)).natAbs = m * 2 ^ j * den := by
    rw [Int.natAbs_mul, Int.natAbs_ofNat, hv]
  rw [h1, h2, roundMagnitude_exact m j den hm hden, ← hv, Int.sign_mul_natAbs]

/-- The rounding is monotone: a smaller exact value has a smaller or equal
rounded value. -/
theorem roundUnits_mono (a c : Int) (b d : Nat) (hb : 0 < b) (hd : 0 < d)
    (h : a * (d : Int) ≤ c * (b : Int)) : (roundUnits a b).scaled ≤ (roundUnits c d).scaled := by
  have hb' : (0 : Int) < (b : Int) := by exact_mod_cast hb
  have hd' : (0 : Int) < (d : Int) := by exact_mod_cast hd
  rcases lt_or_le a 0 with ha | ha
  · rw [roundUnits_of_neg a b ha]
    rcases lt_or_le c 0 with hc | hc
    · rw [roundUnits_of_neg c d hc]
      have hm : c.natAbs * b ≤ a.natAbs * d := by
        have e1 : ((c.natAbs * b : Nat) : Int) = -(c * b) := by
          push_cast
          rw [abs_of_neg hc]
          ring
        have e2 : ((a.natAbs * d : Nat) : Int) = -(a * d) := by
          push_cast
          rw [abs_of_neg ha]
          ring
        have : ((c.natAbs * b : Nat) : Int) ≤ ((a.natAbs * d : Nat) : Int) := by
          rw [e1, e2]
          omega
        exact_mod_cast this
      have := roundMagnitude_mono c.natAbs d a.natAbs b hd hb hm
      omega
    · rw [roundUnits_of_nonneg c d hc]
      omega
  · have hc : 0 ≤ c := by
      by_contra hneg
      have h1 : c * (b : Int) < 0 := Int.mul_neg_of_neg_of_pos (by omega) hb'
      have h2 : 0 ≤ a * (d : Int) := Int.mul_nonneg ha hd'.le
      omega
    rw [roundUnits_of_nonneg a b ha, roundUnits_of_nonneg c d hc]
    have hm : a.natAbs * d ≤ c.natAbs * b := by
      have e1 : ((a.natAbs * d : Nat) : Int) = a * d := by
        push_cast
        rw [abs_of_nonneg ha]
      have e2 : ((c.natAbs * b : Nat) : Int) = c * b := by
        push_cast
        rw [abs_of_nonneg hc]
      have : ((a.natAbs * d : Nat) : Int) ≤ ((c.natAbs * b : Nat) : Int) := by
        rw [e1, e2]
        exact h
      exact_mod_cast this
    have := roundMagnitude_mono a.natAbs b c.natAbs d hb hd hm
    exact_mod_cast this

/-- The conversion `float64(n)` is exact for `|n| < 2^53`. -/
theorem ofInt_scaled (n : Int) (h : n.natAbs < 2 ^ 53) :
    (ofInt n).scaled = n * (one_scaled : Nat) := by
  unfold ofInt ofRatio
  have e := roundUnits_exact (n * (one_scaled : Nat)) n.natAbs 1074 1
    (by rw [Int.natAbs_mul, Int.natAbs_ofNat, one_scaled_eq]) h (by norm_num)
  rw [Nat.cast_one, mul_one] at e
  rw [e]

/-- The quotient of two converted integers of magnitude below `2^53` is the
`float64` nearest to their exact ratio. -/
theorem div_ofInt (a : Int) (b : Nat) (ha : a.natAbs < 2 ^ 53) (hb : 0 < b)
    (hb2 : b < 2 ^ 53) : div (ofInt a) (ofInt (b : Int)) = ofRatio a b := by
  unfold div
  rw [ofInt_scaled a ha, ofInt_scaled (b : Int) (by simpa using hb2)]
  have hu := one_scaled_pos
  have hbu : (0 : Int) < (b : Int) * (one_scaled : Nat) := by
    have : 0 < b * one_scaled := Nat.mul_pos hb hu
    exact_mod_cast this
  rw [Int.sign_eq_one_of_pos hbu, one_mul]
  have e : ((b : Int) * (one_scaled : Nat)).natAbs = b * one_scaled := by
    rw [Int.natAbs_mul, Int.natAbs_ofNat, Int.natAbs_ofNat]
  rw [e, roundUnits_scale (a * (one_scaled : Nat)) b one_scaled hu]
  rfl

end Float64

namespace Float64

/-- Addition is monotone in both arguments. -/
theorem add_le_add (x x' y y' : Float64) (hx : x ≤ x') (hy : y ≤ y') :
    add x y ≤ add x' y' := by
  have hx : x.scaled ≤ x'.scaled := hx
  have hy : y.scaled ≤ y'.scaled := hy
  apply roundUnits_mono _ _ 1 1 (by norm_num) (by norm_num)
  push_cast
  omega

/-- Subtraction is monotone in the first argument and antitone in the second. -/
theorem sub_le_sub (x x' y y' : Float64) (hx : x ≤ x') (hy : y' ≤ y) :
    sub x y ≤ sub x' y' := by
  have hx : x.scaled ≤ x'.scaled := hx
  have hy : y'.scaled ≤ y.scaled := hy
  apply roundUnits_mono _ _ 1 1 (by norm_num) (by norm_num)
  push_cast
  omega

/-- Multiplication is monotone on non-negative values. -/
theorem mul_le_mul (x x' y y' : Float64) (hx0 : 0 ≤ x.scaled) (hy0 : 0 ≤ y.scaled)
    (hx : x ≤ x') (hy : y ≤ y') : mul x y ≤ mul x' y' := by
  have hx : x.scaled ≤ x'.scaled := hx
  have hy : y.scaled ≤ y'.scaled := hy
  apply roundUnits_mono _ _ _ _ one_scaled_pos one_scaled_pos
  apply Int.mul_le_mul_of_nonneg_right _ (by exact_mod_cast one_scaled_pos.le)
  exact Int.mul_le_mul hx hy hy0 (le_trans hx0 hx)

/-- Division by a positive value is monotone in the numerator. -/
theorem div_le_div_right (x x' y : Float64) (hy : 0 < y.scaled) (hx : x ≤ x') :
    div x y ≤ div x' y := by
  have hx : x.scaled ≤ x'.scaled := hx
  unfold div
  rw [Int.sign_eq_one_of_pos hy, one_mul, one_mul]
  have hn : 0 < y.scaled.natAbs := Int.natAbs_pos.mpr (by omega)
  apply roundUnits_mono _ _ _ _ hn hn
  apply Int.mul_le_mul_of_nonneg_right _ (by exact_mod_cast hn.le)
  exact Int.mul_le_mul_of_nonneg_right hx (by exact_mod_cast one_scaled_pos.le)

/-- Rounding keeps the sign: the rounded value of a non-negative exact value is
non-negative. -/
theorem roundUnits_nonneg (num : Int) (den : Nat) (h : 0 ≤ num) :
    0 ≤ (roundUnits num den).scaled := by
  rw [roundUnits_of_nonneg num den h]
  exact Int.ofNat_nonneg _

end Float64

/-! ## Skill score -/

theorem hasSkill_eq_any (hasUnicode : List Char → List Char → Bool) (taskSkill : String)
    (userSkills : List String) :
    hasSkill hasUnicode taskSkill userSkills
      = userSkills.any (fun userSkill => EqualFold hasUnicode taskSkill userSkill) := by
  induction userSkills with
  | nil => rfl
  | cons u rest ih =>
    simp only [hasSkill, List.any_cons, ih]
    cases EqualFold hasUnicode taskSkill u <;> simp

theorem countMatches_eq_countP (hasUnicode : List Char → List Char → Bool)
    (userSkills taskSkills : List String) (acc : Int) :
    countMatches hasUnicode userSkills taskSkills acc
      = acc + (taskSkills.countP (fun taskSkill =>
          userSkills.any (fun userSkill => EqualFold hasUnicode taskSkill userSkill)) : Nat) := by
  induction taskSkills generalizing acc with
  | nil => simp [countMatches]
  | cons t rest ih =>
    simp only [countMatches, ih, hasSkill_eq_any, List.countP_cons]
    split
    · simp_all; omega
    · simp_all

theorem any_filter_relevant (hasUnicode : List Char → List Char → Bool)
    (userSkills taskSkills : List String) (taskSkill : String) (h : taskSkill ∈ taskSkills) :
    (userSkills.filter (fun userSkill =>
        taskSkills.any (fun t => EqualFold hasUnicode t userSkill))).any
        (fun userSkill => EqualFold hasUnicode taskSkill userSkill)
      = userSkills.any (fun userSkill => EqualFold hasUnicode taskSkill userSkill) := by
  rw [List.any_filter]
  congr 1
  funext a
  cases hq : EqualFold hasUnicode taskSkill a
  · simp
  · have hany : taskSkills.any (fun t => EqualFold hasUnicode t a) = true :=
      List.any_eq_true.mpr ⟨taskSkill, h, hq⟩
    simp [hany]

theorem countP_filter_relevant (hasUnicode : List Char → List Char → Bool)
    (userSkills taskSkills : List String) :
    taskSkills.countP (fun taskSkill =>
        (userSkills.filter (fun userSkill =>
          taskSkills.any (fun t => EqualFold hasUnicode t userSkill))).any
          (fun userSkill => EqualFold hasUnicode taskSkill userSkill))
      = taskSkills.countP (fun taskSkill =>
          userSkills.any (fun userSkill => EqualFold hasUnicode taskSkill userSkill)) := by
  apply List.countP_congr
  intro t ht
  rw [any_filter_relevant hasUnicode userSkills taskSkills t ht]

/-- C3. `calculateSkillMatch` is exactly `1.0` for an empty list of required
skills; otherwise it is the `float64` quotient of the number of positions of
the required list whose skill equals some candidate skill under
`strings.EqualFold`, by the length of the required list: for fewer than `2^53`
required skills, the `float64` nearest to the exact ratio.  Candidate skills that
match no required skill can be dropped without changing the result.  The two
examples of the specification: `{php, laravel}` against `{php, laravel, go}`
gives the `float64` nearest to `2/3`, and `{PHP, Laravel}` against
`{php, laravel}` gives `1.0`. -/
theorem calculateSkillMatch_spec (hasUnicode : List Char → List Char → Bool)
    (userSkills taskSkills : List String) :
    calculateSkillMatch hasUnicode userSkills taskSkills
        = (if taskSkills = [] then Float64.one
           else Float64.div
             (Float64.ofInt (taskSkills.countP (fun taskSkill =>
               userSkills.any (fun userSkill => EqualFold hasUnicode taskSkill userSkill)) : Nat))
             (Float64.ofInt taskSkills.length))
      ∧ (taskSkills ≠ [] → taskSkills.length < 2 ^ 53 →
          calculateSkillMatch hasUnicode userSkills taskSkills
            = Float64.ofRatio
                (taskSkills.countP (fun taskSkill =>
                  userSkills.any (fun userSkill => EqualFold hasUnicode taskSkill userSkill)) : Nat)
                taskSkills.length)
      ∧ calculateSkillMatch hasUnicode
          (userSkills.filter (fun userSkill =>
            taskSkills.any (fun t => EqualFold hasUnicode t userSkill))) taskSkills
        = calculateSkillMatch hasUnicode userSkills taskSkills
      ∧ calculateSkillMatch noUnicode ["php", "laravel"] ["php", "laravel", "go"]
        = Float64.ofRatio 2 3
      ∧ calculateSkillMatch noUnicode ["PHP", "Laravel"] ["php", "laravel"] = Float64.one := by
  refine ⟨?_, ?_, ?_, by decide!, by decide!⟩
  · unfold calculateSkillMatch
    cases taskSkills with
    | nil => simp; decide!
    | cons t rest =>
      simp only [List.length_cons, Nat.succ_ne_zero, if_false, countMatches_eq_countP,
        zero_add]
      simp
  · intro hne hlen
    have hpos : 0 < taskSkills.length := List.length_pos.mpr hne
    unfold calculateSkillMatch
    rw [if_neg (by omega), countMatches_eq_countP, zero_add]
    have hc : taskSkills.countP (fun taskSkill =>
        userSkills.any (fun userSkill => EqualFold hasUnicode taskSkill userSkill))
        ≤ taskSkills.length := List.countP_le_length _
    generalize taskSkills.countP (fun taskSkill =>
      userSkills.any (fun userSkill => EqualFold hasUnicode taskSkill userSkill)) = n at hc ⊢
    have hn : ((n : Nat) : Int).natAbs < 2 ^ 53 := by
      rw [Int.natAbs_ofNat]
      omega
    exact Float64.div_ofInt (n : Nat) taskSkills.length hn hpos hlen
  · unfold calculateSkillMatch
    simp only [countMatches_eq_countP, countP_filter_relevant]

/-! ## Load score and priority bonus -/

/-- C4. `calculateLoadScore` is exactly `0.0` when the capacity is zero or the
load has reached it, and exactly the `float64` value of `1 - load/capacity`
(division, then subtraction) when the capacity is positive and the load is
below it; for magnitudes below `2^53` the quotient subtracted is the `float64`
nearest to the exact ratio; the five cases of the test table. -/
theorem calculateLoadScore_spec (currentLoad maxCapacity : Int) :
    ((maxCapacity = 0 ∨ currentLoad ≥ maxCapacity) →
        calculateLoadScore currentLoad maxCapacity = Float64.zero)
      ∧ ((maxCapacity > 0 ∧ currentLoad < maxCapacity) →
        calculateLoadScore currentLoad maxCapacity
          = Float64.sub Float64.one
              (Float64.div (Float64.ofInt currentLoad) (Float64.ofInt maxCapacity)))
      ∧ ((maxCapacity > 0 ∧ currentLoad < maxCapacity ∧ currentLoad.natAbs < 2 ^ 53
            ∧ maxCapacity < 2 ^ 53) →
        calculateLoadScore currentLoad maxCapacity
          = Float64.sub Float64.one (Float64.ofRatio currentLoad maxCapacity.toNat))
      ∧ calculateLoadScore 0 10 = Float64.one
      ∧ calculateLoadScore 5 10 = Float64.ofRatio 5 10
      ∧ calculateLoadScore 10 10 = Float64.zero
      ∧ calculateLoadScore 15 10 = Float64.zero
      ∧ calculateLoadScore 0 0 = Float64.zero := by
  have hzero : Float64.ofRatio 0 1 = Float64.zero := by decide!
  have hone : Float64.ofRatio 1 1 = Float64.one := by decide!
  refine ⟨?_, ?_, ?_, by decide!, by decide!, by decide!, by decide!, by decide!⟩
  · intro h
    unfold calculateLoadScore
    by_cases h0 : maxCapacity = 0
    · rw [if_pos h0]; exact hzero
    · rw [if_neg h0, if_pos (by omega)]; exact hzero
  · rintro ⟨hpos, hlt⟩
    unfold calculateLoadScore
    rw [if_neg (by omega), if_neg (by omega), hone]
  · rintro ⟨hpos, hlt, hl, hc⟩
    unfold calculateLoadScore
    rw [if_neg (by omega), if_neg (by omega), hone]
    have e : maxCapacity = ((maxCapacity.toNat : Nat) : Int) :=
      (Int.toNat_of_nonneg hpos.le).symm
    have hc2 : maxCapacity.toNat < 2 ^ 53 := by omega
    have hp2 : 0 < maxCapacity.toNat := by omega
    simp only []
    rw [← Float64.div_ofInt currentLoad maxCapacity.toNat hl hp2 hc2, ← e]

/-- The bonus of a priority already inside `[1, 5]` grows with the priority. -/
theorem calculatePriorityBonus_mono_clamped (p q : Int) (hp : 1 ≤ p) (hpq : p ≤ q)
    (hq : q ≤ 5) :
    Float64.div (Float64.ofInt p) (Float64.ofInt 5)
      ≤ Float64.div (Float64.ofInt q) (Float64.ofInt 5) := by
  have hp5 : p ≤ 5 := by omega
  have hq1 : 1 ≤ q := by omega
  interval_cases p <;> interval_cases q <;> first | omega | decide!

theorem calculatePriorityBonus_eq_clamp (priority : Int) :
    calculatePriorityBonus priority
      = Float64.div (Float64.ofInt (min (max priority 1) 5)) (Float64.ofInt 5) := by
  unfold calculatePriorityBonus
  have h : (if (if priority < 1 then 1 else priority) > 5 then 5
      else (if priority < 1 then 1 else priority)) = min (max priority 1) 5 := by
    split_ifs <;> omega
  simp only [h]
  rfl

/-- C5. `calculatePriorityBonus p` is the `float64` quotient of the priority
clamped into `[1, 5]` by `5`, which is the `float64` nearest to
`min(max(p, 1), 5) / 5`; it is monotonically non-decreasing in `p`; and
`bonus(1) = 0.2`, `bonus(3) = 0.6`, `bonus(5) = 1.0`, `bonus(0) = 0.2`,
`bonus(10) = 1.0`. -/
theorem calculatePriorityBonus_spec (priority : Int) :
    calculatePriorityBonus priority
        = Float64.div (Float64.ofInt (min (max priority 1) 5)) (Float64.ofInt 5)
      ∧ calculatePriorityBonus priority = Float64.ofRatio (min (max priority 1) 5) 5
      ∧ (∀ q : Int, priority ≤ q → calculatePriorityBonus priority ≤ calculatePriorityBonus q)
      ∧ calculatePriorityBonus 1 = Float64.ofRatio 2 10
      ∧ calculatePriorityBonus 3 = Float64.ofRatio 6 10
      ∧ calculatePriorityBonus 5 = Float64.one
      ∧ calculatePriorityBonus 0 = Float64.ofRatio 2 10
      ∧ calculatePriorityBonus 10 = Float64.one := by
  refine ⟨calculatePriorityBonus_eq_clamp priority, ?_, ?_, by decide!, by decide!,
    by decide!, by decide!, by decide!⟩
  · rw [calculatePriorityBonus_eq_clamp]
    have hb : (min (max priority 1) 5).natAbs < 2 ^ 53 := by omega
    exact Float64.div_ofInt (min (max priority 1) 5) 5 hb (by norm_num) (by norm_num)
  intro q hq
  rw [calculatePriorityBonus_eq_clamp, calculatePriorityBonus_eq_clamp]
  apply calculatePriorityBonus_mono_clamped <;> omega

/-! ## `calculateScores` -/

theorem calculateScores_eq_map (hasUnicode : List Char → List Char → Bool) (task : Task)
    (users : List User) :
    calculateScores hasUnicode task users = users.map (scoreUser hasUnicode task) := by
  induction users with
  | nil => rfl
  | cons u rest ih => simp [calculateScores, ih]

/-- C6. `calculateScores` returns one result per candidate, in order, whose
identity is the candidate's and whose scores are those of
`calculateSkillMatch`, `calculateLoadScore` and `calculatePriorityBonus`, the
total being `skill*0.4 + load*0.4 + priority*0.2` evaluated in `float64`.  In
the scenario the skill scores are `1.0` and `0.5`; candidate A gets the total
`0.92` and candidate B the total `0.76`, both within `2^(-52)` of the decimal
value: B's is the `float64` constant `0.76` and A's the `float64` next to the
constant `0.92` (printed `0.9200000000000002`); A's total is the higher. -/
theorem calculateScores_spec (hasUnicode : List Char → List Char → Bool) (task : Task)
    (users : List User) :
    (calculateScores hasUnicode task users).length = users.length
      ∧ (∀ (i : Nat) (user : User), users[i]? = some user →
          ∃ r, (calculateScores hasUnicode task users)[i]? = some r
            ∧ r.UserID = user.ID ∧ r.UserName = user.Name
            ∧ r.SkillScore = calculateSkillMatch hasUnicode user.Skills task.Skills
            ∧ r.LoadScore = calculateLoadScore user.CurrentLoad user.MaxCapacity
            ∧ r.PriorityBonus = calculatePriorityBonus task.Priority
            ∧ r.TotalScore
                = Float64.add
                    (Float64.add (Float64.mul r.SkillScore (Float64.ofRatio 4 10))
                      (Float64.mul r.LoadScore (Float64.ofRatio 4 10)))
                    (Float64.mul r.PriorityBonus (Float64.ofRatio 2 10)))
      ∧ (calculateScores noUnicode scenarioTask scenarioUsers).map (fun r => r.SkillScore)
          = [Float64.one, Float64.ofRatio 5 10]
      ∧ (calculateScores noUnicode scenarioTask scenarioUsers).map
            (fun r => decide (Float64.within r.TotalScore 92 100 52))
          = [true, false]
      ∧ (calculateScores noUnicode scenarioTask scenarioUsers).map
            (fun r => decide (Float64.within r.TotalScore 76 100 52))
          = [false, true]
      ∧ (calculateScores noUnicode scenarioTask scenarioUsers).map (fun r => r.TotalScore)
          = [⟨(Float64.ofRatio 92 100).scaled + (Nat.shiftLeft 1 (1074 - 53) : Nat)⟩,
             Float64.ofRatio 76 100]
      ∧ (calculateScores noUnicode scenarioTask scenarioUsers).map
            (fun r => decide (Float64.ofRatio 76 100 < r.TotalScore))
          = [true, false] := by
  refine ⟨?_, ?_, by decide!, by decide!, by decide!, by decide!, by decide!⟩
  · simp [calculateScores_eq_map]
  · intro i user hi
    refine ⟨scoreUser hasUnicode task user, ?_, rfl, rfl, rfl, rfl, rfl, rfl⟩
    simp [calculateScores_eq_map, hi]

/-! ## The sort: reading, swapping, rearrangements -/

section SortBasic

variable {α : Type} [Inhabited α]

theorem length_swapAt (data : List α) (i j : Nat) :
    (swapAt data i j).length = data.length := by
  simp [swapAt]

theorem read_swapAt (data : List α) (i j k : Nat) (hi : i < data.length)
    (hj : j < data.length) :
    read (swapAt data i j) k
      = if k = j then read data i else if k = i then read data j else read data k := by
  unfold swapAt read
  simp only [List.getD_eq_getElem?_getD, List.getElem?_set, List.length_set]
  by_cases h1 : k = j
  · subst h1; simp [hj]
  · by_cases h2 : k = i
    · subst h2
      have : ¬ j = k := fun h => h1 h.symm
      simp [this, hi, h1]
    · have h3 : ¬ j = k := fun h => h1 h.symm
      have h4 : ¬ i = k := fun h => h2 h.symm
      simp [h1, h2, h3, h4]

theorem read_swapAt_left (data : List α) (i j : Nat) (hi : i < data.length)
    (hj : j < data.length) : read (swapAt data i j) i = read data j := by
  rw [read_swapAt data i j i hi hj]
  by_cases e : i = j
  · rw [if_pos e, e]
  · rw [if_neg e, if_pos rfl]

theorem read_swapAt_right (data : List α) (i j : Nat) (hi : i < data.length)
    (hj : j < data.length) : read (swapAt data i j) j = read data i := by
  rw [read_swapAt data i j j hi hj, if_pos rfl]

theorem read_swapAt_of_ne (data : List α) (i j k : Nat) (hi : i < data.length)
    (hj : j < data.length) (hki : k ≠ i) (hkj : k ≠ j) :
    read (swapAt data i j) k = read data k := by
  rw [read_swapAt data i j k hi hj, if_neg hkj, if_neg hki]

theorem Rearranged.refl (a b : Nat) (data : List α) : Rearranged a b data data :=
  ⟨rfl, fun _ _ => rfl, fun k h1 h2 => ⟨k, h1, h2, rfl⟩, fun k h1 h2 => ⟨k, h1, h2, rfl⟩⟩

theorem Rearranged.trans {a b : Nat} {d1 d2 d3 : List α} (h12 : Rearranged a b d1 d2)
    (h23 : Rearranged a b d2 d3) : Rearranged a b d1 d3 := by
  refine ⟨h23.length_eq.trans h12.length_eq, ?_, ?_, ?_⟩
  · intro k hk
    rw [h23.frame k hk, h12.frame k hk]
  · intro k h1 h2
    obtain ⟨k', h1', h2', e'⟩ := h23.origin k h1 h2
    obtain ⟨k'', h1'', h2'', e''⟩ := h12.origin k' h1' h2'
    exact ⟨k'', h1'', h2'', e'.trans e''⟩
  · intro k h1 h2
    obtain ⟨k', h1', h2', e'⟩ := h12.target k h1 h2
    obtain ⟨k'', h1'', h2'', e''⟩ := h23.target k' h1' h2'
    exact ⟨k'', h1'', h2'', e'.trans e''⟩

theorem Rearranged.mono {a b a' b' : Nat} {d1 d2 : List α} (h : Rearranged a b d1 d2)
    (ha : a' ≤ a) (hb : b ≤ b') : Rearranged a' b' d1 d2 := by
  refine ⟨h.length_eq, ?_, ?_, ?_⟩
  · intro k hk
    exact h.frame k (by omega)
  · intro k h1 h2
    by_cases hin : a ≤ k ∧ k < b
    · obtain ⟨k', h1', h2', e'⟩ := h.origin k hin.1 hin.2
      exact ⟨k', by omega, by omega, e'⟩
    · exact ⟨k, h1, h2, h.frame k (by omega)⟩
  · intro k h1 h2
    by_cases hin : a ≤ k ∧ k < b
    · obtain ⟨k', h1', h2', e'⟩ := h.target k hin.1 hin.2
      exact ⟨k', by omega, by omega, e'⟩
    · exact ⟨k, h1, h2, (h.frame k (by omega)).symm⟩

theorem Rearranged.swap (a b : Nat) (data : List α) (i j : Nat) (hb : b ≤ data.length)
    (hi1 : a ≤ i) (hi2 : i < b) (hj1 : a ≤ j) (hj2 : j < b) :
    Rearranged a b data (swapAt data i j) := by
  have hil : i < data.length := by omega
  have hjl : j < data.length := by omega
  refine ⟨length_swapAt data i j, ?_, ?_, ?_⟩
  · intro k hk
    rw [read_swapAt data i j k hil hjl, if_neg (by omega), if_neg (by omega)]
  · intro k h1 h2
    rw [read_swapAt data i j k hil hjl]
    by_cases e1 : k = j
    · exact ⟨i, hi1, hi2, by rw [if_pos e1]⟩
    · by_cases e2 : k = i
      · exact ⟨j, hj1, hj2, by rw [if_neg e1, if_pos e2]⟩
      · exact ⟨k, h1, h2, by rw [if_neg e1, if_neg e2]⟩
  · intro k h1 h2
    by_cases e1 : k = i
    · refine ⟨j, hj1, hj2, ?_⟩
      rw [read_swapAt data i j j hil hjl, if_pos rfl, e1]
    · by_cases e2 : k = j
      · refine ⟨i, hi1, hi2, ?_⟩
        rw [read_swapAt data i j i hil hjl, e2]
        by_cases e3 : i = j
        · rw [if_pos e3, e3]
        · rw [if_neg e3, if_pos rfl]
      · exact ⟨k, h1, h2, by rw [read_swapAt data i j k hil hjl, if_neg e2, if_neg e1]⟩

/-- A property of all elements of the range survives a rearrangement. -/
theorem Rearranged.forall_range {a b : Nat} {d1 d2 : List α} (h : Rearranged a b d1 d2)
    (P : α → Prop) (hP : ∀ k, a ≤ k → k < b → P (read d1 k)) :
    ∀ k, a ≤ k → k < b → P (read d2 k) := by
  intro k h1 h2
  obtain ⟨k', h1', h2', e'⟩ := h.origin k h1 h2
  rw [e']
  exact hP k' h1' h2'

end SortBasic

/-! ## `insertionSort_func` -/

section Insertion

variable {α : Type} [Inhabited α]

/-- The inner loop of the insertion sort, entered at `j` with the range
`[a, hi]` in order apart from position `j`, whose element is below everything
after it, leaves the range in order. -/
theorem insertionShift_spec (less : α → α → Bool) (key : α → Int)
    (hless : ∀ x y, less x y = decide (key x < key y)) (a hi : Nat) :
    ∀ (j : Nat) (data : List α), a ≤ j → j ≤ hi → hi < data.length →
      (∀ p q, a ≤ p → p < q → q ≤ hi → p ≠ j → q ≠ j →
        key (read data p) ≤ key (read data q)) →
      (∀ q, j < q → q ≤ hi → key (read data j) < key (read data q)) →
      SortedRange key a (hi + 1) (insertionShift less a j data)
        ∧ Rearranged a (hi + 1) data (insertionShift less a j data) := by
  intro j
  induction j with
  | zero =>
    intro data _ _ _ h1 h2
    refine ⟨?_, Rearranged.refl _ _ _⟩
    intro p q hp hpq hq
    simp only [insertionShift]
    by_cases e : p = 0
    · subst e
      exact le_of_lt (h2 q hpq (by omega))
    · exact h1 p q hp hpq (by omega) e (by omega)
  | succ j ih =>
    intro data haj hjh hlen h1 h2
    unfold insertionShift
    by_cases hc : a < j + 1 ∧ less (read data (j + 1)) (read data j) = true
    · rw [if_pos hc]
      obtain ⟨hc1, hc2⟩ := hc
      rw [hless] at hc2
      have hlt : key (read data (j + 1)) < key (read data j) := of_decide_eq_true hc2
      have hr : ∀ k, read (swapAt data (j + 1) j) k
          = if k = j then read data (j + 1) else if k = j + 1 then read data j
            else read data k :=
        fun k => read_swapAt data (j + 1) j k (by omega) (by omega)
      have hstep := ih (swapAt data (j + 1) j) (by omega) (by omega)
        (by rw [length_swapAt]; exact hlen)
        (by
          intro p q hp hpq hq hpj hqj
          rw [hr p, hr q, if_neg hpj, if_neg hqj]
          by_cases ep : p = j + 1
          · rw [if_pos ep, if_neg (by omega)]
            exact h1 j q (by omega) (by omega) hq (by omega) (by omega)
          · rw [if_neg ep]
            by_cases eq : q = j + 1
            · rw [if_pos eq]
              by_cases epj : p = j
              · exact absurd epj hpj
              · exact h1 p j hp (by omega) (by omega) ep (by omega)
            · rw [if_neg eq]
              exact h1 p q hp hpq hq ep eq)
        (by
          intro q hjq hq
          rw [hr j, hr q, if_pos rfl, if_neg (by omega)]
          by_cases eq : q = j + 1
          · rw [if_pos eq]; exact hlt
          · rw [if_neg eq]; exact h2 q (by omega) hq)
      refine ⟨hstep.1, Rearranged.trans ?_ hstep.2⟩
      exact Rearranged.swap a (hi + 1) data (j + 1) j (by omega) (by omega) (by omega)
        (by omega) (by omega)
    · rw [if_neg hc]
      refine ⟨?_, Rearranged.refl _ _ _⟩
      intro p q hp hpq hq
      by_cases ep : p = j + 1
      · subst ep
        exact le_of_lt (h2 q hpq (by omega))
      · by_cases eq : q = j + 1
        · subst eq
          have hnl : ¬ key (read data (j + 1)) < key (read data j) := by
            intro hlt
            apply hc
            refine ⟨by omega, ?_⟩
            rw [hless]
            exact decide_eq_true hlt
          have hle : key (read data j) ≤ key (read data (j + 1)) := not_lt.mp hnl
          by_cases epj : p = j
          · subst epj; exact hle
          · exact le_trans (h1 p j hp (by omega) (by omega) ep (by omega)) hle
        · exact h1 p q hp hpq (by omega) ep eq

/-- The outer loop of the insertion sort over `i = i0, ..., i0 + n - 1`. -/
theorem insertionFold_spec (less : α → α → Bool) (key : α → Int)
    (hless : ∀ x y, less x y = decide (key x < key y)) (a : Nat) :
    ∀ (n i0 : Nat) (data : List α), a < i0 → i0 + n ≤ data.length →
      SortedRange key a i0 data →
      SortedRange key a (i0 + n)
          ((List.range' i0 n).foldl (fun d i => insertionShift less a i d) data)
        ∧ Rearranged a (i0 + n) data
          ((List.range' i0 n).foldl (fun d i => insertionShift less a i d) data) := by
  intro n
  induction n with
  | zero =>
    intro i0 data _ _ hs
    exact ⟨hs, Rearranged.refl _ _ _⟩
  | succ n ih =>
    intro i0 data hai hlen hs
    simp only [List.range'_succ, List.foldl_cons]
    have hshift := insertionShift_spec less key hless a i0 i0 data (by omega) (le_refl _)
      (by omega)
      (by
        intro p q hp hpq hq _ hqj
        exact hs p q hp hpq (by omega))
      (by intro q h1 h2; omega)
    have hrest := ih (i0 + 1) (insertionShift less a i0 data) (by omega)
      (by rw [hshift.2.length_eq]; omega) hshift.1
    have e : i0 + 1 + n = i0 + (n + 1) := by omega
    rw [e] at hrest
    exact ⟨hrest.1, Rearranged.trans (hshift.2.mono (le_refl _) (by omega)) hrest.2⟩

/-- `insertionSort_func` sorts the range `[a, b)` and rearranges nothing else. -/
theorem insertionSort_func_spec (less : α → α → Bool) (key : α → Int)
    (hless : ∀ x y, less x y = decide (key x < key y)) (data : List α) (a b : Nat)
    (hb : b ≤ data.length) :
    SortedRange key a b (insertionSort_func less data a b)
      ∧ Rearranged a b data (insertionSort_func less data a b) := by
  unfold insertionSort_func
  by_cases hab : a + 1 < b
  · have h := insertionFold_spec less key hless a (b - (a + 1)) (a + 1) data (by omega)
      (by omega) (by intro i j h1 h2 h3; omega)
    have e : a + 1 + (b - (a + 1)) = b := by omega
    rw [e] at h
    exact h
  · have e : b - (a + 1) = 0 := by omega
    rw [e]
    simp only [List.range'_zero, List.foldl_nil]
    exact ⟨by intro i j h1 h2 h3; omega, Rearranged.refl _ _ _⟩

end Insertion

/-! ## `partition_func` -/

section Partition

variable {α : Type} [Inhabited α]

theorem scanLess_spec (less : α → α → Bool) (key : α → Int)
    (hless : ∀ x y, less x y = decide (key x < key y)) (data : List α) (a j : Nat) :
    ∀ (n i : Nat), i ≤ j + 1 → j + 1 - i ≤ n →
      i ≤ scanLess less data a j n i ∧ scanLess less data a j n i ≤ j + 1
        ∧ (∀ k, i ≤ k → k < scanLess less data a j n i →
            key (read data k) < key (read data a))
        ∧ (scanLess less data a j n i ≤ j →
            key (read data a) ≤ key (read data (scanLess less data a j n i))) := by
  intro n
  induction n with
  | zero =>
    intro i h1 h2
    simp only [scanLess]
    exact ⟨le_refl _, h1, fun k h3 h4 => by omega, fun h => by omega⟩
  | succ n ih =>
    intro i h1 h2
    unfold scanLess
    by_cases hc : i ≤ j ∧ less (read data i) (read data a) = true
    · rw [if_pos hc]
      obtain ⟨hc1, hc2⟩ := hc
      rw [hless] at hc2
      have hlt : key (read data i) < key (read data a) := of_decide_eq_true hc2
      obtain ⟨r1, r2, r3, r4⟩ := ih (i + 1) (by omega) (by omega)
      refine ⟨by omega, r2, ?_, r4⟩
      intro k hk1 hk2
      by_cases e : k = i
      · subst e; exact hlt
      · exact r3 k (by omega) hk2
    · rw [if_neg hc]
      refine ⟨le_refl _, h1, fun k h3 h4 => by omega, ?_⟩
      intro hij
      have hnl : ¬ key (read data i) < key (read data a) := by
        intro hlt
        apply hc
        refine ⟨hij, ?_⟩
        rw [hless]
        exact decide_eq_true hlt
      exact not_lt.mp hnl

theorem scanNotLess_spec (less : α → α → Bool) (key : α → Int)
    (hless : ∀ x y, less x y = decide (key x < key y)) (data : List α) (a i : Nat) :
    ∀ (j1 : Nat), i ≤ j1 →
      i ≤ scanNotLess less data a (i + 1) j1 ∧ scanNotLess less data a (i + 1) j1 ≤ j1
        ∧ (∀ k, scanNotLess less data a (i + 1) j1 ≤ k → k < j1 →
            key (read data a) ≤ key (read data k))
        ∧ (i + 1 ≤ scanNotLess less data a (i + 1) j1 →
            key (read data (scanNotLess less data a (i + 1) j1 - 1)) < key (read data a)) := by
  intro j1
  induction j1 with
  | zero =>
    intro h
    simp only [scanNotLess]
    exact ⟨h, le_refl _, fun k h3 h4 => by omega, fun h => by omega⟩
  | succ j ih =>
    intro h
    unfold scanNotLess
    by_cases hc : i + 1 ≤ j + 1 ∧ less (read data j) (read data a) = false
    · rw [if_pos hc]
      obtain ⟨hc1, hc2⟩ := hc
      rw [hless] at hc2
      have hnl : ¬ key (read data j) < key (read data a) := of_decide_eq_false hc2
      obtain ⟨r1, r2, r3, r4⟩ := ih (by omega)
      refine ⟨r1, by omega, ?_, r4⟩
      intro k hk1 hk2
      by_cases e : k = j
      · subst e; exact not_lt.mp hnl
      · exact r3 k hk1 (by omega)
    · rw [if_neg hc]
      refine ⟨h, le_refl _, fun k h3 h4 => by omega, ?_⟩
      intro hij
      have e : j + 1 - 1 = j := by omega
      rw [e]
      by_contra hnl
      apply hc
      refine ⟨hij, ?_⟩
      rw [hless]
      exact decide_eq_false hnl

/-- One pass of the two scans keeps the invariant and ends either with the
indices met or on a pair to exchange. -/
theorem partition_scans (less : α → α → Bool) (key : α → Int)
    (hless : ∀ x y, less x y = decide (key x < key y)) (a b : Nat) (data : List α)
    (i j1 : Nat) (inv : PartitionInv key a b data i j1) :
    PartitionInv key a b data (scanLess less data a (j1 - 1) (j1 - i) i)
        (scanNotLess less data a (scanLess less data a (j1 - 1) (j1 - i) i + 1) j1)
      ∧ i ≤ scanLess less data a (j1 - 1) (j1 - i) i
      ∧ scanNotLess less data a (scanLess less data a (j1 - 1) (j1 - i) i + 1) j1 ≤ j1
      ∧ (scanLess less data a (j1 - 1) (j1 - i) i + 1
            ≤ scanNotLess less data a (scanLess less data a (j1 - 1) (j1 - i) i + 1) j1 →
          key (read data a) ≤ key (read data (scanLess less data a (j1 - 1) (j1 - i) i))
          ∧ key (read data
              (scanNotLess less data a (scanLess less data a (j1 - 1) (j1 - i) i + 1) j1 - 1))
            < key (read data a)) := by
  obtain ⟨h1, h2, h3, hlen, h4, h5⟩ := inv
  have hj : j1 - 1 + 1 = j1 := by omega
  obtain ⟨r1, r2, r3, r4⟩ := scanLess_spec less key hless data a (j1 - 1) (j1 - i) i
    (by omega) (by omega)
  rw [hj] at r2
  generalize scanLess less data a (j1 - 1) (j1 - i) i = i' at r1 r2 r3 r4 ⊢
  obtain ⟨s1, s2, s3, s4⟩ := scanNotLess_spec less key hless data a i' j1 r2
  generalize scanNotLess less data a (i' + 1) j1 = j1' at s1 s2 s3 s4 ⊢
  refine ⟨⟨by omega, s1, by omega, hlen, ?_, ?_⟩, r1, s2, ?_⟩
  · intro k hk1 hk2
    by_cases e : k < i
    · exact h4 k hk1 e
    · exact r3 k (by omega) hk2
  · intro k hk1 hk2
    by_cases e : j1 ≤ k
    · exact h5 k e hk2
    · exact s3 k hk1 (by omega)
  · intro hcont
    exact ⟨r4 (by omega), s4 hcont⟩

theorem partitionLoop_spec (less : α → α → Bool) (key : α → Int)
    (hless : ∀ x y, less x y = decide (key x < key y)) (a b : Nat) :
    ∀ (fuel : Nat) (data : List α) (i j1 : Nat), PartitionInv key a b data i j1 →
      j1 + 2 ≤ fuel + i →
      ∃ out m, partitionLoop less a fuel data i j1 = some (out, m)
        ∧ PartitionInv key a b out m m ∧ Rearranged (a + 1) b data out := by
  intro fuel
  induction fuel with
  | zero =>
    intro data i j1 inv hf
    have := inv.mid
    omega
  | succ fuel ih =>
    intro data i j1 inv hf
    obtain ⟨inv', r1, s2, hx⟩ := partition_scans less key hless a b data i j1 inv
    unfold partitionLoop
    simp only []
    generalize scanLess less data a (j1 - 1) (j1 - i) i = i' at inv' r1 s2 hx ⊢
    generalize scanNotLess less data a (i' + 1) j1 = j1' at inv' s2 hx ⊢
    by_cases hc : j1' < i' + 1
    · rw [if_pos hc]
      have e : j1' = i' := by have := inv'.mid; omega
      subst e
      exact ⟨data, j1', rfl, inv', Rearranged.refl _ _ _⟩
    · rw [if_neg hc]
      obtain ⟨x1, x2⟩ := hx (by omega)
      obtain ⟨h1, h2, h3, hlen, h4, h5⟩ := inv'
      have hne : i' ≠ j1' - 1 := by
        intro e
        rw [← e] at x2
        omega
      have hil : i' < data.length := by omega
      have hjl : j1' - 1 < data.length := by omega
      have inv2 : PartitionInv key a b (swapAt data i' (j1' - 1)) (i' + 1) (j1' - 1) := by
        refine ⟨by omega, by omega, by omega, by rw [length_swapAt]; exact hlen, ?_, ?_⟩
        · intro k hk1 hk2
          rw [read_swapAt_of_ne data i' (j1' - 1) a hil hjl (by omega) (by omega)]
          by_cases e : k = i'
          · rw [e, read_swapAt_left data i' (j1' - 1) hil hjl]; exact x2
          · rw [read_swapAt_of_ne data i' (j1' - 1) k hil hjl e (by omega)]
            exact h4 k hk1 (by omega)
        · intro k hk1 hk2
          rw [read_swapAt_of_ne data i' (j1' - 1) a hil hjl (by omega) (by omega)]
          by_cases e : k = j1' - 1
          · rw [e, read_swapAt_right data i' (j1' - 1) hil hjl]; exact x1
          · rw [read_swapAt_of_ne data i' (j1' - 1) k hil hjl (by omega) e]
            exact h5 k (by omega) hk2
      obtain ⟨out, m, e1, e2, e3⟩ := ih (swapAt data i' (j1' - 1)) (i' + 1) (j1' - 1) inv2
        (by omega)
      refine ⟨out, m, e1, e2, Rearranged.trans ?_ e3⟩
      exact Rearranged.swap (a + 1) b data i' (j1' - 1) hlen (by omega) (by omega)
        (by omega) (by omega)

/-- Moving the pivot from `a` to the meeting point closes a partition. -/
theorem partition_close (key : α → Int) (a b : Nat) (data : List α) (m : Nat)
    (inv : PartitionInv key a b data m m) :
    a ≤ m - 1 ∧ m - 1 < b ∧ Rearranged a b data (swapAt data (m - 1) a)
      ∧ (∀ k, a ≤ k → k < m - 1 →
          key (read (swapAt data (m - 1) a) k) < key (read (swapAt data (m - 1) a) (m - 1)))
      ∧ (∀ k, m - 1 < k → k < b →
          key (read (swapAt data (m - 1) a) (m - 1)) ≤ key (read (swapAt data (m - 1) a) k)) := by
  obtain ⟨h1, h2, h3, hlen, h4, h5⟩ := inv
  have hml : m - 1 < data.length := by omega
  have hal : a < data.length := by omega
  refine ⟨by omega, by omega, ?_, ?_, ?_⟩
  · exact Rearranged.swap a b data (m - 1) a hlen (by omega) (by omega) (by omega) (by omega)
  · intro k hk1 hk2
    rw [read_swapAt_left data (m - 1) a hml hal]
    by_cases e : k = a
    · rw [e, read_swapAt_right data (m - 1) a hml hal]
      exact h4 (m - 1) (by omega) (by omega)
    · rw [read_swapAt_of_ne data (m - 1) a k hml hal (by omega) e]
      exact h4 k (by omega) (by omega)
  · intro k hk1 hk2
    rw [read_swapAt_left data (m - 1) a hml hal,
      read_swapAt_of_ne data (m - 1) a k hml hal (by omega) (by omega)]
    exact h5 k (by omega) hk2

/-- `partition_func` returns, and splits the range `[a, b)` around the new
pivot position: strictly smaller keys before it, no smaller key after it. -/
theorem partition_func_spec (less : α → α → Bool) (key : α → Int)
    (hless : ∀ x y, less x y = decide (key x < key y)) (data : List α) (a b pivot : Nat)
    (hap : a ≤ pivot) (hpb : pivot < b) (hb : b ≤ data.length) :
    ∃ out mid already, partition_func less data a b pivot = some (out, mid, already)
      ∧ a ≤ mid ∧ mid < b ∧ Rearranged a b data out
      ∧ (∀ k, a ≤ k → k < mid → key (read out k) < key (read out mid))
      ∧ (∀ k, mid < k → k < b → key (read out mid) ≤ key (read out k)) := by
  have hsw : Rearranged a b data (swapAt data a pivot) :=
    Rearranged.swap a b data a pivot hb (le_refl _) (by omega) hap hpb
  have inv0 : PartitionInv key a b (swapAt data a pivot) (a + 1) b :=
    ⟨le_refl _, by omega, le_refl _, by rw [length_swapAt]; exact hb,
      fun k h1 h2 => by omega, fun k h1 h2 => by omega⟩
  obtain ⟨inv', r1, s2, hx⟩ :=
    partition_scans less key hless a b (swapAt data a pivot) (a + 1) b inv0
  unfold partition_func
  simp only []
  generalize swapAt data a pivot = d1 at hsw inv0 inv' r1 s2 hx ⊢
  generalize scanLess less d1 a (b - 1) (b - (a + 1)) (a + 1) = i' at inv' r1 s2 hx ⊢
  generalize scanNotLess less d1 a (i' + 1) b = j1' at inv' s2 hx ⊢
  by_cases hc : j1' < i' + 1
  · rw [if_pos hc]
    have e : j1' = i' := by have := inv'.mid; omega
    subst e
    obtain ⟨c1, c2, c3, c4, c5⟩ := partition_close key a b d1 j1' inv'
    exact ⟨_, _, _, rfl, c1, c2, Rearranged.trans hsw c3, c4, c5⟩
  · rw [if_neg hc]
    obtain ⟨x1, x2⟩ := hx (by omega)
    obtain ⟨h1, h2, h3, hlen, h4, h5⟩ := inv'
    have hne : i' ≠ j1' - 1 := by
      intro e
      rw [← e] at x2
      omega
    have hil : i' < d1.length := by omega
    have hjl : j1' - 1 < d1.length := by omega
    have inv2 : PartitionInv key a b (swapAt d1 i' (j1' - 1)) (i' + 1) (j1' - 1) := by
      refine ⟨by omega, by omega, by omega, by rw [length_swapAt]; exact hlen, ?_, ?_⟩
      · intro k hk1 hk2
        rw [read_swapAt_of_ne d1 i' (j1' - 1) a hil hjl (by omega) (by omega)]
        by_cases e : k = i'
        · rw [e, read_swapAt_left d1 i' (j1' - 1) hil hjl]; exact x2
        · rw [read_swapAt_of_ne d1 i' (j1' - 1) k hil hjl e (by omega)]
          exact h4 k hk1 (by omega)
      · intro k hk1 hk2
        rw [read_swapAt_of_ne d1 i' (j1' - 1) a hil hjl (by omega) (by omega)]
        by_cases e : k = j1' - 1
        · rw [e, read_swapAt_right d1 i' (j1' - 1) hil hjl]; exact x1
        · rw [read_swapAt_of_ne d1 i' (j1' - 1) k hil hjl (by omega) e]
          exact h5 k (by omega) hk2
    obtain ⟨out, m, e1, e2, e3⟩ := partitionLoop_spec less key hless a b (b - a)
      (swapAt d1 i' (j1' - 1)) (i' + 1) (j1' - 1) inv2 (by omega)
    rw [e1]
    simp only []
    obtain ⟨c1, c2, c3, c4, c5⟩ := partition_close key a b out m e2
    refine ⟨_, _, _, rfl, c1, c2, ?_, c4, c5⟩
    refine Rearranged.trans hsw (Rearranged.trans ?_ (Rearranged.trans (e3.mono (by omega)
      (le_refl _)) c3))
    exact Rearranged.swap a b d1 i' (j1' - 1) hlen (by omega) (by omega) (by omega) (by omega)

end Partition

/-! ## `partitionEqual_func` -/

section PartitionEqual

variable {α : Type} [Inhabited α]

theorem scanNotGreater_spec (less : α → α → Bool) (key : α → Int)
    (hless : ∀ x y, less x y = decide (key x < key y)) (data : List α) (a j : Nat) :
    ∀ (n i : Nat), i ≤ j + 1 → j + 1 - i ≤ n →
      i ≤ scanNotGreater less data a j n i ∧ scanNotGreater less data a j n i ≤ j + 1
        ∧ (∀ k, i ≤ k → k < scanNotGreater less data a j n i →
            key (read data k) ≤ key (read data a))
        ∧ (scanNotGreater less data a j n i ≤ j →
            key (read data a) < key (read data (scanNotGreater less data a j n i))) := by
  intro n
  induction n with
  | zero =>
    intro i h1 h2
    simp only [scanNotGreater]
    exact ⟨le_refl _, h1, fun k h3 h4 => by omega, fun h => by omega⟩
  | succ n ih =>
    intro i h1 h2
    unfold scanNotGreater
    by_cases hc : i ≤ j ∧ less (read data a) (read data i) = false
    · rw [if_pos hc]
      obtain ⟨hc1, hc2⟩ := hc
      rw [hless] at hc2
      have hnl : ¬ key (read data a) < key (read data i) := of_decide_eq_false hc2
      obtain ⟨r1, r2, r3, r4⟩ := ih (i + 1) (by omega) (by omega)
      refine ⟨by omega, r2, ?_, r4⟩
      intro k hk1 hk2
      by_cases e : k = i
      · subst e; exact not_lt.mp hnl
      · exact r3 k (by omega) hk2
    · rw [if_neg hc]
      refine ⟨le_refl _, h1, fun k h3 h4 => by omega, ?_⟩
      intro hij
      by_contra hnl
      apply hc
      refine ⟨hij, ?_⟩
      rw [hless]
      exact decide_eq_false hnl

theorem scanGreater_spec (less : α → α → Bool) (key : α → Int)
    (hless : ∀ x y, less x y = decide (key x < key y)) (data : List α) (a i : Nat) :
    ∀ (j1 : Nat), i ≤ j1 →
      i ≤ scanGreater less data a (i + 1) j1 ∧ scanGreater less data a (i + 1) j1 ≤ j1
        ∧ (∀ k, scanGreater less data a (i + 1) j1 ≤ k → k < j1 →
            key (read data a) < key (read data k))
        ∧ (i + 1 ≤ scanGreater less data a (i + 1) j1 →
            key (read data (scanGreater less data a (i + 1) j1 - 1)) ≤ key (read data a)) := by
  intro j1
  induction j1 with
  | zero =>
    intro h
    simp only [scanGreater]
    exact ⟨h, le_refl _, fun k h3 h4 => by omega, fun h => by omega⟩
  | succ j ih =>
    intro h
    unfold scanGreater
    by_cases hc : i + 1 ≤ j + 1 ∧ less (read data a) (read data j) = true
    · rw [if_pos hc]
      obtain ⟨hc1, hc2⟩ := hc
      rw [hless] at hc2
      have hlt : key (read data a) < key (read data j) := of_decide_eq_true hc2
      obtain ⟨r1, r2, r3, r4⟩ := ih (by omega)
      refine ⟨r1, by omega, ?_, r4⟩
      intro k hk1 hk2
      by_cases e : k = j
      · subst e; exact hlt
      · exact r3 k hk1 (by omega)
    · rw [if_neg hc]
      refine ⟨h, le_refl _, fun k h3 h4 => by omega, ?_⟩
      intro hij
      have e : j + 1 - 1 = j := by omega
      rw [e]
      have hnl : ¬ key (read data a) < key (read data j) := by
        intro hlt
        apply hc
        refine ⟨hij, ?_⟩
        rw [hless]
        exact decide_eq_true hlt
      exact not_lt.mp hnl

theorem partitionEqualLoop_spec (less : α → α → Bool) (key : α → Int)
    (hless : ∀ x y, less x y = decide (key x < key y)) (a b : Nat) :
    ∀ (fuel : Nat) (data : List α) (i j1 : Nat), PartitionEqualInv key a b data i j1 →
      j1 + 2 ≤ fuel + i →
      ∃ out m, partitionEqualLoop less a fuel data i j1 = some (out, m)
        ∧ PartitionEqualInv key a b out m m ∧ Rearranged (a + 1) b data out := by
  intro fuel
  induction fuel with
  | zero =>
    intro data i j1 inv hf
    have := inv.mid
    omega
  | succ fuel ih =>
    intro data i j1 inv hf
    obtain ⟨h1, h2, h3, hlen, h4, h5⟩ := inv
    have hj : j1 - 1 + 1 = j1 := by omega
    obtain ⟨r1, r2, r3, r4⟩ := scanNotGreater_spec less key hless data a (j1 - 1) (j1 - i) i
      (by omega) (by omega)
    rw [hj] at r2
    unfold partitionEqualLoop
    simp only []
    generalize scanNotGreater less data a (j1 - 1) (j1 - i) i = i' at r1 r2 r3 r4 ⊢
    obtain ⟨s1, s2, s3, s4⟩ := scanGreater_spec less key hless data a i' j1 r2
    generalize scanGreater less data a (i' + 1) j1 = j1' at s1 s2 s3 s4 ⊢
    have g4 : ∀ k, a + 1 ≤ k → k < i' → key (read data k) ≤ key (read data a) := by
      intro k hk1 hk2
      by_cases e : k < i
      · exact h4 k hk1 e
      · exact r3 k (by omega) hk2
    have g5 : ∀ k, j1' ≤ k → k < b → key (read data a) < key (read data k) := by
      intro k hk1 hk2
      by_cases e : j1 ≤ k
      · exact h5 k e hk2
      · exact s3 k hk1 (by omega)
    by_cases hc : j1' < i' + 1
    · rw [if_pos hc]
      have e : j1' = i' := by omega
      subst e
      exact ⟨data, j1', rfl, ⟨by omega, le_refl _, by omega, hlen, g4, g5⟩,
        Rearranged.refl _ _ _⟩
    · rw [if_neg hc]
      have x1 := r4 (by omega)
      have x2 := s4 (by omega)
      have hne : i' ≠ j1' - 1 := by
        intro e
        rw [← e] at x2
        omega
      have hil : i' < data.length := by omega
      have hjl : j1' - 1 < data.length := by omega
      have inv2 : PartitionEqualInv key a b (swapAt data i' (j1' - 1)) (i' + 1) (j1' - 1) := by
        refine ⟨by omega, by omega, by omega, by rw [length_swapAt]; exact hlen, ?_, ?_⟩
        · intro k hk1 hk2
          rw [read_swapAt_of_ne data i' (j1' - 1) a hil hjl (by omega) (by omega)]
          by_cases e : k = i'
          · rw [e, read_swapAt_left data i' (j1' - 1) hil hjl]; exact x2
          · rw [read_swapAt_of_ne data i' (j1' - 1) k hil hjl e (by omega)]
            exact g4 k hk1 (by omega)
        · intro k hk1 hk2
          rw [read_swapAt_of_ne data i' (j1' - 1) a hil hjl (by omega) (by omega)]
          by_cases e : k = j1' - 1
          · rw [e, read_swapAt_right data i' (j1' - 1) hil hjl]; exact x1
          · rw [read_swapAt_of_ne data i' (j1' - 1) k hil hjl (by omega) e]
            exact g5 k (by omega) hk2
      obtain ⟨out, m, e1, e2, e3⟩ := ih (swapAt data i' (j1' - 1)) (i' + 1) (j1' - 1) inv2
        (by omega)
      refine ⟨out, m, e1, e2, Rearranged.trans ?_ e3⟩
      exact Rearranged.swap (a + 1) b data i' (j1' - 1) hlen (by omega) (by omega)
        (by omega) (by omega)

/-- `partitionEqual_func` returns; when no key of the range `[a, b)` is below
the pivot's, it splits the range into the keys equal to the pivot's, before
the returned position, and the larger ones, from it on. -/
theorem partitionEqual_func_spec (less : α → α → Bool) (key : α → Int)
    (hless : ∀ x y, less x y = decide (key x < key y)) (data : List α) (a b pivot : Nat)
    (hap : a ≤ pivot) (hpb : pivot < b) (hb : b ≤ data.length)
    (hmin : ∀ k, a ≤ k → k < b → key (read data pivot) ≤ key (read data k)) :
    ∃ out mid, partitionEqual_func less data a b pivot = some (out, mid)
      ∧ a < mid ∧ mid ≤ b ∧ Rearranged a b data out
      ∧ (∀ k, a ≤ k → k < mid → key (read out k) = key (read data pivot))
      ∧ (∀ k, mid ≤ k → k < b → key (read data pivot) < key (read out k)) := by
  have hal : a < data.length := by omega
  have hpl : pivot < data.length := by omega
  have hsw : Rearranged a b data (swapAt data a pivot) :=
    Rearranged.swap a b data a pivot hb (le_refl _) (by omega) hap hpb
  have hpiv : read (swapAt data a pivot) a = read data pivot :=
    read_swapAt_left data a pivot hal hpl
  have inv0 : PartitionEqualInv key a b (swapAt data a pivot) (a + 1) b :=
    ⟨le_refl _, by omega, le_refl _, by rw [length_swapAt]; exact hb,
      fun k h1 h2 => by omega, fun k h1 h2 => by omega⟩
  obtain ⟨out, m, e1, e2, e3⟩ := partitionEqualLoop_spec less key hless a b (b - a + 1)
    (swapAt data a pivot) (a + 1) b inv0 (by omega)
  unfold partitionEqual_func
  refine ⟨out, m, e1, by have := e2.lo; omega, e2.hi, ?_, ?_, ?_⟩
  · exact Rearranged.trans hsw (e3.mono (by omega) (le_refl _))
  · have hall : ∀ k, a ≤ k → k < b → key (read data pivot) ≤ key (read out k) :=
      (Rearranged.trans hsw (e3.mono (by omega) (le_refl _))).forall_range
        (fun x => key (read data pivot) ≤ key x) hmin
    have ha : read out a = read data pivot := by
      rw [e3.frame a (by omega)]; exact hpiv
    intro k hk1 hk2
    by_cases e : k = a
    · rw [e, ha]
    · have h1 := e2.notAbove k (by omega) hk2
      rw [ha] at h1
      exact le_antisymm h1 (hall k hk1 (by have := e2.hi; omega))
  · have ha : read out a = read data pivot := by
      rw [e3.frame a (by omega)]; exact hpiv
    intro k hk1 hk2
    have h1 := e2.above k hk1 hk2
    rw [ha] at h1
    exact h1

end PartitionEqual

/-! ## `heapSort_func` -/

section Heap

variable {α : Type} [Inhabited α]

/-- `siftDown_func` returns and restores the heap below `root`, given that the
heap holds everywhere except at `root` and that the children of `root` are
not above the parent of `root`. -/
theorem siftDown_func_spec (less : α → α → Bool) (key : α → Int)
    (hless : ∀ x y, less x y = decide (key x < key y)) (hi first lo : Nat) :
    ∀ (fuel root : Nat) (data : List α), lo ≤ root → hi - root < fuel →
      first + hi ≤ data.length →
      (∀ c, 1 ≤ c → c < hi → lo ≤ (c - 1) / 2 → (c - 1) / 2 ≠ root →
        key (read data (first + c)) ≤ key (read data (first + (c - 1) / 2))) →
      (∀ c, 1 ≤ c → c < hi → (c - 1) / 2 = root → 1 ≤ root → lo ≤ (root - 1) / 2 →
        key (read data (first + c)) ≤ key (read data (first + (root - 1) / 2))) →
      ∃ out, siftDown_func less hi first fuel root data = some out
        ∧ HeapFrom key first lo hi out
        ∧ Rearranged (first + lo) (first + hi) data out := by
  intro fuel
  induction fuel with
  | zero => intro root data _ h; omega
  | succ fuel ih =>
    intro root data hlo hfuel hlen hA hB
    unfold siftDown_func
    simp only []
    by_cases h1 : hi ≤ 2 * root + 1
    · rw [if_pos h1]
      refine ⟨data, rfl, ?_, Rearranged.refl _ _ _⟩
      intro c hc1 hc2 hc3
      exact hA c hc1 hc2 hc3 (by omega)
    · rw [if_neg h1]
      -- the child chosen for the comparison, and its properties
      have hchild : ∃ child, (if 2 * root + 1 + 1 < hi
            ∧ less (read data (first + (2 * root + 1)))
              (read data (first + (2 * root + 1) + 1)) = true
          then 2 * root + 1 + 1 else 2 * root + 1) = child
          ∧ (child = 2 * root + 1 ∨ child = 2 * root + 2) ∧ child < hi
          ∧ ∀ c, 1 ≤ c → c < hi → (c - 1) / 2 = root →
              key (read data (first + c)) ≤ key (read data (first + child)) := by
        by_cases h2 : 2 * root + 1 + 1 < hi
            ∧ less (read data (first + (2 * root + 1)))
              (read data (first + (2 * root + 1) + 1)) = true
        · refine ⟨2 * root + 1 + 1, if_pos h2, Or.inr rfl, h2.1, ?_⟩
          intro c hc1 hc2 hc3
          have h22 := h2.2
          rw [hless] at h22
          have hlt := of_decide_eq_true h22
          have hc : c = 2 * root + 1 ∨ c = 2 * root + 1 + 1 := by omega
          rcases hc with e | e
          · rw [e]
            have e2 : first + (2 * root + 1) + 1 = first + (2 * root + 1 + 1) := by omega
            rw [e2] at hlt
            exact le_of_lt hlt
          · rw [e]
        · refine ⟨2 * root + 1, if_neg h2, Or.inl rfl, by omega, ?_⟩
          intro c hc1 hc2 hc3
          have hc : c = 2 * root + 1 ∨ c = 2 * root + 1 + 1 := by omega
          rcases hc with e | e
          · rw [e]
          · rw [e]
            have hnl : ¬ key (read data (first + (2 * root + 1)))
                < key (read data (first + (2 * root + 1) + 1)) := by
              intro hlt
              apply h2
              refine ⟨by omega, ?_⟩
              rw [hless]
              exact decide_eq_true hlt
            have e2 : first + (2 * root + 1) + 1 = first + (2 * root + 1 + 1) := by omega
            rw [e2] at hnl
            exact not_lt.mp hnl
      obtain ⟨child, echild, hchild1, hchild2, hchild3⟩ := hchild
      rw [echild]
      by_cases h3 : less (read data (first + root)) (read data (first + child)) = false
      · rw [if_pos h3]
        refine ⟨data, rfl, ?_, Rearranged.refl _ _ _⟩
        rw [hless] at h3
        have hnl := of_decide_eq_false h3
        intro c hc1 hc2 hc3
        by_cases e : (c - 1) / 2 = root
        · rw [e]
          exact le_trans (hchild3 c hc1 hc2 e) (not_lt.mp hnl)
        · exact hA c hc1 hc2 hc3 e
      · rw [if_neg h3]
        have h3' : less (read data (first + root)) (read data (first + child)) = true := by
          cases hb : less (read data (first + root)) (read data (first + child))
          · exact absurd hb h3
          · rfl
        rw [hless] at h3'
        have hlt := of_decide_eq_true h3'
        have hrl : first + root < data.length := by omega
        have hcl : first + child < data.length := by omega
        have hne : ∀ k, k ≠ root → k ≠ child →
            read (swapAt data (first + root) (first + child)) (first + k)
              = read data (first + k) :=
          fun k e1 e2 => read_swapAt_of_ne data (first + root) (first + child) (first + k)
            hrl hcl (by omega) (by omega)
        have hroot : read (swapAt data (first + root) (first + child)) (first + root)
            = read data (first + child) :=
          read_swapAt_left data (first + root) (first + child) hrl hcl
        have hch : read (swapAt data (first + root) (first + child)) (first + child)
            = read data (first + root) :=
          read_swapAt_right data (first + root) (first + child) hrl hcl
        obtain ⟨out, e1, e2, e3⟩ := ih child (swapAt data (first + root) (first + child))
          (by omega) (by omega) (by rw [length_swapAt]; exact hlen)
          (by
            intro c hc1 hc2 hc3 hc4
            by_cases ep : (c - 1) / 2 = root
            · rw [ep, hroot]
              by_cases ec : c = child
              · rw [ec, hch]; exact le_of_lt hlt
              · rw [hne c (by omega) ec]
                exact hchild3 c hc1 hc2 ep
            · by_cases ec : c = root
              · rw [ec, hroot, hne ((root - 1) / 2) (by omega) (by omega)]
                exact hB child (by omega) hchild2 (by omega) (by omega) (by rw [← ec]; exact hc3)
              · rw [hne c ec (by omega), hne ((c - 1) / 2) ep hc4]
                exact hA c hc1 hc2 hc3 ep)
          (by
            intro c hc1 hc2 hc3 _ _
            have e : (child - 1) / 2 = root := by omega
            rw [e, hroot, hne c (by omega) (by omega)]
            have hp := hA c hc1 hc2 (by omega) (by omega)
            rw [hc3] at hp
            exact hp)
        refine ⟨out, e1, e2, Rearranged.trans ?_ e3⟩
        exact Rearranged.swap (first + lo) (first + hi) data (first + root) (first + child)
          hlen (by omega) (by omega) (by omega) (by omega)

/-- In a heap the root carries the largest key. -/
theorem HeapFrom.root_max (key : α → Int) (first hi : Nat) (data : List α)
    (h : HeapFrom key first 0 hi data) :
    ∀ c, c < hi → key (read data (first + c)) ≤ key (read data (first + 0)) := by
  intro c
  induction c using Nat.strong_induction_on with
  | _ c ih =>
    intro hc
    by_cases e : c = 0
    · rw [e]
    · exact le_trans (h c (by omega) hc (Nat.zero_le _)) (ih ((c - 1) / 2) (by omega) (by omega))

theorem reverse_range_succ (n : Nat) :
    (List.range (n + 1)).reverse = n :: (List.range n).reverse := by
  rw [List.range_succ, List.reverse_append]
  rfl

/-- The first loop of `heapSort_func` builds the heap. -/
theorem heapBuild_spec (less : α → α → Bool) (key : α → Int)
    (hless : ∀ x y, less x y = decide (key x < key y)) (hi first : Nat) :
    ∀ (n : Nat) (data : List α), first + hi ≤ data.length → HeapFrom key first n hi data →
      ∃ out, (List.range n).reverse.foldlM
          (fun d i => siftDown_func less hi first (hi + 1) i d) data = some out
        ∧ HeapFrom key first 0 hi out ∧ Rearranged first (first + hi) data out := by
  intro n
  induction n with
  | zero =>
    intro data _ h
    exact ⟨data, rfl, h, Rearranged.refl _ _ _⟩
  | succ n ih =>
    intro data hlen h
    obtain ⟨d1, e1, h1, r1⟩ := siftDown_func_spec less key hless hi first n (hi + 1) n data
      (le_refl _) (by omega) hlen
      (by
        intro c hc1 hc2 hc3 hc4
        exact h c hc1 hc2 (by omega))
      (by intro c hc1 hc2 hc3 hc4 hc5; omega)
    obtain ⟨out, e2, h2, r2⟩ := ih d1 (by rw [r1.length_eq]; exact hlen) h1
    refine ⟨out, ?_, h2, Rearranged.trans (r1.mono (by omega) (le_refl _)) r2⟩
    rw [reverse_range_succ, List.foldlM_cons, e1]
    exact e2

/-- The second loop of `heapSort_func` pops the largest key to the end of the
heap, over and over. -/
theorem heapPop_spec (less : α → α → Bool) (key : α → Int)
    (hless : ∀ x y, less x y = decide (key x < key y)) (hi first : Nat) :
    ∀ (n : Nat) (data : List α), n ≤ hi → first + hi ≤ data.length →
      HeapFrom key first 0 n data →
      SortedRange key (first + n) (first + hi) data →
      (∀ p q, p < n → n ≤ q → q < hi →
        key (read data (first + p)) ≤ key (read data (first + q))) →
      ∃ out, (List.range n).reverse.foldlM
          (fun d i => siftDown_func less i first (hi + 1) 0 (swapAt d first (first + i)))
          data = some out
        ∧ SortedRange key first (first + hi) out ∧ Rearranged first (first + hi) data out := by
  intro n
  induction n with
  | zero =>
    intro data _ _ _ hs _
    exact ⟨data, rfl, hs, Rearranged.refl _ _ _⟩
  | succ n ih =>
    intro data hn hlen hheap hs hcross
    have hfl : first < data.length := by omega
    have hnl : first + n < data.length := by omega
    have hmax := HeapFrom.root_max key first (n + 1) data hheap
    have hsw : Rearranged first (first + (n + 1)) data (swapAt data first (first + n)) :=
      Rearranged.swap first (first + (n + 1)) data first (first + n) (by omega) (le_refl _)
        (by omega) (by omega) (by omega)
    have hne : ∀ k, k ≠ 0 → k ≠ n →
        read (swapAt data first (first + n)) (first + k) = read data (first + k) :=
      fun k e1 e2 => read_swapAt_of_ne data first (first + n) (first + k) hfl hnl (by omega)
        (by omega)
    have htop : read (swapAt data first (first + n)) (first + n) = read data (first + 0) :=
      read_swapAt_right data first (first + n) hfl hnl
    obtain ⟨d1, e1, h1, r1⟩ := siftDown_func_spec less key hless n first 0 (hi + 1) 0
      (swapAt data first (first + n)) (le_refl _) (by omega)
      (by rw [length_swapAt]; omega)
      (by
        intro c hc1 hc2 hc3 hc4
        rw [hne c (by omega) (by omega), hne ((c - 1) / 2) hc4 (by omega)]
        exact hheap c hc1 (by omega) (Nat.zero_le _))
      (by intro c hc1 hc2 hc3 hc4 hc5; omega)
    have r1' : Rearranged first (first + n) (swapAt data first (first + n)) d1 := by
      have e : first + 0 = first := by omega
      rw [e] at r1
      exact r1
    -- positions from `first + n` on: untouched by the sift
    have hkeep : ∀ q, n ≤ q → read d1 (first + q)
        = read (swapAt data first (first + n)) (first + q) :=
      fun q hq => r1'.frame (first + q) (by omega)
    -- every key of the new heap is bounded by what bounded the old heap
    have hbound : ∀ (B : Int), (∀ p, p < n + 1 → key (read data (first + p)) ≤ B) →
        ∀ p, p < n → key (read d1 (first + p)) ≤ B := by
      intro B hB p hp
      have hall : ∀ k, first ≤ k → k < first + (n + 1) → key (read data k) ≤ B := by
        intro k hk1 hk2
        have := hB (k - first) (by omega)
        have e : first + (k - first) = k := by omega
        rw [e] at this
        exact this
      have h2 := (Rearranged.trans hsw (r1'.mono (le_refl _) (by omega))).forall_range
        (fun x => key x ≤ B) hall (first + p) (by omega) (by omega)
      exact h2
    obtain ⟨out, e2, s2, r2⟩ := ih d1 (by omega) (by rw [r1.length_eq, length_swapAt]; exact hlen)
      h1
      (by
        intro i j hi1 hij hj
        have ei : first + (i - first) = i := by omega
        have ej : first + (j - first) = j := by omega
        rw [← ei, ← ej, hkeep (i - first) (by omega), hkeep (j - first) (by omega)]
        rw [hne (j - first) (by omega) (by omega)]
        by_cases e : i - first = n
        · rw [e, htop]
          exact hcross 0 (j - first) (by omega) (by omega) (by omega)
        · rw [hne (i - first) (by omega) e, ei, ej]
          exact hs i j (by omega) hij hj)
      (by
        intro p q hp hq1 hq2
        rw [hkeep q hq1]
        by_cases e : q = n
        · rw [e, htop]
          exact hbound _ (fun p' hp' => hmax p' hp') p hp
        · rw [hne q (by omega) e]
          exact hbound _ (fun p' hp' => hcross p' q hp' (by omega) hq2) p hp)
    refine ⟨out, ?_, s2, Rearranged.trans (Rearranged.trans (hsw.mono (le_refl _) (by omega))
      (r1'.mono (le_refl _) (by omega))) r2⟩
    rw [reverse_range_succ, List.foldlM_cons, e1]
    exact e2

/-- `heapSort_func` returns, sorts the range `[a, b)` and rearranges nothing
else. -/
theorem heapSort_func_spec (less : α → α → Bool) (key : α → Int)
    (hless : ∀ x y, less x y = decide (key x < key y)) (data : List α) (a b : Nat)
    (hab : a ≤ b) (hb : b ≤ data.length) :
    ∃ out, heapSort_func less data a b = some out
      ∧ SortedRange key a b out ∧ Rearranged a b data out := by
  have e : a + (b - a) = b := by omega
  obtain ⟨d1, e1, h1, r1⟩ := heapBuild_spec less key hless (b - a) a ((b - a - 1) / 2 + 1) data
    (by omega) (by intro c hc1 hc2 hc3; omega)
  obtain ⟨out, e2, s2, r2⟩ := heapPop_spec less key hless (b - a) a (b - a) d1 (le_refl _)
    (by rw [r1.length_eq]; omega) h1 (by intro i j h1 h2 h3; omega)
    (by intro p q h1 h2 h3; omega)
  rw [e] at s2 r1 r2
  refine ⟨out, ?_, s2, Rearranged.trans r1 r2⟩
  unfold heapSort_func
  simp only [bind, Option.bind]
  rw [e1]
  exact e2

end Heap

/-! ## `reverseRange_func`, `breakPatterns_func`, `choosePivot_func` -/

section SortHelpers

variable {α : Type} [Inhabited α]

theorem reverseLoop_spec (a b : Nat) :
    ∀ (n i j1 : Nat) (data : List α), a ≤ i → j1 ≤ b → b ≤ data.length →
      Rearranged a b data (reverseLoop n i j1 data) := by
  intro n
  induction n with
  | zero => intro i j1 data _ _ _; exact Rearranged.refl _ _ _
  | succ n ih =>
    intro i j1 data hi hj hb
    unfold reverseLoop
    by_cases hc : i + 1 < j1
    · rw [if_pos hc]
      refine Rearranged.trans ?_ (ih (i + 1) (j1 - 1) (swapAt data i (j1 - 1)) (by omega)
        (by omega) (by rw [length_swapAt]; exact hb))
      exact Rearranged.swap a b data i (j1 - 1) hb hi (by omega) (by omega) (by omega)
    · rw [if_neg hc]
      exact Rearranged.refl _ _ _

/-- `reverseRange_func` rearranges the range `[a, b)` only. -/
theorem reverseRange_func_spec (data : List α) (a b : Nat) (hb : b ≤ data.length) :
    Rearranged a b data (reverseRange_func data a b) :=
  reverseLoop_spec a b (b - a) a b data (le_refl _) (le_refl _) hb

theorem breakPatternsLoop_spec (a b length modulus idx : Nat) (hlen : a + length = b)
    (hmod : modulus ≤ 2 * length) (hmpos : 0 < modulus)
    (hidx1 : a + 1 ≤ idx) (hidx2 : idx + 3 ≤ b) :
    ∀ (n i random : Nat) (data : List α), i + n ≤ 3 → b ≤ data.length →
      Rearranged a b data (breakPatternsLoop a length modulus idx n i random data) := by
  intro n
  induction n with
  | zero => intro i random data _ _; exact Rearranged.refl _ _ _
  | succ n ih =>
    intro i random data hi hb
    unfold breakPatternsLoop
    simp only []
    have hlt : Nat.land (xorshiftNext random) (modulus - 1) < modulus := by
      have h1 : Nat.land (xorshiftNext random) (modulus - 1) ≤ modulus - 1 := Nat.and_le_right
      omega
    generalize Nat.land (xorshiftNext random) (modulus - 1) = other at hlt ⊢
    refine Rearranged.trans ?_ (ih (i + 1) (xorshiftNext random) _ (by omega)
      (by rw [length_swapAt]; exact hb))
    apply Rearranged.swap a b data _ _ hb (by omega) (by omega) (by omega)
    split <;> omega

/-- `breakPatterns_func` rearranges the range `[a, b)` only. -/
theorem breakPatterns_func_spec (data : List α) (a b : Nat) (hab : a ≤ b)
    (hb : b ≤ data.length) : Rearranged a b data (breakPatterns_func data a b) := by
  unfold breakPatterns_func
  simp only []
  by_cases hc : 8 ≤ b - a
  · rw [if_pos hc]
    have hbits : bitsLen (b - a) = floorLog2 (b - a) + 1 := by
      unfold bitsLen
      rw [if_neg (by omega)]
    have hsl : Nat.shiftLeft 1 (bitsLen (b - a)) = 2 ^ (floorLog2 (b - a) + 1) := by
      show 1 <<< bitsLen (b - a) = _
      rw [Nat.one_shiftLeft, hbits]
    have hle := two_pow_floorLog2_le (b - a) (by omega)
    apply breakPatternsLoop_spec a b (b - a) _ _ (by omega)
    · rw [hsl, Nat.pow_succ]; omega
    · rw [hsl]; exact Nat.two_pow_pos _
    · omega
    · omega
    · omega
    · exact hb
  · rw [if_neg hc]
    exact Rearranged.refl _ _ _

theorem order2_func_mem (less : α → α → Bool) (data : List α) (a b swaps : Nat) :
    ((order2_func less data a b swaps).1 = a ∧ (order2_func less data a b swaps).2.1 = b)
      ∨ ((order2_func less data a b swaps).1 = b ∧ (order2_func less data a b swaps).2.1 = a) := by
  unfold order2_func
  split
  · exact Or.inr ⟨rfl, rfl⟩
  · exact Or.inl ⟨rfl, rfl⟩

theorem median_func_mem (less : α → α → Bool) (data : List α) (a b c swaps : Nat) :
    (median_func less data a b c swaps).1 = a ∨ (median_func less data a b c swaps).1 = b
      ∨ (median_func less data a b c swaps).1 = c := by
  unfold median_func
  simp only []
  have h1 := order2_func_mem less data a b swaps
  generalize order2_func less data a b swaps = r1 at h1 ⊢
  have h2 := order2_func_mem less data r1.2.1 c r1.2.2
  generalize order2_func less data r1.2.1 c r1.2.2 = r2 at h2 ⊢
  have h3 := order2_func_mem less data r1.1 r2.1 r2.2.2
  generalize order2_func less data r1.1 r2.1 r2.2.2 = r3 at h3 ⊢
  rcases h1 with ⟨e1, e2⟩ | ⟨e1, e2⟩ <;> rcases h2 with ⟨e3, e4⟩ | ⟨e3, e4⟩ <;>
    rcases h3 with ⟨e5, e6⟩ | ⟨e5, e6⟩ <;> simp_all

/-- `choosePivot_func` picks an index of the range when the range has at least
eight elements. -/
theorem choosePivot_func_mem (less : α → α → Bool) (data : List α) (a b : Nat)
    (h8 : 8 ≤ b - a) :
    a ≤ (choosePivot_func less data a b).1 ∧ (choosePivot_func less data a b).1 < b := by
  have hr : ∀ r : Nat × Nat,
      (if r.2 = 0 then (r.1, sortedHint.increasingHint)
        else if r.2 = 12 then (r.1, sortedHint.decreasingHint)
        else (r.1, sortedHint.unknownHint)).1 = r.1 := by
    intro r
    split_ifs <;> rfl
  unfold choosePivot_func
  simp only []
  rw [hr, if_pos h8]
  by_cases h50 : 50 ≤ b - a
  · rw [if_pos h50]
    unfold medianAdjacent_func
    have m1 := median_func_mem less data (a + (b - a) / 4 * 1 - 1) (a + (b - a) / 4 * 1)
      (a + (b - a) / 4 * 1 + 1) 0
    generalize median_func less data (a + (b - a) / 4 * 1 - 1) (a + (b - a) / 4 * 1)
      (a + (b - a) / 4 * 1 + 1) 0 = ri at m1 ⊢
    have m2 := median_func_mem less data (a + (b - a) / 4 * 2 - 1) (a + (b - a) / 4 * 2)
      (a + (b - a) / 4 * 2 + 1) ri.2
    generalize median_func less data (a + (b - a) / 4 * 2 - 1) (a + (b - a) / 4 * 2)
      (a + (b - a) / 4 * 2 + 1) ri.2 = rj at m2 ⊢
    have m3 := median_func_mem less data (a + (b - a) / 4 * 3 - 1) (a + (b - a) / 4 * 3)
      (a + (b - a) / 4 * 3 + 1) rj.2
    generalize median_func less data (a + (b - a) / 4 * 3 - 1) (a + (b - a) / 4 * 3)
      (a + (b - a) / 4 * 3 + 1) rj.2 = rk at m3 ⊢
    have m4 := median_func_mem less data ri.1 rj.1 rk.1 rk.2
    generalize median_func less data ri.1 rj.1 rk.1 rk.2 = r at m4 ⊢
    omega
  · rw [if_neg h50]
    have m := median_func_mem less data (a + (b - a) / 4 * 1) (a + (b - a) / 4 * 2)
      (a + (b - a) / 4 * 3) 0
    generalize median_func less data (a + (b - a) / 4 * 1) (a + (b - a) / 4 * 2)
      (a + (b - a) / 4 * 3) 0 = r at m ⊢
    omega

end SortHelpers

/-! ## `partialInsertionSort_func` -/

section PartialInsertion

variable {α : Type} [Inhabited α]

theorem BoundedBelow.rearranged {key : α → Int} {a b : Nat} {data out : List α}
    (h : BoundedBelow key a b data) (r : Rearranged a b data out) :
    BoundedBelow key a b out := by
  intro ha k hk1 hk2
  rw [r.frame (a - 1) (by omega)]
  exact r.forall_range (fun x => key (read data (a - 1)) ≤ key x) (h ha) k hk1 hk2

theorem scanOrdered_spec (less : α → α → Bool) (key : α → Int)
    (hless : ∀ x y, less x y = decide (key x < key y)) (data : List α) (a b : Nat) :
    ∀ (n i : Nat), a + 1 ≤ i → i ≤ b → b - i ≤ n → SortedRange key a i data →
      i ≤ scanOrdered less data b n i ∧ scanOrdered less data b n i ≤ b
        ∧ SortedRange key a (scanOrdered less data b n i) data
        ∧ (scanOrdered less data b n i < b →
            key (read data (scanOrdered less data b n i))
              < key (read data (scanOrdered less data b n i - 1))) := by
  intro n
  induction n with
  | zero =>
    intro i h1 h2 h3 hs
    simp only [scanOrdered]
    exact ⟨le_refl _, h2, hs, fun h => by omega⟩
  | succ n ih =>
    intro i h1 h2 h3 hs
    unfold scanOrdered
    by_cases hc : i < b ∧ less (read data i) (read data (i - 1)) = false
    · rw [if_pos hc]
      obtain ⟨hc1, hc2⟩ := hc
      rw [hless] at hc2
      have hnl : ¬ key (read data i) < key (read data (i - 1)) := of_decide_eq_false hc2
      have hs' : SortedRange key a (i + 1) data := by
        intro p q hp hpq hq
        by_cases e : q = i
        · rw [e]
          by_cases e2 : p = i - 1
          · rw [e2]; exact not_lt.mp hnl
          · exact le_trans (hs p (i - 1) hp (by omega) (by omega)) (not_lt.mp hnl)
        · exact hs p q hp hpq (by omega)
      obtain ⟨r1, r2, r3, r4⟩ := ih (i + 1) (by omega) (by omega) (by omega) hs'
      exact ⟨by omega, r2, r3, r4⟩
    · rw [if_neg hc]
      refine ⟨le_refl _, h2, hs, ?_⟩
      intro hib
      by_contra hnl
      apply hc
      refine ⟨hib, ?_⟩
      rw [hless]
      exact decide_eq_false hnl

/-- Under the lower bound kept by `pdqsort_func`, the leftward shift of
`partialInsertionSort_func`, whose loop runs down to index 1, stops where the
inner loop of the insertion sort on `[a, b)` stops. -/
theorem shiftSmaller_eq_insertionShift (less : α → α → Bool) (key : α → Int)
    (hless : ∀ x y, less x y = decide (key x < key y)) (a b : Nat) :
    ∀ (j : Nat) (data : List α), a ≤ j → j < b → b ≤ data.length →
      BoundedBelow key a b data →
      shiftSmaller less j data = insertionShift less a j data := by
  intro j
  induction j with
  | zero => intro data _ _ _ _; rfl
  | succ j ih =>
    intro data haj hjb hb hbb
    unfold shiftSmaller insertionShift
    by_cases hl : less (read data (j + 1)) (read data j) = false
    · rw [if_pos hl, if_neg (by rw [hl]; simp)]
    · have hl' : less (read data (j + 1)) (read data j) = true := by
        cases hv : less (read data (j + 1)) (read data j)
        · exact absurd hv hl
        · rfl
      rw [if_neg hl]
      by_cases ha : a < j + 1
      · rw [if_pos ⟨ha, hl'⟩]
        exact ih _ (by omega) (by omega) (by rw [length_swapAt]; exact hb)
          (hbb.rearranged (Rearranged.swap a b data (j + 1) j hb (by omega) (by omega)
            (by omega) (by omega)))
      · exfalso
        have e : a = j + 1 := by omega
        rw [hless] at hl'
        have hlt := of_decide_eq_true hl'
        have h2 := hbb (by omega) (j + 1) (by omega) hjb
        have e2 : a - 1 = j := by omega
        rw [e2] at h2
        omega

theorem shiftGreater_spec (less : α → α → Bool) (lo b : Nat) :
    ∀ (n j : Nat) (data : List α), lo + 1 ≤ j → j + n ≤ b → b ≤ data.length →
      Rearranged lo b data (shiftGreater less n j data) := by
  intro n
  induction n with
  | zero => intro j data _ _ _; exact Rearranged.refl _ _ _
  | succ n ih =>
    intro j data hj hn hb
    unfold shiftGreater
    split
    · exact Rearranged.refl _ _ _
    · refine Rearranged.trans ?_ (ih (j + 1) (swapAt data j (j - 1)) (by omega) (by omega)
        (by rw [length_swapAt]; exact hb))
      exact Rearranged.swap lo b data j (j - 1) hb (by omega) (by omega) (by omega) (by omega)

theorem partialInsertionLoop_spec (less : α → α → Bool) (key : α → Int)
    (hless : ∀ x y, less x y = decide (key x < key y)) (a b : Nat) :
    ∀ (steps i : Nat) (data : List α), a + 1 ≤ i → i ≤ b → b ≤ data.length →
      SortedRange key a i data → BoundedBelow key a b data →
      Rearranged a b data (partialInsertionLoop less a b steps i data).1
        ∧ ((partialInsertionLoop less a b steps i data).2 = true →
            SortedRange key a b (partialInsertionLoop less a b steps i data).1) := by
  intro steps
  induction steps with
  | zero =>
    intro i data _ _ _ _ _
    simp only [partialInsertionLoop]
    exact ⟨Rearranged.refl _ _ _, fun h => by simp at h⟩
  | succ steps ih =>
    intro i data hi1 hi2 hb hs hbb
    obtain ⟨r1, r2, r3, r4⟩ := scanOrdered_spec less key hless data a b (b - i) i hi1 hi2
      (le_refl _) hs
    unfold partialInsertionLoop
    simp only []
    generalize scanOrdered less data b (b - i) i = i' at r1 r2 r3 r4 ⊢
    by_cases h1 : i' = b
    · rw [if_pos h1]
      rw [h1] at r3
      exact ⟨Rearranged.refl _ _ _, fun _ => r3⟩
    · rw [if_neg h1]
      by_cases h2 : b - a < 50
      · rw [if_pos h2]
        exact ⟨Rearranged.refl _ _ _, fun h => by simp at h⟩
      · rw [if_neg h2]
        -- the exchange of the out-of-order pair
        have hsw : Rearranged a b data (swapAt data i' (i' - 1)) :=
          Rearranged.swap a b data i' (i' - 1) hb (by omega) (by omega) (by omega) (by omega)
        have hil : i' < data.length := by omega
        have hjl : i' - 1 < data.length := by omega
        have hlt := r4 (by omega)
        -- the leftward shift
        have hleft : ∃ d2, (if 2 ≤ i' - a then shiftSmaller less (i' - 1)
              (swapAt data i' (i' - 1)) else swapAt data i' (i' - 1)) = d2
            ∧ Rearranged a b data d2 ∧ SortedRange key a i' d2 := by
          by_cases h3 : 2 ≤ i' - a
          · rw [if_pos h3]
            rw [shiftSmaller_eq_insertionShift less key hless a b (i' - 1) _ (by omega)
              (by omega) (by rw [length_swapAt]; exact hb) (hbb.rearranged hsw)]
            obtain ⟨s1, s2⟩ := insertionShift_spec less key hless a (i' - 1) (i' - 1)
              (swapAt data i' (i' - 1)) (by omega) (le_refl _)
              (by rw [length_swapAt]; omega)
              (by
                intro p q hp hpq hq hpj hqj
                rw [read_swapAt_of_ne data i' (i' - 1) p hil hjl (by omega) hpj,
                  read_swapAt_of_ne data i' (i' - 1) q hil hjl (by omega) hqj]
                exact r3 p q hp hpq (by omega))
              (by intro q hq1 hq2; omega)
            have e : i' - 1 + 1 = i' := by omega
            rw [e] at s1 s2
            exact ⟨_, rfl, Rearranged.trans hsw (s2.mono (le_refl _) (by omega)), s1⟩
          · rw [if_neg h3]
            exact ⟨_, rfl, hsw, by intro p q hp hpq hq; omega⟩
        obtain ⟨d2, e2, hr2, hs2⟩ := hleft
        rw [e2]
        -- the rightward shift
        have hright : ∃ d3, (if 2 ≤ b - i' then shiftGreater less (b - (i' + 1)) (i' + 1) d2
              else d2) = d3
            ∧ Rearranged a b data d3 ∧ SortedRange key a i' d3 := by
          by_cases h4 : 2 ≤ b - i'
          · rw [if_pos h4]
            have hg := shiftGreater_spec less i' b (b - (i' + 1)) (i' + 1) d2 (le_refl _)
              (by omega) (by rw [hr2.length_eq]; exact hb)
            refine ⟨_, rfl, Rearranged.trans hr2 (hg.mono (by omega) (le_refl _)), ?_⟩
            intro p q hp hpq hq
            rw [hg.frame p (by omega), hg.frame q (by omega)]
            exact hs2 p q hp hpq hq
          · rw [if_neg h4]
            exact ⟨_, rfl, hr2, hs2⟩
        obtain ⟨d3, e3, hr3, hs3⟩ := hright
        rw [e3]
        obtain ⟨t1, t2⟩ := ih i' d3 (by omega) r2 (by rw [hr3.length_eq]; exact hb) hs3
          (hbb.rearranged hr3)
        exact ⟨Rearranged.trans hr3 t1, t2⟩

/-- `partialInsertionSort_func` rearranges the range `[a, b)` only, and reports
`true` only when it leaves the range sorted. -/
theorem partialInsertionSort_func_spec (less : α → α → Bool) (key : α → Int)
    (hless : ∀ x y, less x y = decide (key x < key y)) (data : List α) (a b : Nat)
    (hab : a < b) (hb : b ≤ data.length) (hbb : BoundedBelow key a b data) :
    Rearranged a b data (partialInsertionSort_func less data a b).1
      ∧ ((partialInsertionSort_func less data a b).2 = true →
          SortedRange key a b (partialInsertionSort_func less data a b).1) := by
  unfold partialInsertionSort_func
  exact partialInsertionLoop_spec less key hless a b 5 (a + 1) data (le_refl _) (by omega) hb
    (by intro p q hp hpq hq; omega) hbb

end PartialInsertion

/-! ## `pdqsort_func` and `sort.Slice` -/

section Pdqsort

variable {α : Type} [Inhabited α]

theorem BoundedBelow.shrink {key : α → Int} {a b b' : Nat} {data : List α}
    (h : BoundedBelow key a b data) (hb : b' ≤ b) : BoundedBelow key a b' data :=
  fun ha k hk1 hk2 => h ha k hk1 (by omega)

/-- A range sorted on both sides of a position that separates them is sorted. -/
theorem SortedRange.join {key : α → Int} {a mid b : Nat} {out : List α}
    (hl : SortedRange key a mid out) (hr : SortedRange key (mid + 1) b out)
    (hlo : ∀ k, a ≤ k → k < mid → key (read out k) ≤ key (read out mid))
    (hhi : ∀ k, mid < k → k < b → key (read out mid) ≤ key (read out k)) :
    SortedRange key a b out := by
  intro p q hp hpq hq
  by_cases h1 : q < mid
  · exact hl p q hp hpq h1
  · by_cases h2 : q = mid
    · rw [h2]; exact hlo p hp (by omega)
    · by_cases h3 : p < mid
      · exact le_trans (hlo p hp h3) (hhi q (by omega) hq)
      · by_cases h4 : p = mid
        · rw [h4]; exact hhi q (by omega) hq
        · exact hr p q (by omega) hpq hq

/-- `pdqsort_func` returns with enough fuel, sorts the range `[a, b)` and
rearranges nothing else. -/
theorem pdqsort_func_spec (less : α → α → Bool) (key : α → Int)
    (hless : ∀ x y, less x y = decide (key x < key y)) :
    ∀ (fuel : Nat) (data : List α) (a b limit : Nat) (wasBalanced wasPartitioned : Bool),
      a ≤ b → b ≤ data.length → b - a < fuel → BoundedBelow key a b data →
      ∃ out, pdqsort_func less fuel data a b limit wasBalanced wasPartitioned = some out
        ∧ SortedRange key a b out ∧ Rearranged a b data out := by
  intro fuel
  induction fuel with
  | zero => intro data a b limit wb wp _ _ h; omega
  | succ fuel ih =>
    intro data a b limit wb wp hab hb hfuel hbb
    unfold pdqsort_func
    simp only []
    by_cases h12 : b - a ≤ 12
    · rw [if_pos h12]
      obtain ⟨s, r⟩ := insertionSort_func_spec less key hless data a b hb
      exact ⟨_, rfl, s, r⟩
    · rw [if_neg h12]
      by_cases hlim : limit = 0
      · rw [if_pos hlim]
        exact heapSort_func_spec less key hless data a b hab hb
      · rw [if_neg hlim]
        -- breakPatterns
        have hd1 : ∃ d1, (if wb = true then data else breakPatterns_func data a b) = d1
            ∧ Rearranged a b data d1 := by
          by_cases hwb : wb = true
          · rw [if_pos hwb]; exact ⟨_, rfl, Rearranged.refl _ _ _⟩
          · rw [if_neg hwb]; exact ⟨_, rfl, breakPatterns_func_spec data a b hab hb⟩
        obtain ⟨d1, e1, r1⟩ := hd1
        rw [e1]
        generalize (if wb = true then limit else limit - 1) = limit1
        have hb1 : b ≤ d1.length := by rw [r1.length_eq]; exact hb
        -- choosePivot and the reversal
        obtain ⟨p1, p2⟩ := choosePivot_func_mem less d1 a b (by omega)
        generalize choosePivot_func less d1 a b = ph at p1 p2 ⊢
        have hd2 : ∃ d2 pivot,
            (if decide (ph.2 = sortedHint.decreasingHint) = true
              then reverseRange_func d1 a b else d1) = d2
            ∧ (if decide (ph.2 = sortedHint.decreasingHint) = true
              then b - 1 - (ph.1 - a) else ph.1) = pivot
            ∧ Rearranged a b d1 d2 ∧ a ≤ pivot ∧ pivot < b := by
          by_cases hrev : decide (ph.2 = sortedHint.decreasingHint) = true
          · rw [if_pos hrev, if_pos hrev]
            exact ⟨_, _, rfl, rfl, reverseRange_func_spec d1 a b hb1, by omega, by omega⟩
          · rw [if_neg hrev, if_neg hrev]
            exact ⟨_, _, rfl, rfl, Rearranged.refl _ _ _, p1, p2⟩
        obtain ⟨d2, pivot, e2, e2', r2, q1, q2⟩ := hd2
        rw [e2, e2']
        generalize (if decide (ph.2 = sortedHint.decreasingHint) = true
          then sortedHint.increasingHint else ph.2) = hint
        have hb2 : b ≤ d2.length := by rw [r2.length_eq]; exact hb1
        have hbb2 : BoundedBelow key a b d2 := hbb.rearranged (Rearranged.trans r1 r2)
        -- partialInsertionSort
        have hd3 : ∃ tried : List α × Bool,
            (if wb = true ∧ wp = true ∧ hint = sortedHint.increasingHint
              then partialInsertionSort_func less d2 a b else (d2, false)) = tried
            ∧ Rearranged a b d2 tried.1
            ∧ (tried.2 = true → SortedRange key a b tried.1) := by
          by_cases hc : wb = true ∧ wp = true ∧ hint = sortedHint.increasingHint
          · rw [if_pos hc]
            obtain ⟨t1, t2⟩ := partialInsertionSort_func_spec less key hless d2 a b (by omega)
              hb2 hbb2
            exact ⟨_, rfl, t1, t2⟩
          · rw [if_neg hc]
            exact ⟨_, rfl, Rearranged.refl _ _ _, fun h => by simp at h⟩
        obtain ⟨tried, e3, r3, s3⟩ := hd3
        rw [e3]
        have r03 : Rearranged a b data tried.1 := Rearranged.trans r1 (Rearranged.trans r2 r3)
        by_cases hdone : tried.2 = true
        · rw [if_pos hdone]
          exact ⟨_, rfl, s3 hdone, r03⟩
        · rw [if_neg hdone]
          generalize tried.1 = d3 at r3 r03 ⊢
          have hb3 : b ≤ d3.length := by rw [r03.length_eq]; exact hb
          have hbb3 : BoundedBelow key a b d3 := hbb.rearranged r03
          by_cases heq : 0 < a ∧ less (read d3 (a - 1)) (read d3 pivot) = false
          · -- the pivot equals the element before the range: partitionEqual
            rw [if_pos heq]
            obtain ⟨ha, hnl⟩ := heq
            rw [hless] at hnl
            have hnl' := of_decide_eq_false hnl
            obtain ⟨d4, mid, e4, m1, m2, r4, x1, x2⟩ := partitionEqual_func_spec less key hless
              d3 a b pivot q1 q2 hb3
              (by
                intro k hk1 hk2
                exact le_trans (not_lt.mp hnl') (hbb3 ha k hk1 hk2))
            rw [e4]
            simp only []
            have hb4 : b ≤ d4.length := by rw [r4.length_eq]; exact hb3
            obtain ⟨out, e5, s5, r5⟩ := ih d4 mid b limit1 wb wp m2 hb4 (by omega)
              (by
                intro _ k hk1 hk2
                rw [x1 (mid - 1) (by omega) (by omega)]
                exact le_of_lt (x2 k hk1 hk2))
            refine ⟨out, e5, ?_, Rearranged.trans r03 (Rearranged.trans r4
              (r5.mono (by omega) (le_refl _)))⟩
            intro p q hp hpq hq
            by_cases hq1 : q < mid
            · rw [r5.frame p (by omega), r5.frame q (by omega), x1 p hp (by omega),
                x1 q (by omega) hq1]
            · by_cases hp1 : p < mid
              · rw [r5.frame p (by omega), x1 p hp hp1]
                exact le_of_lt (r5.forall_range (fun x => key (read d3 pivot) < key x)
                  x2 q (by omega) hq)
              · exact s5 p q (by omega) hpq hq
          · -- the general case: partition
            rw [if_neg heq]
            obtain ⟨d4, mid, already, e4, m1, m2, r4, x1, x2⟩ := partition_func_spec less key
              hless d3 a b pivot q1 q2 hb3
            rw [e4]
            simp only []
            have hb4 : b ≤ d4.length := by rw [r4.length_eq]; exact hb3
            have hbb4 : BoundedBelow key a b d4 := hbb3.rearranged r4
            have r04 : Rearranged a b data d4 := Rearranged.trans r03 r4
            by_cases hside : mid - a < b - mid
            · rw [if_pos hside]
              -- left part first
              obtain ⟨dA, eA, sA, rA⟩ := ih d4 a mid limit1 true true m1 (by omega) (by omega)
                (hbb4.shrink (by omega))
              rw [eA]
              simp only []
              have hbA : b ≤ dA.length := by rw [rA.length_eq]; exact hb4
              obtain ⟨out, eB, sB, rB⟩ := ih dA (mid + 1) b limit1
                (decide ((b - a) / 8 ≤ mid - a)) already (by omega) hbA (by omega)
                (by
                  intro _ k hk1 hk2
                  have e : mid + 1 - 1 = mid := by omega
                  rw [e, rA.frame mid (by omega), rA.frame k (by omega)]
                  exact x2 k (by omega) hk2)
              refine ⟨out, eB, ?_, Rearranged.trans r04 (Rearranged.trans
                (rA.mono (le_refl _) (by omega)) (rB.mono (by omega) (le_refl _)))⟩
              have hmidv : read out mid = read d4 mid := by
                rw [rB.frame mid (by omega), rA.frame mid (by omega)]
              apply @SortedRange.join α _ key a mid b out _ sB
              · intro k hk1 hk2
                rw [hmidv, rB.frame k (by omega)]
                exact le_of_lt (rA.forall_range (fun x => key x < key (read d4 mid))
                  x1 k hk1 hk2)
              · intro k hk1 hk2
                rw [hmidv]
                apply rB.forall_range (fun x => key (read d4 mid) ≤ key x) _ k (by omega) hk2
                intro k' hk1' hk2'
                rw [rA.frame k' (by omega)]
                exact x2 k' (by omega) hk2'
              · intro p q hp hpq hq
                rw [rB.frame p (by omega), rB.frame q (by omega)]
                exact sA p q hp hpq hq
            · rw [if_neg hside]
              -- right part first
              obtain ⟨dA, eA, sA, rA⟩ := ih d4 (mid + 1) b limit1 true true (by omega) hb4
                (by omega)
                (by
                  intro _ k hk1 hk2
                  have e : mid + 1 - 1 = mid := by omega
                  rw [e]
                  exact x2 k (by omega) hk2)
              rw [eA]
              simp only []
              have hbA : b ≤ dA.length := by rw [rA.length_eq]; exact hb4
              obtain ⟨out, eB, sB, rB⟩ := ih dA a mid limit1
                (decide ((b - a) / 8 ≤ b - mid)) already m1 (by omega) (by omega)
                (by
                  intro ha k hk1 hk2
                  rw [rA.frame (a - 1) (by omega), rA.frame k (by omega)]
                  exact hbb4 ha k hk1 (by omega))
              refine ⟨out, eB, ?_, Rearranged.trans r04 (Rearranged.trans
                (rA.mono (by omega) (le_refl _)) (rB.mono (le_refl _) (by omega)))⟩
              have hmidv : read out mid = read d4 mid := by
                rw [rB.frame mid (by omega), rA.frame mid (by omega)]
              apply @SortedRange.join α _ key a mid b out sB
              · intro p q hp hpq hq
                rw [rB.frame p (by omega), rB.frame q (by omega)]
                exact sA p q hp hpq hq
              · intro k hk1 hk2
                rw [hmidv]
                apply le_of_lt
                apply rB.forall_range (fun x => key x < key (read d4 mid)) _ k hk1 hk2
                intro k' hk1' hk2'
                rw [rA.frame k' (by omega)]
                exact x1 k' hk1' hk2'
              · intro k hk1 hk2
                rw [hmidv, rB.frame k (by omega)]
                exact rA.forall_range (fun x => key (read d4 mid) ≤ key x)
                  (fun k' h1' h2' => x2 k' (by omega) h2') k (by omega) hk2

/-- `sort.Slice` returns, with the slice sorted for `less` and holding the
same elements. -/
theorem sortSlice_spec (less : α → α → Bool) (key : α → Int)
    (hless : ∀ x y, less x y = decide (key x < key y)) (x : List α) :
    ∃ out, sortSlice less x = some out
      ∧ SortedRange key 0 x.length out ∧ Rearranged 0 x.length x out := by
  unfold sortSlice
  exact pdqsort_func_spec less key hless (x.length + 1) x 0 x.length _ true true
    (Nat.zero_le _) (le_refl _) (by omega) (by intro h; omega)

end Pdqsort

/-! ## `FindBestAssignee` -/

theorem scoreLess_eq (x y : AssignmentResult) :
    scoreLess x y = decide (scoreKey x < scoreKey y) := by
  unfold scoreLess Float64.gt scoreKey
  apply decide_eq_decide.mpr
  omega

theorem length_calculateScores (hasUnicode : List Char → List Char → Bool) (task : Task)
    (users : List User) : (calculateScores hasUnicode task users).length = users.length := by
  simp [calculateScores_eq_map]

theorem read_mem {α : Type} [Inhabited α] (xs : List α) (k : Nat) (h : k < xs.length) :
    read xs k ∈ xs := by
  unfold read
  rw [List.getD_eq_getElem xs default h]
  exact List.getElem_mem h

theorem exists_read_of_mem {α : Type} [Inhabited α] (xs : List α) (x : α) (h : x ∈ xs) :
    ∃ k, k < xs.length ∧ read xs k = x := by
  obtain ⟨k, hk, e⟩ := List.getElem_of_mem h
  refine ⟨k, hk, ?_⟩
  unfold read
  rw [List.getD_eq_getElem xs default hk]
  exact e

/-- On a non-empty pool `FindBestAssignee` returns the head of the sorted
scores; the only call it makes is `GetActiveUsers`. -/
theorem FindBestAssignee_sorted {σ : Type} (hasUnicode : List Char → List Char → Bool)
    (c : Collaborators σ) (task : Task) (w : World σ) (users : List User) (s1 : σ)
    (hget : c.GetActiveUsers w.state = (Except.ok users, s1)) (hne : users ≠ []) :
    ∃ sorted, sortSlice scoreLess (calculateScores hasUnicode task users) = some sorted
      ∧ FindBestAssignee hasUnicode c task w
          = some (Except.ok (read sorted 0), ⟨s1, w.calls ++ [Call.GetActiveUsers]⟩)
      ∧ SortedRange scoreKey 0 users.length sorted
      ∧ Rearranged 0 users.length (calculateScores hasUnicode task users) sorted := by
  obtain ⟨sorted, e, hs, hr⟩ :=
    sortSlice_spec scoreLess scoreKey scoreLess_eq (calculateScores hasUnicode task users)
  rw [length_calculateScores] at hs hr
  refine ⟨sorted, e, ?_, hs, hr⟩
  unfold FindBestAssignee
  simp only [hget]
  have hlen : users.length ≠ 0 := fun h => hne (List.length_eq_zero.mp h)
  rw [if_neg hlen, e]

/-- C1. For every task and every non-empty candidate list returned by
`GetActiveUsers`, `FindBestAssignee` returns, without error, a result that is
the score record of one of the candidates of the list (it carries that
candidate's ID and name), and whose total score is at least the total score
`calculateScores` gives to any candidate of the list. -/
theorem FindBestAssignee_best {σ : Type} (hasUnicode : List Char → List Char → Bool)
    (c : Collaborators σ) (task : Task) (w : World σ) (users : List User) (s1 : σ)
    (hget : c.GetActiveUsers w.state = (Except.ok users, s1)) (hne : users ≠ []) :
    ∃ best, FindBestAssignee hasUnicode c task w
          = some (Except.ok best, ⟨s1, w.calls ++ [Call.GetActiveUsers]⟩)
      ∧ best ∈ calculateScores hasUnicode task users
      ∧ (∃ user, user ∈ users ∧ best.UserID = user.ID ∧ best.UserName = user.Name)
      ∧ ∀ r, r ∈ calculateScores hasUnicode task users → r.TotalScore ≤ best.TotalScore := by
  obtain ⟨sorted, _, e, hs, hr⟩ :=
    FindBestAssignee_sorted hasUnicode c task w users s1 hget hne
  have hpos : 0 < users.length := List.length_pos.mpr hne
  have hmem : read sorted 0 ∈ calculateScores hasUnicode task users := by
    obtain ⟨k, _, hk, ek⟩ := hr.origin 0 (le_refl _) hpos
    rw [ek]
    exact read_mem _ k (by rw [length_calculateScores]; exact hk)
  refine ⟨read sorted 0, e, hmem, ?_, ?_⟩
  · rw [calculateScores_eq_map] at hmem
    obtain ⟨user, hu, eu⟩ := List.mem_map.mp hmem
    exact ⟨user, hu, by rw [← eu]; rfl, by rw [← eu]; rfl⟩
  · intro r hrm
    obtain ⟨k, hk, ek⟩ := exists_read_of_mem _ r hrm
    rw [length_calculateScores] at hk
    obtain ⟨k', _, hk', ek'⟩ := hr.target k (Nat.zero_le _) hk
    rw [← ek, ek']
    show (read sorted k').TotalScore.scaled ≤ (read sorted 0).TotalScore.scaled
    by_cases e0 : k' = 0
    · rw [e0]
    · have := hs 0 k' (le_refl _) (by omega) hk'
      unfold scoreKey at this
      omega

/-- An instance of C1, the test "prefers less loaded user when skills are
equal": of Busy (load 8/10) and Available (load 1/10) the winner is Available
(ID 2). -/
theorem FindBestAssignee_best_witness :
    winnerID (FindBestAssignee noUnicode (fixedCollaborators loadUsers none none) loadTask
        emptyWorld) = some 2
      ∧ ∃ best, FindBestAssignee noUnicode (fixedCollaborators loadUsers none none) loadTask
              emptyWorld
            = some (Except.ok best, ⟨(), emptyWorld.calls ++ [Call.GetActiveUsers]⟩)
          ∧ best ∈ calculateScores noUnicode loadTask loadUsers
          ∧ (∃ user, user ∈ loadUsers ∧ best.UserID = user.ID ∧ best.UserName = user.Name)
          ∧ ∀ r, r ∈ calculateScores noUnicode loadTask loadUsers →
              r.TotalScore ≤ best.TotalScore :=
  ⟨by decide!,
    FindBestAssignee_best noUnicode (fixedCollaborators loadUsers none none) loadTask
      emptyWorld loadUsers () rfl (by decide)⟩

/-! ## Ties in short pools: the insertion sort keeps the first candidate first -/

section Stability

variable {α : Type} [Inhabited α]

/-- After the inner loop of the insertion sort on `[0, j]` the head is the old
head, or it is the inserted element, whose key is then strictly below every
key before it. -/
theorem insertionShift_head (less : α → α → Bool) (key : α → Int)
    (hless : ∀ x y, less x y = decide (key x < key y)) :
    ∀ (j : Nat) (data : List α), j < data.length →
      read (insertionShift less 0 j data) 0 = read data 0
        ∨ (read (insertionShift less 0 j data) 0 = read data j
          ∧ ∀ k, k < j → key (read data j) < key (read data k)) := by
  intro j
  induction j with
  | zero => intro data _; exact Or.inl rfl
  | succ j ih =>
    intro data hj
    unfold insertionShift
    by_cases hc : 0 < j + 1 ∧ less (read data (j + 1)) (read data j) = true
    · rw [if_pos hc]
      have hc2 := hc.2
      rw [hless] at hc2
      have hlt := of_decide_eq_true hc2
      have hjl : j < data.length := by omega
      have hnew : read (swapAt data (j + 1) j) j = read data (j + 1) :=
        read_swapAt_right data (j + 1) j hj hjl
      rcases ih (swapAt data (j + 1) j) (by rw [length_swapAt]; exact hjl) with h | ⟨h1, h2⟩
      · by_cases e : j = 0
        · subst e
          refine Or.inr ⟨by rw [h, hnew], ?_⟩
          intro k hk
          have e : k = 0 := by omega
          rw [e]; exact hlt
        · refine Or.inl ?_
          rw [h]
          exact read_swapAt_of_ne data (j + 1) j 0 hj hjl (by omega) (by omega)
      · refine Or.inr ⟨by rw [h1, hnew], ?_⟩
        intro k hk
        by_cases e : k = j
        · rw [e]; exact hlt
        · have := h2 k (by omega)
          rw [hnew, read_swapAt_of_ne data (j + 1) j k hj hjl (by omega) e] at this
          exact this
    · rw [if_neg hc]
      exact Or.inl rfl

/-- The outer loop of the insertion sort keeps at the head the first element
of smallest key among those inserted so far. -/
theorem insertionFold_head (less : α → α → Bool) (key : α → Int)
    (hless : ∀ x y, less x y = decide (key x < key y)) (data : List α) :
    ∀ (n i0 : Nat) (cur : List α), 1 ≤ i0 → i0 + n ≤ data.length →
      cur.length = data.length → SortedRange key 0 i0 cur →
      (∀ k, i0 ≤ k → read cur k = read data k) →
      FirstMin key data i0 (read cur 0) →
      FirstMin key data (i0 + n)
        (read ((List.range' i0 n).foldl (fun d i => insertionShift less 0 i d) cur) 0) := by
  intro n
  induction n with
  | zero =>
    intro i0 cur _ _ _ _ _ h
    exact h
  | succ n ih =>
    intro i0 cur hi hlen hcl hs hframe hmin
    simp only [List.range'_succ, List.foldl_cons]
    obtain ⟨s1, r1⟩ := insertionShift_spec less key hless 0 i0 i0 cur (Nat.zero_le _)
      (le_refl _) (by omega)
      (by
        intro p q hp hpq hq _ hqj
        exact hs p q hp hpq (by omega))
      (by intro q h1 h2; omega)
    have e : i0 + 1 + n = i0 + (n + 1) := by omega
    rw [← e]
    apply ih (i0 + 1) (insertionShift less 0 i0 cur) (by omega) (by omega)
      (by rw [r1.length_eq]; exact hcl) s1
    · intro k hk
      rw [r1.frame k (by omega)]
      exact hframe k (by omega)
    · obtain ⟨m, hm1, hm2, hm3, hm4⟩ := hmin
      have hx : read cur i0 = read data i0 := hframe i0 (le_refl _)
      rcases insertionShift_head less key hless i0 cur (by omega) with h | ⟨h1, h2⟩
      · -- the head stays: it is not above the inserted element
        refine ⟨m, by omega, by rw [h]; exact hm2, ?_, hm4⟩
        intro j hj
        by_cases ej : j = i0
        · obtain ⟨k', _, hk', ek'⟩ := r1.target i0 (Nat.zero_le _) (by omega)
          rw [ej, ← hm2, ← h, ← hx, ek']
          by_cases e0 : k' = 0
          · rw [e0]
          · exact s1 0 k' (le_refl _) (by omega) hk'
        · exact hm3 j (by omega)
      · -- the inserted element is the new head: it is strictly below all before it
        have hlt : key (read data i0) < key (read data m) := by
          have := h2 0 (by omega)
          rw [hx, hm2] at this
          exact this
        refine ⟨i0, by omega, by rw [h1]; exact hx, ?_, ?_⟩
        · intro j hj
          by_cases ej : j = i0
          · rw [ej]
          · exact le_of_lt (lt_of_lt_of_le hlt (hm3 j (by omega)))
        · intro j hj
          exact lt_of_lt_of_le hlt (hm3 j hj)

/-- On a non-empty slice the insertion sort puts first the first element of
smallest key. -/
theorem insertionSort_func_head (less : α → α → Bool) (key : α → Int)
    (hless : ∀ x y, less x y = decide (key x < key y)) (data : List α)
    (hpos : 0 < data.length) :
    FirstMin key data data.length (read (insertionSort_func less data 0 data.length) 0) := by
  unfold insertionSort_func
  have h := insertionFold_head less key hless data (data.length - (0 + 1)) (0 + 1) data
    (le_refl _) (by omega) rfl (by intro p q hp hpq hq; omega) (fun k _ => rfl)
    ⟨0, by omega, rfl, fun j hj => by
      have e : j = 0 := by omega
      rw [e], fun j hj => by omega⟩
  have e : 0 + 1 + (data.length - (0 + 1)) = data.length := by omega
  rw [e] at h
  exact h

/-- Up to twelve elements `sort.Slice` is the insertion sort. -/
theorem sortSlice_short (less : α → α → Bool) (x : List α) (h : x.length ≤ 12) :
    sortSlice less x = some (insertionSort_func less x 0 x.length) := by
  unfold sortSlice pdqsort_func
  simp only []
  rw [if_pos (by omega)]

end Stability

/-- C2, as stated, fails for a pool of thirteen candidates: the candidates
with IDs 2 to 13 all have the maximal total score, the first of them in the
pool's order is the one with ID 2, and `FindBestAssignee` returns the one
with ID 7. -/
theorem FindBestAssignee_not_stable :
    (calculateScores noUnicode plainTask tiedUsers).map
        (fun r => (r.UserID, decide (∀ r' ∈ calculateScores noUnicode plainTask tiedUsers,
          r'.TotalScore ≤ r.TotalScore)))
      = [(1, false), (2, true), (3, true), (4, true), (5, true), (6, true), (7, true),
         (8, true), (9, true), (10, true), (11, true), (12, true), (13, true)]
      ∧ winnerID (FindBestAssignee noUnicode (fixedCollaborators tiedUsers none none) plainTask
          emptyWorld) = some 7 := by
  decide!

/-- C2, amended. For every task and every non-empty candidate list of at most
twelve candidates, `FindBestAssignee` returns the first candidate, in the order
of the list returned by `GetActiveUsers`, among those with the maximal total
score: its score record stands at some position `i` of `calculateScores`, no
record has a larger total, and every record before position `i` has a
strictly smaller total. -/
theorem FindBestAssignee_first_of_ties {σ : Type}
    (hasUnicode : List Char → List Char → Bool) (c : Collaborators σ) (task : Task)
    (w : World σ) (users : List User) (s1 : σ)
    (hget : c.GetActiveUsers w.state = (Except.ok users, s1)) (hne : users ≠ [])
    (hshort : users.length ≤ 12) :
    ∃ i best, FindBestAssignee hasUnicode c task w
          = some (Except.ok best, ⟨s1, w.calls ++ [Call.GetActiveUsers]⟩)
      ∧ (calculateScores hasUnicode task users)[i]? = some best
      ∧ (∀ r, r ∈ calculateScores hasUnicode task users → r.TotalScore ≤ best.TotalScore)
      ∧ (∀ (j : Nat) (r : AssignmentResult), j < i → (calculateScores hasUnicode task users)[j]? = some r →
          r.TotalScore < best.TotalScore) := by
  have hlen := length_calculateScores hasUnicode task users
  have hpos : 0 < users.length := List.length_pos.mpr hne
  obtain ⟨sorted, e1, e2, _, _⟩ := FindBestAssignee_sorted hasUnicode c task w users s1 hget hne
  rw [sortSlice_short scoreLess _ (by rw [hlen]; exact hshort)] at e1
  have e3 : sorted = insertionSort_func scoreLess (calculateScores hasUnicode task users) 0
      (calculateScores hasUnicode task users).length := (Option.some.inj e1).symm
  obtain ⟨i, hi, hx, hmin, hfirst⟩ := insertionSort_func_head scoreLess scoreKey scoreLess_eq
    (calculateScores hasUnicode task users) (by rw [hlen]; exact hpos)
  rw [← e3] at hx
  have hread : ∀ k (hk : k < (calculateScores hasUnicode task users).length),
      read (calculateScores hasUnicode task users) k
        = (calculateScores hasUnicode task users)[k] := by
    intro k hk
    unfold read
    exact List.getD_eq_getElem _ default hk
  refine ⟨i, read sorted 0, e2, ?_, ?_, ?_⟩
  · rw [hx, hread i hi]
    exact List.getElem?_eq_getElem hi
  · intro r hr
    obtain ⟨k, hk, ek⟩ := exists_read_of_mem _ r hr
    have := hmin k hk
    rw [← hx, ek] at this
    unfold scoreKey at this
    show r.TotalScore.scaled ≤ (read sorted 0).TotalScore.scaled
    omega
  · intro j r hj hr
    have hjl : j < (calculateScores hasUnicode task users).length := by omega
    have er : read (calculateScores hasUnicode task users) j = r := by
      rw [hread j hjl]
      rw [List.getElem?_eq_getElem hjl] at hr
      exact Option.some.inj hr
    have := hfirst j hj
    rw [← hx, er] at this
    unfold scoreKey at this
    show r.TotalScore.scaled < (read sorted 0).TotalScore.scaled
    omega

/-- An instance of the amended C2: a pool of two candidates with equal total
scores; the first one wins. -/
theorem FindBestAssignee_first_of_ties_witness :
    winnerID (FindBestAssignee noUnicode
        (fixedCollaborators [plainUser 1 0, plainUser 2 0] none none) plainTask emptyWorld)
        = some 1
      ∧ ∃ i best, FindBestAssignee noUnicode
              (fixedCollaborators [plainUser 1 0, plainUser 2 0] none none) plainTask emptyWorld
            = some (Except.ok best, ⟨(), emptyWorld.calls ++ [Call.GetActiveUsers]⟩)
          ∧ (calculateScores noUnicode plainTask [plainUser 1 0, plainUser 2 0])[i]? = some best
          ∧ (∀ r, r ∈ calculateScores noUnicode plainTask [plainUser 1 0, plainUser 2 0] →
              r.TotalScore ≤ best.TotalScore)
          ∧ (∀ (j : Nat) (r : AssignmentResult), j < i →
              (calculateScores noUnicode plainTask [plainUser 1 0, plainUser 2 0])[j]? = some r →
              r.TotalScore < best.TotalScore) :=
  ⟨by decide!,
    FindBestAssignee_first_of_ties noUnicode
      (fixedCollaborators [plainUser 1 0, plainUser 2 0] none none) plainTask emptyWorld
      [plainUser 1 0, plainUser 2 0] () rfl (by decide) (by decide)⟩

/-! ## `AssignTaskUseCase.Execute` -/

/-- `Execute` after a successful `FindBestAssignee`: the load update, whose
result is dropped, then the publication, whose result decides. -/
theorem Execute_of_winner {σ : Type} (hasUnicode : List Char → List Char → Bool)
    (c : Collaborators σ) (task : Task) (w : World σ) (winner : AssignmentResult)
    (w1 : World σ)
    (h : FindBestAssignee hasUnicode c task w = some (Except.ok winner, w1)) :
    Execute hasUnicode c task w
      = some
          (((c.PublishTaskAssigned
              (assignedEvent task winner (c.Now (c.UpdateUserLoad winner.UserID 1 w1.state).2))
              (c.UpdateUserLoad winner.UserID 1 w1.state).2).1).map
            (Error.wrapped "failed to publish event"),
            ⟨(c.PublishTaskAssigned
              (assignedEvent task winner (c.Now (c.UpdateUserLoad winner.UserID 1 w1.state).2))
              (c.UpdateUserLoad winner.UserID 1 w1.state).2).2,
              (w1.calls ++ [Call.UpdateUserLoad winner.UserID 1])
                ++ [Call.PublishTaskAssigned (assignedEvent task winner
                  (c.Now (c.UpdateUserLoad winner.UserID 1 w1.state).2))]⟩) := by
  unfold Execute
  rw [h]
  simp only [assignedEvent]
  cases hp : (c.PublishTaskAssigned
      { TaskID := task.ID, AssigneeID := winner.UserID, Score := winner.TotalScore,
        Reason := winner.Reason,
        AssignedAt := c.Now (c.UpdateUserLoad winner.UserID 1 w1.state).2 }
      (c.UpdateUserLoad winner.UserID 1 w1.state).2).1 <;> simp

/-- `Execute` after a failed `FindBestAssignee`: the error is wrapped and no
further call is made. -/
theorem Execute_of_error {σ : Type} (hasUnicode : List Char → List Char → Bool)
    (c : Collaborators σ) (task : Task) (w : World σ) (err : Error) (w1 : World σ)
    (h : FindBestAssignee hasUnicode c task w = some (Except.error err, w1)) :
    Execute hasUnicode c task w
      = some (some (Error.wrapped "failed to find assignee" err), w1) := by
  unfold Execute
  rw [h]

/-- `FindBestAssignee` always returns: the sort never runs out of fuel. -/
theorem FindBestAssignee_returns {σ : Type} (hasUnicode : List Char → List Char → Bool)
    (c : Collaborators σ) (task : Task) (w : World σ) :
    (∃ err, (c.GetActiveUsers w.state).1 = Except.error err
        ∧ FindBestAssignee hasUnicode c task w
          = some (Except.error (Error.wrapped "failed to get users" err),
              ⟨(c.GetActiveUsers w.state).2, w.calls ++ [Call.GetActiveUsers]⟩))
      ∨ ((c.GetActiveUsers w.state).1 = Except.ok []
        ∧ FindBestAssignee hasUnicode c task w
          = some (Except.error Error.ErrNoSuitableUsers,
              ⟨(c.GetActiveUsers w.state).2, w.calls ++ [Call.GetActiveUsers]⟩))
      ∨ (∃ users winner, (c.GetActiveUsers w.state).1 = Except.ok users ∧ users ≠ []
        ∧ FindBestAssignee hasUnicode c task w
          = some (Except.ok winner,
              ⟨(c.GetActiveUsers w.state).2, w.calls ++ [Call.GetActiveUsers]⟩)) := by
  cases hg : (c.GetActiveUsers w.state).1 with
  | error err =>
    refine Or.inl ⟨err, rfl, ?_⟩
    unfold FindBestAssignee
    simp only [hg]
  | ok users =>
    by_cases hne : users = []
    · refine Or.inr (Or.inl ⟨by rw [hne], ?_⟩)
      unfold FindBestAssignee
      simp only [hg, hne, List.length_nil, if_true]
    · obtain ⟨sorted, _, e, _, _⟩ := FindBestAssignee_sorted hasUnicode c task w users
        (c.GetActiveUsers w.state).2 (by rw [← hg]) hne
      exact Or.inr (Or.inr ⟨users, read sorted 0, rfl, hne, e⟩)

/-- C7. When `GetActiveUsers` succeeds with an empty candidate list,
`FindBestAssignee` returns no result and the error `ErrNoSuitableUsers`, and
`Execute` returns an error that wraps `ErrNoSuitableUsers`; the only call of
the run is `GetActiveUsers`: no `UpdateUserLoad`, no `PublishTaskAssigned`. -/
theorem Execute_no_users {σ : Type} (hasUnicode : List Char → List Char → Bool)
    (c : Collaborators σ) (task : Task) (w : World σ) (s1 : σ)
    (hget : c.GetActiveUsers w.state = (Except.ok [], s1)) :
    FindBestAssignee hasUnicode c task w
        = some (Except.error Error.ErrNoSuitableUsers, ⟨s1, w.calls ++ [Call.GetActiveUsers]⟩)
      ∧ ∃ err, Execute hasUnicode c task w
            = some (some err, ⟨s1, w.calls ++ [Call.GetActiveUsers]⟩)
          ∧ Error.Is err Error.ErrNoSuitableUsers = true := by
  have h : FindBestAssignee hasUnicode c task w
      = some (Except.error Error.ErrNoSuitableUsers,
          ⟨s1, w.calls ++ [Call.GetActiveUsers]⟩) := by
    unfold FindBestAssignee
    simp only [hget, List.length_nil, if_true]
  refine ⟨h, Error.wrapped "failed to find assignee" Error.ErrNoSuitableUsers,
    Execute_of_error hasUnicode c task w _ _ h, ?_⟩
  decide

/-- An instance of C7: an empty pool. -/
theorem Execute_no_users_witness :
    runExecute [] none none plainTask
        = some (some (Error.wrapped "failed to find assignee" Error.ErrNoSuitableUsers),
            [Call.GetActiveUsers])
      ∧ (FindBestAssignee noUnicode (fixedCollaborators [] none none) plainTask emptyWorld
          = some (Except.error Error.ErrNoSuitableUsers,
              ⟨(), emptyWorld.calls ++ [Call.GetActiveUsers]⟩)
        ∧ ∃ err, Execute noUnicode (fixedCollaborators [] none none) plainTask emptyWorld
              = some (some err, ⟨(), emptyWorld.calls ++ [Call.GetActiveUsers]⟩)
            ∧ Error.Is err Error.ErrNoSuitableUsers = true) :=
  ⟨by decide,
    Execute_no_users noUnicode (fixedCollaborators [] none none) plainTask emptyWorld () rfl⟩

/-- C8. On a non-empty pool, if `UpdateUserLoad` returns an error and
`PublishTaskAssigned` then succeeds, `Execute` has called
`PublishTaskAssigned`, with the event of the winner, and returns `nil`. -/
theorem Execute_load_update_failure {σ : Type} (hasUnicode : List Char → List Char → Bool)
    (c : Collaborators σ) (task : Task) (w : World σ) (users : List User) (s1 : σ)
    (hget : c.GetActiveUsers w.state = (Except.ok users, s1)) (hne : users ≠ []) :
    ∃ winner, FindBestAssignee hasUnicode c task w
          = some (Except.ok winner, ⟨s1, w.calls ++ [Call.GetActiveUsers]⟩)
      ∧ ∀ (e : Error) (s2 s3 : σ),
          c.UpdateUserLoad winner.UserID 1 s1 = (some e, s2) →
          c.PublishTaskAssigned (assignedEvent task winner (c.Now s2)) s2 = (none, s3) →
          Execute hasUnicode c task w
            = some (none,
                ⟨s3, w.calls ++ [Call.GetActiveUsers, Call.UpdateUserLoad winner.UserID 1,
                  Call.PublishTaskAssigned (assignedEvent task winner (c.Now s2))]⟩) := by
  obtain ⟨sorted, _, e, _, _⟩ := FindBestAssignee_sorted hasUnicode c task w users s1 hget hne
  refine ⟨read sorted 0, e, ?_⟩
  intro err s2 s3 hupd hpub
  rw [Execute_of_winner hasUnicode c task w _ _ e]
  simp only [hupd, hpub, Option.map_none', List.append_assoc, List.singleton_append,
    List.cons_append, List.nil_append]

/-- An instance of C8: the load update fails, the publication succeeds. -/
theorem Execute_load_update_failure_witness :
    (runExecute loadUsers (some (Error.message "failed to update user load")) none
        loadTask).map (fun r => (r.1, r.2.map Call.isPublish))
        = some (none, [false, false, true])
      ∧ ∃ winner, FindBestAssignee noUnicode
              (fixedCollaborators loadUsers
                (some (Error.message "failed to update user load")) none)
              loadTask emptyWorld
            = some (Except.ok winner, ⟨(), emptyWorld.calls ++ [Call.GetActiveUsers]⟩)
          ∧ ∀ (e : Error) (s2 s3 : Unit),
              (fixedCollaborators loadUsers
                (some (Error.message "failed to update user load")) none).UpdateUserLoad
                  winner.UserID 1 () = (some e, s2) →
              (fixedCollaborators loadUsers
                (some (Error.message "failed to update user load")) none).PublishTaskAssigned
                  (assignedEvent loadTask winner
                    ((fixedCollaborators loadUsers
                      (some (Error.message "failed to update user load")) none).Now s2))
                  s2 = (none, s3) →
              Execute noUnicode
                  (fixedCollaborators loadUsers
                    (some (Error.message "failed to update user load")) none)
                  loadTask emptyWorld
                = some (none,
                    ⟨s3, emptyWorld.calls ++ [Call.GetActiveUsers,
                      Call.UpdateUserLoad winner.UserID 1,
                      Call.PublishTaskAssigned (assignedEvent loadTask winner
                        ((fixedCollaborators loadUsers
                          (some (Error.message "failed to update user load"))
                          none).Now s2))]⟩) :=
  ⟨by decide!,
    Execute_load_update_failure noUnicode
      (fixedCollaborators loadUsers (some (Error.message "failed to update user load"))
        none)
      loadTask emptyWorld loadUsers () rfl (by decide)⟩

/-- `FindBestAssignee` does not use `UpdateUserLoad`. -/
theorem FindBestAssignee_congr {σ : Type} (hasUnicode : List Char → List Char → Bool)
    (c c' : Collaborators σ) (task : Task) (w : World σ)
    (hget : c'.GetActiveUsers = c.GetActiveUsers) :
    FindBestAssignee hasUnicode c' task w = FindBestAssignee hasUnicode c task w := by
  unfold FindBestAssignee
  rw [hget]

/-- C9. For every task and every behaviour of the collaborators, `Execute`
returns, and returns `nil` if and only if `GetActiveUsers` succeeds with a
non-empty pool and `PublishTaskAssigned`, called with the event of the winner
after the load update, succeeds.  A publication that fails makes `Execute`
return an error that wraps the publisher's, whatever the load update
returned.  The result does not depend on what `UpdateUserLoad` returns:
collaborators that differ only in that value give the same run. -/
theorem Execute_success_iff {σ : Type} (hasUnicode : List Char → List Char → Bool)
    (c : Collaborators σ) (task : Task) (w : World σ) :
    (∃ result w', Execute hasUnicode c task w = some (result, w')
        ∧ (result = none ↔
            ∃ users s1 winner, c.GetActiveUsers w.state = (Except.ok users, s1) ∧ users ≠ []
              ∧ FindBestAssignee hasUnicode c task w
                  = some (Except.ok winner, ⟨s1, w.calls ++ [Call.GetActiveUsers]⟩)
              ∧ (c.PublishTaskAssigned
                  (assignedEvent task winner (c.Now (c.UpdateUserLoad winner.UserID 1 s1).2))
                  (c.UpdateUserLoad winner.UserID 1 s1).2).1 = none))
      ∧ (∀ users s1 winner e,
          c.GetActiveUsers w.state = (Except.ok users, s1) →
          FindBestAssignee hasUnicode c task w
            = some (Except.ok winner, ⟨s1, w.calls ++ [Call.GetActiveUsers]⟩) →
          (c.PublishTaskAssigned
            (assignedEvent task winner (c.Now (c.UpdateUserLoad winner.UserID 1 s1).2))
            (c.UpdateUserLoad winner.UserID 1 s1).2).1 = some e →
          ∃ w', Execute hasUnicode c task w
            = some (some (Error.wrapped "failed to publish event" e), w'))
      ∧ (∀ c' : Collaborators σ, c'.GetActiveUsers = c.GetActiveUsers →
          c'.PublishTaskAssigned = c.PublishTaskAssigned → c'.Now = c.Now →
          (∀ userID increment s,
            (c'.UpdateUserLoad userID increment s).2 = (c.UpdateUserLoad userID increment s).2) →
          Execute hasUnicode c' task w = Execute hasUnicode c task w) := by
  refine ⟨?_, ?_, ?_⟩
  · rcases FindBestAssignee_returns hasUnicode c task w with
      ⟨err, hg, hf⟩ | ⟨hg, hf⟩ | ⟨users, winner, hg, hne, hf⟩
    · refine ⟨_, _, Execute_of_error hasUnicode c task w _ _ hf, ?_⟩
      constructor
      · intro h; cases h
      · rintro ⟨users, s1, winner, hget, _, _⟩
        rw [hget] at hg
        cases hg
    · refine ⟨_, _, Execute_of_error hasUnicode c task w _ _ hf, ?_⟩
      constructor
      · intro h; cases h
      · rintro ⟨users, s1, winner, hget, hne, _⟩
        rw [hget] at hg
        simp only [Except.ok.injEq] at hg
        exact absurd hg hne
    · refine ⟨_, _, Execute_of_winner hasUnicode c task w _ _ hf, ?_⟩
      constructor
      · intro h
        refine ⟨users, (c.GetActiveUsers w.state).2, winner, by rw [← hg], hne, hf, ?_⟩
        cases hp : (c.PublishTaskAssigned
            (assignedEvent task winner
              (c.Now (c.UpdateUserLoad winner.UserID 1 (c.GetActiveUsers w.state).2).2))
            (c.UpdateUserLoad winner.UserID 1 (c.GetActiveUsers w.state).2).2).1 with
        | none => rfl
        | some e =>
          rw [hp] at h
          simp at h
      · rintro ⟨users', s1, winner', hget, _, hf', hp⟩
        rw [hf] at hf'
        simp only [Option.some.injEq, Prod.mk.injEq, Except.ok.injEq, World.mk.injEq] at hf'
        obtain ⟨hw, hs, _⟩ := hf'
        subst hw
        simp only []
        rw [hs, hp]
        rfl
  · intro users s1 winner e hget hf hp
    rw [Execute_of_winner hasUnicode c task w _ _ hf]
    simp only [hp, Option.map_some']
    exact ⟨_, rfl⟩
  · intro c' h1 h2 h3 h4
    have hf := FindBestAssignee_congr hasUnicode c c' task w h1
    unfold Execute
    rw [hf, h2, h3]
    cases FindBestAssignee hasUnicode c task w with
    | none => rfl
    | some r =>
      obtain ⟨res, w1⟩ := r
      cases res with
      | error err => rfl
      | ok winner => simp only [h4]

/-- A run of `Execute` returns; the calls it adds come after the ones already
recorded; it publishes at most once, and exactly once when it returns `nil`. -/
theorem Execute_publish_count {σ : Type} (hasUnicode : List Char → List Char → Bool)
    (c : Collaborators σ) (task : Task) (w : World σ) :
    ∃ result w' added, Execute hasUnicode c task w = some (result, w')
      ∧ w'.calls = w.calls ++ added ∧ added.countP Call.isPublish ≤ 1
      ∧ (result = none → added.countP Call.isPublish = 1) := by
  rcases FindBestAssignee_returns hasUnicode c task w with
    ⟨err, _, hf⟩ | ⟨_, hf⟩ | ⟨users, winner, _, _, hf⟩
  · refine ⟨_, _, [Call.GetActiveUsers], Execute_of_error hasUnicode c task w _ _ hf, rfl,
      by decide, ?_⟩
    intro hr; cases hr
  · refine ⟨_, _, [Call.GetActiveUsers], Execute_of_error hasUnicode c task w _ _ hf, rfl,
      by decide, ?_⟩
    intro hr; cases hr
  · refine ⟨_, _, [Call.GetActiveUsers, Call.UpdateUserLoad winner.UserID 1,
      Call.PublishTaskAssigned (assignedEvent task winner
        (c.Now (c.UpdateUserLoad winner.UserID 1 (c.GetActiveUsers w.state).2).2))],
      Execute_of_winner hasUnicode c task w _ _ hf, ?_, ?_, ?_⟩
    · simp
    · simp [List.countP_cons, Call.isPublish]
    · intro _
      simp [List.countP_cons, Call.isPublish]

/-- A run of `Execute` is one of two: `FindBestAssignee` fails, and the run is
the single call `GetActiveUsers` and returns the wrapped error; or it returns
a winner, and the run goes on with `UpdateUserLoad` on the state the fetch
left and `PublishTaskAssigned` on the state the update left, whose result and
state are those of the run. -/
theorem Execute_run {σ : Type} (hasUnicode : List Char → List Char → Bool)
    (c : Collaborators σ) (task : Task) (w : World σ) :
    (∃ err, FindBestAssignee hasUnicode c task w
          = some (Except.error err,
              ⟨(c.GetActiveUsers w.state).2, w.calls ++ [Call.GetActiveUsers]⟩)
        ∧ Execute hasUnicode c task w
          = some (some (Error.wrapped "failed to find assignee" err),
              ⟨(c.GetActiveUsers w.state).2, w.calls ++ [Call.GetActiveUsers]⟩))
      ∨ (∃ winner u p, FindBestAssignee hasUnicode c task w
          = some (Except.ok winner,
              ⟨(c.GetActiveUsers w.state).2, w.calls ++ [Call.GetActiveUsers]⟩)
        ∧ u = c.UpdateUserLoad winner.UserID 1 (c.GetActiveUsers w.state).2
        ∧ p = c.PublishTaskAssigned (assignedEvent task winner (c.Now u.2)) u.2
        ∧ Execute hasUnicode c task w
          = some (p.1.map (Error.wrapped "failed to publish event"),
              ⟨p.2, w.calls ++ [Call.GetActiveUsers, Call.UpdateUserLoad winner.UserID 1,
                Call.PublishTaskAssigned (assignedEvent task winner (c.Now u.2))]⟩)) := by
  rcases FindBestAssignee_returns hasUnicode c task w with
    ⟨err, _, hf⟩ | ⟨_, hf⟩ | ⟨users, winner, _, _, hf⟩
  · exact Or.inl ⟨_, hf, Execute_of_error hasUnicode c task w _ _ hf⟩
  · exact Or.inl ⟨_, hf, Execute_of_error hasUnicode c task w _ _ hf⟩
  · refine Or.inr ⟨winner, _, _, hf, rfl, rfl, ?_⟩
    rw [Execute_of_winner hasUnicode c task w _ _ hf]
    simp only [List.append_assoc, List.singleton_append, List.cons_append, List.nil_append]

/-- C10. On a non-empty pool one run of `Execute` performs exactly these
calls, in this order: `GetActiveUsers`; `UpdateUserLoad(winner.UserID, 1)` on
the state the fetch left; `PublishTaskAssigned(event)` on the state the update
left, where `winner` is the result of `FindBestAssignee` on the pool that
single `GetActiveUsers` returned and the event carries the task's ID and the
winner's ID, total score and reason.  The run returns what the publication
returned (wrapped when it is an error) and leaves the state the publication
left.  Any run, whatever the pool, either fails before the update with
`GetActiveUsers` as its only call, or is such a run of three calls: it
publishes at most one event, and exactly one when it returns `nil`. -/
theorem Execute_calls {σ : Type} (hasUnicode : List Char → List Char → Bool)
    (c : Collaborators σ) (task : Task) (w : World σ) (users : List User) (s1 : σ)
    (hget : c.GetActiveUsers w.state = (Except.ok users, s1)) (hne : users ≠ []) :
    (∃ winner u p,
        FindBestAssignee hasUnicode c task w
          = some (Except.ok winner, ⟨s1, w.calls ++ [Call.GetActiveUsers]⟩)
        ∧ u = c.UpdateUserLoad winner.UserID 1 s1
        ∧ p = c.PublishTaskAssigned (assignedEvent task winner (c.Now u.2)) u.2
        ∧ Execute hasUnicode c task w
          = some (p.1.map (Error.wrapped "failed to publish event"),
              ⟨p.2, w.calls ++ [Call.GetActiveUsers, Call.UpdateUserLoad winner.UserID 1,
                Call.PublishTaskAssigned (assignedEvent task winner (c.Now u.2))]⟩)
        ∧ (assignedEvent task winner (c.Now u.2)).TaskID = task.ID
        ∧ (assignedEvent task winner (c.Now u.2)).AssigneeID = winner.UserID
        ∧ (assignedEvent task winner (c.Now u.2)).Score = winner.TotalScore
        ∧ (assignedEvent task winner (c.Now u.2)).Reason = winner.Reason)
      ∧ (∀ (c2 : Collaborators σ) (w2 : World σ),
          ((∃ err, Execute hasUnicode c2 task w2
              = some (some err,
                  ⟨(c2.GetActiveUsers w2.state).2, w2.calls ++ [Call.GetActiveUsers]⟩))
            ∨ (∃ winner u p, FindBestAssignee hasUnicode c2 task w2
                = some (Except.ok winner,
                    ⟨(c2.GetActiveUsers w2.state).2, w2.calls ++ [Call.GetActiveUsers]⟩)
              ∧ u = c2.UpdateUserLoad winner.UserID 1 (c2.GetActiveUsers w2.state).2
              ∧ p = c2.PublishTaskAssigned (assignedEvent task winner (c2.Now u.2)) u.2
              ∧ Execute hasUnicode c2 task w2
                = some (p.1.map (Error.wrapped "failed to publish event"),
                    ⟨p.2, w2.calls ++ [Call.GetActiveUsers,
                      Call.UpdateUserLoad winner.UserID 1,
                      Call.PublishTaskAssigned (assignedEvent task winner (c2.Now u.2))]⟩)))
          ∧ ∃ result w' added, Execute hasUnicode c2 task w2 = some (result, w')
            ∧ w'.calls = w2.calls ++ added ∧ added.countP Call.isPublish ≤ 1
            ∧ (result = none → added.countP Call.isPublish = 1)) := by
  refine ⟨?_, fun c2 w2 => ⟨?_, Execute_publish_count hasUnicode c2 task w2⟩⟩
  · obtain ⟨sorted, _, e, _, _⟩ :=
      FindBestAssignee_sorted hasUnicode c task w users s1 hget hne
    refine ⟨read sorted 0, _, _, e, rfl, rfl, ?_, rfl, rfl, rfl, rfl⟩
    rw [Execute_of_winner hasUnicode c task w _ _ e]
    simp only [List.append_assoc, List.singleton_append, List.cons_append, List.nil_append]
  · rcases Execute_run hasUnicode c2 task w2 with ⟨err, _, hx⟩ | h
    · exact Or.inl ⟨_, hx⟩
    · exact Or.inr h

/-- An instance of C10 on collaborators that record what they are asked: the
pool is Busy, Available; the winner is Available (ID 2); the run returns
`nil`, the repository was asked once, for user 2 and increment 1, one event
was published, for task 1 and assignee 2, and the calls are the three of the
claim. -/
theorem Execute_calls_witness :
    (Execute noUnicode storeCollaborators loadTask (storeWorld loadUsers)).map
        (fun r => (r.1, r.2.state.loadUpdates))
        = some (none, [(2, 1)])
      ∧ (Execute noUnicode storeCollaborators loadTask (storeWorld loadUsers)).map
        (fun r => r.2.state.published.map (fun event => (event.TaskID, event.AssigneeID)))
        = some [(1, 2)]
      ∧ (Execute noUnicode storeCollaborators loadTask (storeWorld loadUsers)).map
        (fun r => r.2.calls.map (fun call =>
          match call with
          | Call.GetActiveUsers => (0, 0, 0)
          | Call.UpdateUserLoad userID increment => (1, userID, increment)
          | Call.PublishTaskAssigned event => (2, event.TaskID, event.AssigneeID)
          | _ => (3, 0, 0)))
        = some [(0, 0, 0), (1, 2, 1), (2, 1, 2)]
      ∧ ((∃ winner u p,
          FindBestAssignee noUnicode storeCollaborators loadTask (storeWorld loadUsers)
            = some (Except.ok winner,
                ⟨⟨loadUsers, [], []⟩, (storeWorld loadUsers).calls ++ [Call.GetActiveUsers]⟩)
          ∧ u = storeCollaborators.UpdateUserLoad winner.UserID 1 ⟨loadUsers, [], []⟩
          ∧ p = storeCollaborators.PublishTaskAssigned
              (assignedEvent loadTask winner (storeCollaborators.Now u.2)) u.2
          ∧ Execute noUnicode storeCollaborators loadTask (storeWorld loadUsers)
            = some (p.1.map (Error.wrapped "failed to publish event"),
                ⟨p.2, (storeWorld loadUsers).calls ++ [Call.GetActiveUsers,
                  Call.UpdateUserLoad winner.UserID 1,
                  Call.PublishTaskAssigned
                    (assignedEvent loadTask winner (storeCollaborators.Now u.2))]⟩)
          ∧ (assignedEvent loadTask winner (storeCollaborators.Now u.2)).TaskID = loadTask.ID
          ∧ (assignedEvent loadTask winner (storeCollaborators.Now u.2)).AssigneeID
              = winner.UserID
          ∧ (assignedEvent loadTask winner (storeCollaborators.Now u.2)).Score
              = winner.TotalScore
          ∧ (assignedEvent loadTask winner (storeCollaborators.Now u.2)).Reason
              = winner.Reason)
        ∧ (∀ (c2 : Collaborators Store) (w2 : World Store),
            ((∃ err, Execute noUnicode c2 loadTask w2
                = some (some err,
                    ⟨(c2.GetActiveUsers w2.state).2, w2.calls ++ [Call.GetActiveUsers]⟩))
              ∨ (∃ winner u p, FindBestAssignee noUnicode c2 loadTask w2
                  = some (Except.ok winner,
                      ⟨(c2.GetActiveUsers w2.state).2, w2.calls ++ [Call.GetActiveUsers]⟩)
                ∧ u = c2.UpdateUserLoad winner.UserID 1 (c2.GetActiveUsers w2.state).2
                ∧ p = c2.PublishTaskAssigned (assignedEvent loadTask winner (c2.Now u.2)) u.2
                ∧ Execute noUnicode c2 loadTask w2
                  = some (p.1.map (Error.wrapped "failed to publish event"),
                      ⟨p.2, w2.calls ++ [Call.GetActiveUsers,
                        Call.UpdateUserLoad winner.UserID 1,
                        Call.PublishTaskAssigned
                          (assignedEvent loadTask winner (c2.Now u.2))]⟩)))
            ∧ ∃ result w' added, Execute noUnicode c2 loadTask w2 = some (result, w')
              ∧ w'.calls = w2.calls ++ added ∧ added.countP Call.isPublish ≤ 1
              ∧ (result = none → added.countP Call.isPublish = 1))) :=
  ⟨by decide!, by decide!, by decide!,
    Execute_calls noUnicode storeCollaborators loadTask (storeWorld loadUsers) loadUsers
      ⟨loadUsers, [], []⟩ rfl (by decide)⟩

/-! ## The delivery cycle: `HandleTaskCreated` and `processMessage` -/

/-- The check of `validateEvent` is the validity condition. -/
theorem validateEvent_eq_none_iff (event : TaskCreatedEvent) :
    validateEvent event = none ↔ ValidEvent event := by
  unfold validateEvent ValidEvent
  constructor
  · intro h
    split_ifs at h with h1 h2 h3 h4
    exact ⟨by omega, h2, by omega, by omega, by omega⟩
  · rintro ⟨h1, h2, h3, h4, h5⟩
    rw [if_neg (by omega), if_neg h2, if_neg (by omega), if_neg (by omega)]

/-- A run of `Execute` returns; its first call is `GetActiveUsers` and none of
its calls is an acknowledgment decision. -/
theorem Execute_trace {σ : Type} (hasUnicode : List Char → List Char → Bool)
    (c : Collaborators σ) (task : Task) (w : World σ) :
    ∃ result w1 rest, Execute hasUnicode c task w = some (result, w1)
      ∧ w1.calls = w.calls ++ Call.GetActiveUsers :: rest
      ∧ ∀ call, call ∈ Call.GetActiveUsers :: rest → Call.isDecision call = false := by
  rcases FindBestAssignee_returns hasUnicode c task w with
    ⟨err, _, hf⟩ | ⟨_, hf⟩ | ⟨users, winner, _, _, hf⟩
  · refine ⟨_, _, [], Execute_of_error hasUnicode c task w _ _ hf, rfl, ?_⟩
    intro call hc
    simp only [List.mem_singleton] at hc
    rw [hc]
    rfl
  · refine ⟨_, _, [], Execute_of_error hasUnicode c task w _ _ hf, rfl, ?_⟩
    intro call hc
    simp only [List.mem_singleton] at hc
    rw [hc]
    rfl
  · refine ⟨_, _, [Call.UpdateUserLoad winner.UserID 1,
      Call.PublishTaskAssigned (assignedEvent task winner
        (c.Now (c.UpdateUserLoad winner.UserID 1 (c.GetActiveUsers w.state).2).2))],
      Execute_of_winner hasUnicode c task w _ _ hf, ?_, ?_⟩
    · simp
    · intro call hc
      simp only [List.mem_cons, List.mem_singleton, List.not_mem_nil, or_false] at hc
      rcases hc with hc | hc | hc <;> rw [hc] <;> rfl

/-- After a successful validation `HandleTaskCreated` is `Execute` on the task
of the event. -/
theorem HandleTaskCreated_of_valid {σ : Type} (hasUnicode : List Char → List Char → Bool)
    (c : Collaborators σ) (event : TaskCreatedEvent) (w : World σ)
    (h : validateEvent event = none) :
    HandleTaskCreated hasUnicode c event w = Execute hasUnicode c event.ToTask w := by
  unfold HandleTaskCreated
  rw [h]
  cases Execute hasUnicode c event.ToTask w with
  | none => rfl
  | some r =>
    obtain ⟨result, w1⟩ := r
    cases result <;> rfl

/-- After a failed validation `HandleTaskCreated` returns the wrapped error and
leaves the world as it was. -/
theorem HandleTaskCreated_of_invalid {σ : Type} (hasUnicode : List Char → List Char → Bool)
    (c : Collaborators σ) (event : TaskCreatedEvent) (w : World σ) (err : Error)
    (h : validateEvent event = some err) :
    HandleTaskCreated hasUnicode c event w
      = some (some (Error.wrapped "validation failed" err), w) := by
  unfold HandleTaskCreated
  rw [h]

/-- C11. `HandleTaskCreated` hands the event to `Execute` if and only if the
event is valid (`TaskID > 0`, non-empty title, `1 ≤ Priority ≤ 5`,
`ProjectID > 0`): on a valid event it is the run of `Execute` on the event's
task, which returns and whose first call is `GetActiveUsers`; on any other
event it returns a validation error and leaves the world untouched, no call
recorded. -/
theorem HandleTaskCreated_validates {σ : Type} (hasUnicode : List Char → List Char → Bool)
    (c : Collaborators σ) (event : TaskCreatedEvent) (w : World σ) :
    (ValidEvent event →
        HandleTaskCreated hasUnicode c event w = Execute hasUnicode c event.ToTask w
          ∧ ∃ result w1 rest, HandleTaskCreated hasUnicode c event w = some (result, w1)
              ∧ w1.calls = w.calls ++ Call.GetActiveUsers :: rest)
      ∧ (¬ ValidEvent event →
        ∃ err, validateEvent event = some err
          ∧ HandleTaskCreated hasUnicode c event w
              = some (some (Error.wrapped "validation failed" err), w)
          ∧ Error.Is (Error.wrapped "validation failed" err) err = true)
      ∧ (∀ result w1, HandleTaskCreated hasUnicode c event w = some (result, w1) →
          (ValidEvent event ↔ w1.calls ≠ w.calls)) := by
  have hvalid : ValidEvent event →
      HandleTaskCreated hasUnicode c event w = Execute hasUnicode c event.ToTask w
        ∧ ∃ result w1 rest, HandleTaskCreated hasUnicode c event w = some (result, w1)
            ∧ w1.calls = w.calls ++ Call.GetActiveUsers :: rest := by
    intro hv
    have e := HandleTaskCreated_of_valid hasUnicode c event w
      ((validateEvent_eq_none_iff event).mpr hv)
    obtain ⟨result, w1, rest, hex, hcalls, _⟩ := Execute_trace hasUnicode c event.ToTask w
    exact ⟨e, result, w1, rest, by rw [e, hex], hcalls⟩
  have hinvalid : ¬ ValidEvent event →
      ∃ err, validateEvent event = some err
        ∧ HandleTaskCreated hasUnicode c event w
            = some (some (Error.wrapped "validation failed" err), w)
        ∧ Error.Is (Error.wrapped "validation failed" err) err = true := by
    intro hv
    cases hval : validateEvent event with
    | none => exact absurd ((validateEvent_eq_none_iff event).mp hval) hv
    | some err =>
      refine ⟨err, rfl, HandleTaskCreated_of_invalid hasUnicode c event w err hval, ?_⟩
      cases err <;> simp [Error.Is]
  refine ⟨hvalid, hinvalid, ?_⟩
  intro result w1 hrun
  constructor
  · intro hv
    obtain ⟨_, result', w1', rest, hrun', hcalls⟩ := hvalid hv
    rw [hrun] at hrun'
    simp only [Option.some.injEq, Prod.mk.injEq] at hrun'
    rw [hrun'.2, hcalls]
    intro hcontra
    have := congrArg List.length hcontra
    simp at this
  · intro hcalls
    by_contra hv
    obtain ⟨err, _, hrun', _⟩ := hinvalid hv
    rw [hrun] at hrun'
    simp only [Option.some.injEq, Prod.mk.injEq] at hrun'
    exact hcalls (by rw [hrun'.2])

/-- C12. Where the code departs from the claim: the notification with
`task_id = 0` decodes and fails validation, no repository or publisher call is
made, and the delivery cycle ends with `Nack(false, true)`, requeue = true, so
the message is redelivered; the claim asks for requeue = false, which is what
the same `processMessage` does with a body that fails to decode
(`Nack(false, false)`). -/
theorem processMessage_invalid_requeued :
    decodeBody (some malformedEvent) = Except.ok malformedEvent
      ∧ validateEvent malformedEvent = some (Error.message "invalid task_id: 0")
      ∧ runDelivery (fixedCollaborators loadUsers none none) (some malformedEvent)
          = some [Call.Nack false true]
      ∧ runDelivery (fixedCollaborators loadUsers none none) none
          = some [Call.Nack false false] :=
  ⟨rfl, by decide, by decide, by decide⟩

/-- The requeue is not particular to that input: every notification that
decodes and fails validation takes the error path of the handler, whose only
decision is `Nack(false, true)`. -/
theorem processMessage_invalid {σ β : Type} (hasUnicode : List Char → List Char → Bool)
    (c : Collaborators σ) (unmarshal : β → Except Error TaskCreatedEvent)
    (msg : Delivery σ) (body : β) (event : TaskCreatedEvent) (w : World σ)
    (hdec : unmarshal body = Except.ok event) (hinvalid : ¬ ValidEvent event) :
    processMessage unmarshal (HandleTaskCreated hasUnicode c) msg body w
      = some ⟨(msg.Nack false true w.state).2, w.calls ++ [Call.Nack false true]⟩ := by
  cases hval : validateEvent event with
  | none => exact absurd ((validateEvent_eq_none_iff event).mp hval) hinvalid
  | some err =>
    unfold processMessage
    rw [hdec]
    simp only [HandleTaskCreated_of_invalid hasUnicode c event w err hval]

/-- C13. For every valid, decoded notification the delivery cycle is the run
of `Execute` on the event's task followed by exactly one acknowledgment
decision, the last call of the cycle: `Ack(false)` when `Execute` returned
`nil`, `Nack(false, true)` when it returned an error, whatever the error.
None of the calls before it is an `Ack` or a `Nack`. -/
theorem processMessage_valid {σ β : Type} (hasUnicode : List Char → List Char → Bool)
    (c : Collaborators σ) (unmarshal : β → Except Error TaskCreatedEvent)
    (msg : Delivery σ) (body : β) (event : TaskCreatedEvent) (w : World σ)
    (hdec : unmarshal body = Except.ok event) (hvalid : ValidEvent event) :
    ∃ result w1 rest, Execute hasUnicode c event.ToTask w = some (result, w1)
      ∧ w1.calls = w.calls ++ Call.GetActiveUsers :: rest
      ∧ (∀ call, call ∈ Call.GetActiveUsers :: rest → Call.isDecision call = false)
      ∧ (result = none →
          processMessage unmarshal (HandleTaskCreated hasUnicode c) msg body w
            = some ⟨(msg.Ack false w1.state).2,
                w.calls ++ Call.GetActiveUsers :: rest ++ [Call.Ack false]⟩)
      ∧ (result ≠ none →
          processMessage unmarshal (HandleTaskCreated hasUnicode c) msg body w
            = some ⟨(msg.Nack false true w1.state).2,
                w.calls ++ Call.GetActiveUsers :: rest ++ [Call.Nack false true]⟩) := by
  obtain ⟨result, w1, rest, hex, hcalls, hnone⟩ := Execute_trace hasUnicode c event.ToTask w
  have hh := HandleTaskCreated_of_valid hasUnicode c event w
    ((validateEvent_eq_none_iff event).mpr hvalid)
  refine ⟨result, w1, rest, hex, hcalls, hnone, ?_, ?_⟩
  · intro hr
    unfold processMessage
    rw [hdec]
    simp only [hh, hex, hr, hcalls, List.append_assoc]
  · intro hr
    unfold processMessage
    rw [hdec]
    cases result with
    | none => exact absurd rfl hr
    | some err => simp only [hh, hex, hcalls, List.append_assoc]

/-- Instances of C13 on the notification `sampleEvent`: a successful run is
acknowledged; a failed fetch, an empty pool and a failed publication are each
rejected with requeue = true. -/
theorem processMessage_valid_witness :
    (runDelivery (fixedCollaborators loadUsers none none) (some sampleEvent)).map
        (fun calls => calls.filter Call.isDecision) = some [Call.Ack false]
      ∧ runDelivery failingFetch (some sampleEvent)
          = some [Call.GetActiveUsers, Call.Nack false true]
      ∧ runDelivery (fixedCollaborators [] none none) (some sampleEvent)
          = some [Call.GetActiveUsers, Call.Nack false true]
      ∧ (runDelivery (fixedCollaborators loadUsers none (some (Error.message "channel closed")))
          (some sampleEvent)).map (fun calls => calls.filter Call.isDecision)
          = some [Call.Nack false true]
      ∧ ∃ result w1 rest,
          Execute noUnicode (fixedCollaborators loadUsers none none) sampleEvent.ToTask
              emptyWorld = some (result, w1)
          ∧ w1.calls = emptyWorld.calls ++ Call.GetActiveUsers :: rest
          ∧ (∀ call, call ∈ Call.GetActiveUsers :: rest → Call.isDecision call = false)
          ∧ (result = none →
              processMessage decodeBody
                  (HandleTaskCreated noUnicode (fixedCollaborators loadUsers none none))
                  quietDelivery (some sampleEvent) emptyWorld
                = some ⟨(quietDelivery.Ack false w1.state).2,
                    emptyWorld.calls ++ Call.GetActiveUsers :: rest ++ [Call.Ack false]⟩)
          ∧ (result ≠ none →
              processMessage decodeBody
                  (HandleTaskCreated noUnicode (fixedCollaborators loadUsers none none))
                  quietDelivery (some sampleEvent) emptyWorld
                = some ⟨(quietDelivery.Nack false true w1.state).2,
                    emptyWorld.calls ++ Call.GetActiveUsers :: rest
                      ++ [Call.Nack false true]⟩) :=
  ⟨by decide!, by decide!, by decide!, by decide!,
    processMessage_valid noUnicode (fixedCollaborators loadUsers none none) decodeBody
      quietDelivery (some sampleEvent) sampleEvent emptyWorld rfl (by decide)⟩

/-- C14. For every body that fails to decode, the delivery cycle is the single
call `Nack(false, false)`: the message is rejected with requeue = false and not
acknowledged.  The handler is not invoked: the cycle is the same for every
handler, one that never returns included. -/
theorem processMessage_decode_failure {σ β : Type}
    (unmarshal : β → Except Error TaskCreatedEvent)
    (handler : TaskCreatedEvent → World σ → Option (Option Error × World σ))
    (msg : Delivery σ) (body : β) (w : World σ) (err : Error)
    (hdec : unmarshal body = Except.error err) :
    processMessage unmarshal handler msg body w
        = some ⟨(msg.Nack false false w.state).2, w.calls ++ [Call.Nack false false]⟩
      ∧ processMessage unmarshal handler msg body w
        = processMessage unmarshal (fun _ _ => none) msg body w := by
  unfold processMessage
  rw [hdec]
  exact ⟨rfl, rfl⟩

/-- An instance of C14: a body that does not decode. -/
theorem processMessage_decode_failure_witness :
    runDelivery (fixedCollaborators loadUsers none none) none = some [Call.Nack false false]
      ∧ (processMessage decodeBody
            (HandleTaskCreated noUnicode (fixedCollaborators loadUsers none none))
            quietDelivery none emptyWorld
          = some ⟨(quietDelivery.Nack false false emptyWorld.state).2,
              emptyWorld.calls ++ [Call.Nack false false]⟩
        ∧ processMessage decodeBody
            (HandleTaskCreated noUnicode (fixedCollaborators loadUsers none none))
            quietDelivery none emptyWorld
          = processMessage decodeBody (fun _ _ => none) quietDelivery none emptyWorld) :=
  ⟨by decide,
    processMessage_decode_failure decodeBody
      (HandleTaskCreated noUnicode (fixedCollaborators loadUsers none none)) quietDelivery
      none emptyWorld (Error.message "unexpected end of JSON input") rfl⟩

/-! ## Score ranges -/

namespace Float64

theorem le_trans' {x y z : Float64} (h1 : x ≤ y) (h2 : y ≤ z) : x ≤ z :=
  Int.le_trans h1 h2

theorem roundUnits_one : roundUnits (one_scaled : Nat) 1 = one := by
  decide!

theorem ofInt_zero : ofInt 0 = zero := by
  decide!

theorem ofInt_one : ofInt 1 = one := by
  decide!

/-- The conversion `float64(n)` is monotone. -/
theorem ofInt_mono (a b : Int) (h : a ≤ b) : ofInt a ≤ ofInt b := by
  unfold ofInt ofRatio
  apply roundUnits_mono _ _ 1 1 (by norm_num) (by norm_num)
  push_cast
  rw [mul_one, mul_one]
  exact Int.mul_le_mul_of_nonneg_right h (Int.ofNat_nonneg _)

/-- A positive value divided by itself is `1.0`. -/
theorem div_self (y : Float64) (hy : 0 < y.scaled) : div y y = one := by
  unfold div
  rw [Int.sign_eq_one_of_pos hy, one_mul]
  have hn : 0 < y.scaled.natAbs := Int.natAbs_pos.mpr (by omega)
  have e : y.scaled * (one_scaled : Nat)
      = ((one_scaled : Nat) : Int) * (y.scaled.natAbs : Nat) := by
    rw [Int.natAbs_of_nonneg hy.le]
    ring
  have h := roundUnits_scale ((one_scaled : Nat) : Int) 1 y.scaled.natAbs hn
  rw [Nat.one_mul] at h
  rw [e, h]
  exact roundUnits_one

/-- The quotient of a non-negative value by a positive one at least as large
is in `[0, 1]`. -/
theorem div_mem_unit (x y : Float64) (hx : 0 ≤ x.scaled) (hxy : x ≤ y) (hy : 0 < y.scaled) :
    zero ≤ div x y ∧ div x y ≤ one := by
  constructor
  · show (0 : Int) ≤ (div x y).scaled
    unfold div
    apply roundUnits_nonneg
    rw [Int.sign_eq_one_of_pos hy, one_mul]
    exact Int.mul_nonneg hx (Int.ofNat_nonneg _)
  · have h := div_le_div_right x y y hy hxy
    rw [div_self y hy] at h
    exact h

/-- For `q` in `[0, 1]`, `1 - q` is in `[0, 1]`. -/
theorem one_sub_mem_unit (q : Float64) (h0 : zero ≤ q) (h1 : q ≤ one) :
    zero ≤ sub one q ∧ sub one q ≤ one := by
  have h0 : (0 : Int) ≤ q.scaled := h0
  have h1 : q.scaled ≤ one.scaled := h1
  constructor
  · show (0 : Int) ≤ (sub one q).scaled
    unfold sub
    apply roundUnits_nonneg
    omega
  · have h : (roundUnits (one.scaled - q.scaled) 1).scaled
        ≤ (roundUnits ((one_scaled : Nat) : Int) 1).scaled := by
      apply roundUnits_mono _ _ 1 1 (by norm_num) (by norm_num)
      have e : one.scaled = ((one_scaled : Nat) : Int) := rfl
      rw [e]
      push_cast
      omega
    rw [roundUnits_one] at h
    exact h

end Float64

/-- The skill score is in `[0, 1]`. -/
theorem calculateSkillMatch_mem_unit (hasUnicode : List Char → List Char → Bool)
    (userSkills taskSkills : List String) :
    Float64.zero ≤ calculateSkillMatch hasUnicode userSkills taskSkills
      ∧ calculateSkillMatch hasUnicode userSkills taskSkills ≤ Float64.one := by
  unfold calculateSkillMatch
  by_cases h0 : taskSkills.length = 0
  · rw [if_pos h0]
    constructor <;> decide!
  · rw [if_neg h0, countMatches_eq_countP, zero_add]
    have hc : taskSkills.countP (fun taskSkill =>
        userSkills.any (fun userSkill => EqualFold hasUnicode taskSkill userSkill))
        ≤ taskSkills.length := List.countP_le_length _
    generalize taskSkills.countP (fun taskSkill =>
      userSkills.any (fun userSkill => EqualFold hasUnicode taskSkill userSkill)) = n at hc ⊢
    have hx : (0 : Int) ≤ (Float64.ofInt (n : Nat)).scaled := by
      have h := Float64.ofInt_mono 0 (n : Nat) (Int.ofNat_nonneg _)
      rw [Float64.ofInt_zero] at h
      exact h
    have hxy : Float64.ofInt (n : Nat) ≤ Float64.ofInt (taskSkills.length : Nat) :=
      Float64.ofInt_mono _ _ (by exact_mod_cast hc)
    have hy : (0 : Int) < (Float64.ofInt (taskSkills.length : Nat)).scaled := by
      have h := Float64.ofInt_mono 1 (taskSkills.length : Nat) (by omega)
      rw [Float64.ofInt_one] at h
      have hpos : (0 : Int) < Float64.one.scaled := by
        show (0 : Int) < ((Float64.one_scaled : Nat) : Int)
        exact_mod_cast Float64.one_scaled_pos
      exact lt_of_lt_of_le hpos h
    exact Float64.div_mem_unit _ _ hx hxy hy

/-- The load score of a non-negative load is in `[0, 1]`. -/
theorem calculateLoadScore_mem_unit (currentLoad maxCapacity : Int) (hload : 0 ≤ currentLoad) :
    Float64.zero ≤ calculateLoadScore currentLoad maxCapacity
      ∧ calculateLoadScore currentLoad maxCapacity ≤ Float64.one := by
  unfold calculateLoadScore
  by_cases h0 : maxCapacity = 0
  · rw [if_pos h0]
    constructor <;> decide!
  · rw [if_neg h0]
    by_cases h1 : currentLoad ≥ maxCapacity
    · rw [if_pos h1]
      constructor <;> decide!
    · rw [if_neg h1]
      simp only []
      have hone : Float64.ofRatio 1 1 = Float64.one := by decide!
      rw [hone]
      have hx : (0 : Int) ≤ (Float64.ofInt currentLoad).scaled := by
        have h := Float64.ofInt_mono 0 currentLoad hload
        rw [Float64.ofInt_zero] at h
        exact h
      have hxy : Float64.ofInt currentLoad ≤ Float64.ofInt maxCapacity :=
        Float64.ofInt_mono _ _ (by omega)
      have hy : (0 : Int) < (Float64.ofInt maxCapacity).scaled := by
        have h := Float64.ofInt_mono 1 maxCapacity (by omega)
        rw [Float64.ofInt_one] at h
        have hpos : (0 : Int) < Float64.one.scaled := by
          show (0 : Int) < ((Float64.one_scaled : Nat) : Int)
          exact_mod_cast Float64.one_scaled_pos
        exact lt_of_lt_of_le hpos h
      obtain ⟨q0, q1⟩ := Float64.div_mem_unit _ _ hx hxy hy
      exact Float64.one_sub_mem_unit _ q0 q1

/-- The priority bonus is in `[0.2, 1.0]`. -/
theorem calculatePriorityBonus_mem (priority : Int) :
    Float64.ofRatio 2 10 ≤ calculatePriorityBonus priority
      ∧ calculatePriorityBonus priority ≤ Float64.one := by
  rw [calculatePriorityBonus_eq_clamp]
  have h1 : Float64.div (Float64.ofInt 1) (Float64.ofInt 5) = Float64.ofRatio 2 10 := by
    decide!
  have h5 : Float64.div (Float64.ofInt 5) (Float64.ofInt 5) = Float64.one := by
    decide!
  constructor
  · rw [← h1]
    exact calculatePriorityBonus_mono_clamped 1 _ (le_refl _) (by omega) (by omega)
  · rw [← h5]
    exact calculatePriorityBonus_mono_clamped _ 5 (by omega) (by omega) (le_refl _)

/-- The weighted sum of a skill score and a load score in `[0, 1]` and of a
priority bonus in `[0.2, 1.0]` is in `[0.04, 1.0]`. -/
theorem totalScore_mem (s l p : Float64) (hs0 : Float64.zero ≤ s) (hs1 : s ≤ Float64.one)
    (hl0 : Float64.zero ≤ l) (hl1 : l ≤ Float64.one) (hp0 : Float64.ofRatio 2 10 ≤ p)
    (hp1 : p ≤ Float64.one) :
    Float64.ofRatio 4 100
        ≤ Float64.add
            (Float64.add (Float64.mul s (Float64.ofRatio 4 10))
              (Float64.mul l (Float64.ofRatio 4 10)))
            (Float64.mul p (Float64.ofRatio 2 10))
      ∧ Float64.add
            (Float64.add (Float64.mul s (Float64.ofRatio 4 10))
              (Float64.mul l (Float64.ofRatio 4 10)))
            (Float64.mul p (Float64.ofRatio 2 10)) ≤ Float64.one := by
  have c4 : (0 : Int) ≤ (Float64.ofRatio 4 10).scaled := by decide!
  have c2 : (0 : Int) ≤ (Float64.ofRatio 2 10).scaled := by decide!
  have z0 : (0 : Int) ≤ Float64.zero.scaled := le_refl _
  have hs0' : (0 : Int) ≤ s.scaled := hs0
  have hl0' : (0 : Int) ≤ l.scaled := hl0
  have hp0' : (0 : Int) ≤ p.scaled := Int.le_trans c2 hp0
  have r4 : Float64.ofRatio 4 10 ≤ Float64.ofRatio 4 10 := Int.le_refl _
  have r2 : Float64.ofRatio 2 10 ≤ Float64.ofRatio 2 10 := Int.le_refl _
  constructor
  · have hlow : Float64.ofRatio 4 100
        ≤ Float64.add
            (Float64.add (Float64.mul Float64.zero (Float64.ofRatio 4 10))
              (Float64.mul Float64.zero (Float64.ofRatio 4 10)))
            (Float64.mul (Float64.ofRatio 2 10) (Float64.ofRatio 2 10)) := by decide!
    refine Float64.le_trans' hlow ?_
    apply Float64.add_le_add
    · apply Float64.add_le_add
      · exact Float64.mul_le_mul _ _ _ _ z0 c4 hs0 r4
      · exact Float64.mul_le_mul _ _ _ _ z0 c4 hl0 r4
    · exact Float64.mul_le_mul _ _ _ _ c2 c2 hp0 r2
  · have hhigh : Float64.add
            (Float64.add (Float64.mul Float64.one (Float64.ofRatio 4 10))
              (Float64.mul Float64.one (Float64.ofRatio 4 10)))
            (Float64.mul Float64.one (Float64.ofRatio 2 10)) ≤ Float64.one := by decide!
    refine Float64.le_trans' ?_ hhigh
    apply Float64.add_le_add
    · apply Float64.add_le_add
      · exact Float64.mul_le_mul _ _ _ _ hs0' c4 hs1 r4
      · exact Float64.mul_le_mul _ _ _ _ hl0' c4 hl1 r4
    · exact Float64.mul_le_mul _ _ _ _ hp0' c2 hp1 r2

/-- C15. For every task and every candidate of the pool whose current load is
non-negative (whatever its capacity, so in particular for a non-negative one),
the result `calculateScores` produces for that candidate has its skill score
and its load score in `[0, 1]`, its priority bonus in `[0.2, 1.0]` and its
total score in `[0.04, 1.0]`, the bounds being the `float64` constants. -/
theorem calculateScores_bounds (hasUnicode : List Char → List Char → Bool) (task : Task)
    (users : List User) (i : Nat) (user : User) (hi : users[i]? = some user)
    (hload : 0 ≤ user.CurrentLoad) :
    ∃ r, (calculateScores hasUnicode task users)[i]? = some r
      ∧ r.UserID = user.ID
      ∧ Float64.zero ≤ r.SkillScore ∧ r.SkillScore ≤ Float64.one
      ∧ Float64.zero ≤ r.LoadScore ∧ r.LoadScore ≤ Float64.one
      ∧ Float64.ofRatio 2 10 ≤ r.PriorityBonus ∧ r.PriorityBonus ≤ Float64.one
      ∧ Float64.ofRatio 4 100 ≤ r.TotalScore ∧ r.TotalScore ≤ Float64.one := by
  obtain ⟨s0, s1⟩ := calculateSkillMatch_mem_unit hasUnicode user.Skills task.Skills
  obtain ⟨l0, l1⟩ := calculateLoadScore_mem_unit user.CurrentLoad user.MaxCapacity hload
  obtain ⟨p0, p1⟩ := calculatePriorityBonus_mem task.Priority
  obtain ⟨t0, t1⟩ := totalScore_mem _ _ _ s0 s1 l0 l1 p0 p1
  refine ⟨scoreUser hasUnicode task user, ?_, rfl, s0, s1, l0, l1, p0, p1, t0, t1⟩
  simp [calculateScores_eq_map, hi]

/-- An instance of C15: candidate A of the scoring scenario (load 2/10). -/
theorem calculateScores_bounds_witness :
    ∃ r, (calculateScores noUnicode scenarioTask scenarioUsers)[0]? = some r
      ∧ r.UserID = (1 : Int)
      ∧ Float64.zero ≤ r.SkillScore ∧ r.SkillScore ≤ Float64.one
      ∧ Float64.zero ≤ r.LoadScore ∧ r.LoadScore ≤ Float64.one
      ∧ Float64.ofRatio 2 10 ≤ r.PriorityBonus ∧ r.PriorityBonus ≤ Float64.one
      ∧ Float64.ofRatio 4 100 ≤ r.TotalScore ∧ r.TotalScore ≤ Float64.one :=
  calculateScores_bounds noUnicode scenarioTask scenarioUsers 0
    { ID := 1, Name := "A", Email := "", Role := "User", Skills := ["php", "laravel", "go"],
      CurrentLoad := 2, MaxCapacity := 10 } rfl (by decide)

/-! ## The priority term and the winner -/

/-- C16, as stated, fails: on the same pool of two candidates the task at
priority 1 is given to the first candidate (both totals are `0.38`, a tie) and
the same task at priority 2 to the second (`0.42` against
`0.42000000000000004`). -/
theorem FindBestAssignee_priority_changes_winner :
    tieTask 2 = { tieTask 1 with Priority := 2 }
      ∧ (calculateScores noUnicode (tieTask 1) tieUsers).map (fun r => r.TotalScore)
          = [Float64.ofRatio 38 100, Float64.ofRatio 38 100]
      ∧ (calculateScores noUnicode (tieTask 2) tieUsers).map (fun r => r.TotalScore)
          = [Float64.ofRatio 42 100,
             ⟨(Float64.ofRatio 42 100).scaled + (Nat.shiftLeft 1 (1074 - 54) : Nat)⟩]
      ∧ winnerID (FindBestAssignee noUnicode (fixedCollaborators tieUsers none none)
          (tieTask 1) emptyWorld) = some 1
      ∧ winnerID (FindBestAssignee noUnicode (fixedCollaborators tieUsers none none)
          (tieTask 2) emptyWorld) = some 2 := by
  refine ⟨rfl, by decide!, by decide!, by decide!, by decide!⟩

/-- Reading a position of the scores is scoring the candidate at that
position. -/
theorem read_calculateScores (hasUnicode : List Char → List Char → Bool) (task : Task)
    (users : List User) (j : Nat) (hj : j < users.length) :
    read (calculateScores hasUnicode task users) j
      = scoreUser hasUnicode task (users.get ⟨j, hj⟩) := by
  unfold read
  rw [List.getD_eq_getElem _ default (by rw [length_calculateScores]; exact hj)]
  simp [calculateScores_eq_map]

/-- Every candidate gets the priority bonus of the task. -/
theorem calculateScores_priorityBonus (hasUnicode : List Char → List Char → Bool)
    (task : Task) (users : List User) (r : AssignmentResult)
    (hr : r ∈ calculateScores hasUnicode task users) :
    r.PriorityBonus = calculatePriorityBonus task.Priority := by
  rw [calculateScores_eq_map] at hr
  obtain ⟨user, _, e⟩ := List.mem_map.mp hr
  rw [← e]
  rfl

/-- A change of priority never reverses the order of two totals: a candidate
strictly below another under one priority is not strictly above it under
another. -/
theorem scoreUser_order (hasUnicode : List Char → List Char → Bool) (task : Task)
    (priority : Int) (u v : User)
    (h : (scoreUser hasUnicode task u).TotalScore < (scoreUser hasUnicode task v).TotalScore) :
    (scoreUser hasUnicode { task with Priority := priority } u).TotalScore
      ≤ (scoreUser hasUnicode { task with Priority := priority } v).TotalScore := by
  by_contra hcon
  have hlt : (scoreUser hasUnicode { task with Priority := priority } v).TotalScore.scaled
      < (scoreUser hasUnicode { task with Priority := priority } u).TotalScore.scaled :=
    Int.lt_of_not_ge hcon
  have h : (scoreUser hasUnicode task u).TotalScore.scaled
      < (scoreUser hasUnicode task v).TotalScore.scaled := h
  by_cases hb :
      Float64.add
          (Float64.mul (calculateSkillMatch hasUnicode u.Skills task.Skills)
            (Float64.ofRatio 4 10))
          (Float64.mul (calculateLoadScore u.CurrentLoad u.MaxCapacity) (Float64.ofRatio 4 10))
        ≤ Float64.add
          (Float64.mul (calculateSkillMatch hasUnicode v.Skills task.Skills)
            (Float64.ofRatio 4 10))
          (Float64.mul (calculateLoadScore v.CurrentLoad v.MaxCapacity) (Float64.ofRatio 4 10))
  · have hle := Float64.add_le_add _ _
      (Float64.mul (calculatePriorityBonus priority) (Float64.ofRatio 2 10))
      (Float64.mul (calculatePriorityBonus priority) (Float64.ofRatio 2 10)) hb (Int.le_refl _)
    have hle : (scoreUser hasUnicode { task with Priority := priority } u).TotalScore.scaled
        ≤ (scoreUser hasUnicode { task with Priority := priority } v).TotalScore.scaled := hle
    omega
  · have hb : Float64.add
          (Float64.mul (calculateSkillMatch hasUnicode v.Skills task.Skills)
            (Float64.ofRatio 4 10))
          (Float64.mul (calculateLoadScore v.CurrentLoad v.MaxCapacity) (Float64.ofRatio 4 10))
        ≤ Float64.add
          (Float64.mul (calculateSkillMatch hasUnicode u.Skills task.Skills)
            (Float64.ofRatio 4 10))
          (Float64.mul (calculateLoadScore u.CurrentLoad u.MaxCapacity)
            (Float64.ofRatio 4 10)) :=
      Int.le_of_lt (Int.lt_of_not_ge hb)
    have hle := Float64.add_le_add _ _
      (Float64.mul (calculatePriorityBonus task.Priority) (Float64.ofRatio 2 10))
      (Float64.mul (calculatePriorityBonus task.Priority) (Float64.ofRatio 2 10)) hb
      (Int.le_refl _)
    have hle : (scoreUser hasUnicode task v).TotalScore.scaled
        ≤ (scoreUser hasUnicode task u).TotalScore.scaled := hle
    omega

/-- When one candidate's total is strictly above every other candidate's,
`FindBestAssignee` returns the result of that candidate. -/
theorem FindBestAssignee_strict_best {σ : Type} (hasUnicode : List Char → List Char → Bool)
    (c : Collaborators σ) (task : Task) (w : World σ) (users : List User) (s1 : σ)
    (hget : c.GetActiveUsers w.state = (Except.ok users, s1)) (hne : users ≠ [])
    (i : Nat) (hi : i < users.length)
    (hbest : ∀ j, j < users.length → j ≠ i →
      (read (calculateScores hasUnicode task users) j).TotalScore
        < (read (calculateScores hasUnicode task users) i).TotalScore) :
    FindBestAssignee hasUnicode c task w
      = some (Except.ok (read (calculateScores hasUnicode task users) i),
          ⟨s1, w.calls ++ [Call.GetActiveUsers]⟩) := by
  obtain ⟨sorted, _, e, hs, hr⟩ :=
    FindBestAssignee_sorted hasUnicode c task w users s1 hget hne
  have hpos : 0 < users.length := List.length_pos.mpr hne
  obtain ⟨k, _, hk, ek⟩ := hr.origin 0 (le_refl _) hpos
  obtain ⟨k', _, hk', ek'⟩ := hr.target i (Nat.zero_le _) hi
  have hmax : (read sorted k').TotalScore.scaled ≤ (read sorted 0).TotalScore.scaled := by
    by_cases e0 : k' = 0
    · rw [e0]
    · have := hs 0 k' (le_refl _) (by omega) hk'
      unfold scoreKey at this
      omega
  have hki : k = i := by
    by_contra hne'
    have hlt : (read (calculateScores hasUnicode task users) k).TotalScore.scaled
        < (read (calculateScores hasUnicode task users) i).TotalScore.scaled :=
      hbest k hk hne'
    rw [← ek, ek'] at hlt
    omega
  rw [e, ek, hki]

/-- C16, amended. `calculateScores` gives every candidate the priority bonus
of the task, the same for all.  For two tasks that differ only in their
priority, on the same non-empty pool: when under each of the two tasks one
candidate's total score is strictly above every other candidate's, it is the
same candidate under both, and `FindBestAssignee` selects it both times (same
`UserID`). -/
theorem FindBestAssignee_priority_independent {σ : Type}
    (hasUnicode : List Char → List Char → Bool) (c : Collaborators σ) (task : Task)
    (priority : Int) (w : World σ) (users : List User) (s1 : σ)
    (hget : c.GetActiveUsers w.state = (Except.ok users, s1)) (hne : users ≠ [])
    (i1 i2 : Nat) (h1 : i1 < users.length) (h2 : i2 < users.length)
    (hbest1 : ∀ j, j < users.length → j ≠ i1 →
      (read (calculateScores hasUnicode task users) j).TotalScore
        < (read (calculateScores hasUnicode task users) i1).TotalScore)
    (hbest2 : ∀ j, j < users.length → j ≠ i2 →
      (read (calculateScores hasUnicode { task with Priority := priority } users) j).TotalScore
        < (read (calculateScores hasUnicode { task with Priority := priority } users)
            i2).TotalScore) :
    (∀ r, r ∈ calculateScores hasUnicode task users →
        r.PriorityBonus = calculatePriorityBonus task.Priority)
      ∧ i1 = i2
      ∧ ∃ best1 best2,
          FindBestAssignee hasUnicode c task w
            = some (Except.ok best1, ⟨s1, w.calls ++ [Call.GetActiveUsers]⟩)
          ∧ FindBestAssignee hasUnicode c { task with Priority := priority } w
            = some (Except.ok best2, ⟨s1, w.calls ++ [Call.GetActiveUsers]⟩)
          ∧ best1.UserID = (users.get ⟨i1, h1⟩).ID
          ∧ best2.UserID = best1.UserID := by
  have hsame : i1 = i2 := by
    by_contra hdiff
    have a := hbest1 i2 h2 (fun e => hdiff e.symm)
    have b := hbest2 i1 h1 hdiff
    rw [read_calculateScores hasUnicode _ users i1 h1,
      read_calculateScores hasUnicode _ users i2 h2] at a b
    have a' := scoreUser_order hasUnicode task priority _ _ a
    have a' : (scoreUser hasUnicode { task with Priority := priority }
        (users.get ⟨i2, h2⟩)).TotalScore.scaled
        ≤ (scoreUser hasUnicode { task with Priority := priority }
          (users.get ⟨i1, h1⟩)).TotalScore.scaled := a'
    have b : (scoreUser hasUnicode { task with Priority := priority }
        (users.get ⟨i1, h1⟩)).TotalScore.scaled
        < (scoreUser hasUnicode { task with Priority := priority }
          (users.get ⟨i2, h2⟩)).TotalScore.scaled := b
    omega
  refine ⟨calculateScores_priorityBonus hasUnicode task users, hsame, _, _,
    FindBestAssignee_strict_best hasUnicode c task w users s1 hget hne i1 h1 hbest1,
    FindBestAssignee_strict_best hasUnicode c { task with Priority := priority } w users s1
      hget hne i2 h2 hbest2, ?_, ?_⟩
  · rw [read_calculateScores hasUnicode _ users i1 h1]
    rfl
  · subst hsame
    rw [read_calculateScores hasUnicode _ users i1 h1,
      read_calculateScores hasUnicode _ users i1 h1]
    rfl

/-- An instance of the amended C16: of Busy and Available the second has the
strictly higher total at priority 3 and at priority 5, and is selected both
times. -/
theorem FindBestAssignee_priority_independent_witness :
    winnerID (FindBestAssignee noUnicode (fixedCollaborators loadUsers none none)
        { loadTask with Priority := 5 } emptyWorld) = some 2
      ∧ ((∀ r, r ∈ calculateScores noUnicode loadTask loadUsers →
          r.PriorityBonus = calculatePriorityBonus loadTask.Priority)
        ∧ 1 = 1
        ∧ ∃ best1 best2,
            FindBestAssignee noUnicode (fixedCollaborators loadUsers none none) loadTask
                emptyWorld
              = some (Except.ok best1, ⟨(), emptyWorld.calls ++ [Call.GetActiveUsers]⟩)
            ∧ FindBestAssignee noUnicode (fixedCollaborators loadUsers none none)
                { loadTask with Priority := 5 } emptyWorld
              = some (Except.ok best2, ⟨(), emptyWorld.calls ++ [Call.GetActiveUsers]⟩)
            ∧ best1.UserID = (loadUsers.get ⟨1, by decide⟩).ID
            ∧ best2.UserID = best1.UserID) :=
  ⟨by decide!,
    FindBestAssignee_priority_independent noUnicode (fixedCollaborators loadUsers none none)
      loadTask 5 emptyWorld loadUsers () rfl (by decide) 1 1 (by decide) (by decide)
      (by decide!) (by decide!)⟩

end TaskOptimizer
